import Mathlib

/-!
# parselib: parser combinators over a lexed token stream

A shallow embedding of `parsers.hpp`, `parsers.cpp`, `language.cpp` and of the
lexer, `lexer.hpp` and `lexer.cpp`.

* Iterators (`CLIterator`) are offsets into the token vector they point into;
  the vector itself is carried by the `State` next to the three offsets.
* AST nodes live on an explicit `Heap`; an `AST*` is `Option Nat`
  (`none` is `nullptr`, `some a` is the address `a`, an index into the heap).
* A call is a function `State → Heap → Except Fault (State × Heap)`.
  `Fault.undefined` stands for a read through an iterator or pointer that does
  not point at an object, `Fault.assertion` for a failed `assert`, and
  `Fault.fuel` for a `while` loop that used up the step budget of the model.
* A `std::string` is a `String`, read through its list of characters; a
  compiled `std::regex` is the function that gives what `std::regex_search`
  finds in a text.
-/

namespace parselib

/-! ## Data model -/

/-- The type `Tag` of `lexer.hpp` (`unsigned int`); only compared for equality. -/
abbrev Tag := Nat

/-- The struct `Lexem` of `lexer.hpp`. -/
structure Lexem where
  content : String
  start : Nat
  length : Nat
  end_ : Nat
  tag : Tag
deriving DecidableEq, Repr

/-- The type `Lexems` of `lexer.hpp`. -/
abbrev Lexems := List Lexem

/-- Reasons for which a call produces no result state. -/
inductive Fault where
  | undefined
  | assertion
  | fuel
deriving DecidableEq, Repr

/-- An `AST*`: `none` is the null pointer. -/
abbrev Ptr := Option Nat

/-- Modelled from the spec: the node classes are supplied by the client, the
repository only declares the abstract `AST` (`append`, `pop`, `parent`). A node
owns an ordered collection of children; `cls` and `content` record the class
the node was built from and the token text handed to its constructor. -/
structure ASTNode where
  parent : Ptr
  children : List Nat
  cls : String
  content : String
deriving DecidableEq, Repr

/-- The free store holding the AST nodes. `built` and `popped` are ghost logs:
the addresses constructed by `before_action`, and the addresses handed to
`pop` by `fail_action`. -/
structure Heap where
  nodes : List ASTNode
  built : List Nat
  popped : List Nat
deriving DecidableEq, Repr

/-- The class `SyntaxTree` of `language.hpp`: a root and a cursor. -/
structure SyntaxTree where
  root : Ptr
  cursor : Ptr
deriving DecidableEq, Repr

/-- The constructor `SyntaxTree::SyntaxTree(AST* root)`. -/
def SyntaxTree.mk_root (root : Ptr) : SyntaxTree := ⟨root, root⟩

/-- The struct `State` of `parsers.hpp`. The three iterators are offsets into
`lexems`, the vector they point into. -/
structure State where
  lexems : Lexems
  begin : Nat
  end_ : Nat
  current : Nat
  tree : SyntaxTree
  accept : Bool
deriving DecidableEq, Repr

/-- The default constructor `State::State()`. -/
def State.default : State :=
  { lexems := [], begin := 0, end_ := 0, current := 0,
    tree := SyntaxTree.mk_root none, accept := false }

/-- The function `terminate` of `parsers.cpp`. -/
def terminate (state : State) : Bool := state.current == state.end_

/-- The result of calling a combinator or an action. -/
abbrev Result := Except Fault (State × Heap)

/-- The interface `IParser`: `operator()` and `is_valid`. -/
structure IParser where
  run : State → Heap → Result
  is_valid : Bool

/-! ## Heap primitives -/

/-- Modelled from the spec: `node->append(child)` of a client node class adds
the child to the children of the node at address `a`. -/
def Heap.node_append (h : Heap) (a child : Nat) : Except Fault Heap :=
  match h.nodes[a]? with
  | none => .error .undefined
  | some n => .ok { h with nodes := h.nodes.set a { n with children := n.children ++ [child] } }

/-- Modelled from the spec: `node->pop(child)` of a client node class removes
the child from the children of the node at address `a`. -/
def Heap.node_pop (h : Heap) (a child : Nat) : Except Fault Heap :=
  match h.nodes[a]? with
  | none => .error .undefined
  | some n => .ok { h with nodes := h.nodes.set a { n with children := n.children.erase child } }

/-- The method `SyntaxTree::append` of `language.cpp`. -/
def SyntaxTree.append (t : SyntaxTree) (h : Heap) (tree : Nat) : Except Fault Heap :=
  match t.cursor with
  | some c => h.node_append c tree
  | none => .ok h

/-- The method `SyntaxTree::pop` of `language.cpp`. -/
def SyntaxTree.pop (t : SyntaxTree) (h : Heap) (subtree : Nat) : Except Fault Heap :=
  match t.root with
  | some r => h.node_pop r subtree
  | none => .ok h

/-! ## Leaf combinators -/

/-- The method `Atom::operator()` of `parsers.cpp`:
`state.accept = state.current->tag == _tag; state.current += state.accept;`.
There is no test of `current` against `end`. -/
def Atom (tag : Tag) : IParser where
  run := fun state h =>
    match state.lexems[state.current]? with
    | none => .error .undefined
    | some l =>
      let acc : Bool := l.tag == tag
      .ok ({ state with accept := acc, current := state.current + acc.toNat }, h)
  is_valid := tag != 0

/-- The method `Any::operator()` of `parsers.cpp`. -/
def Any : IParser where
  run := fun state h => .ok ({ state with accept := true, current := state.current + 1 }, h)
  is_valid := true

/-! ## Composite combinators -/

/-- The method `And::operator()` of `parsers.hpp`. -/
def And (left right : IParser) : IParser where
  run := fun state h =>
    if terminate state then .ok (state, h) else
    match left.run state h with
    | .error e => .error e
    | .ok (l_result, h1) =>
      if !l_result.accept then .ok ({ state with accept := false }, h1) else
      match right.run l_result h1 with
      | .error e => .error e
      | .ok (r_result, h2) =>
        if !r_result.accept then .ok ({ state with accept := false }, h2) else
        .ok (r_result, h2)
  is_valid := left.is_valid && right.is_valid

/-- The method `Or::operator()` of `parsers.hpp`. -/
def Or (left right : IParser) : IParser where
  run := fun state h =>
    if terminate state then .ok (state, h) else
    match left.run state h with
    | .error e => .error e
    | .ok (result, h1) =>
      if result.accept then .ok (result, h1) else
      match right.run state h1 with
      | .error e => .error e
      | .ok (result, h2) =>
        if result.accept then .ok (result, h2) else
        .ok ({ state with accept := false }, h2)
  is_valid := left.is_valid || right.is_valid

/-- The `while` loop of `OneOrMore::operator()`; `fuel` bounds the number of
iterations. -/
def OneOrMore.loop (p : IParser) : Nat → State → Heap → Result
  | 0, result, h =>
    if !terminate result && result.accept then .error .fuel else .ok (result, h)
  | fuel + 1, result, h =>
    if !terminate result && result.accept then
      match p.run result h with
      | .error e => .error e
      | .ok (temp, h1) =>
        if temp.accept == false then .ok (result, h1) else
        OneOrMore.loop p fuel temp h1
    else .ok (result, h)

/-- The method `OneOrMore::operator()` of `parsers.hpp`. -/
def OneOrMore (fuel : Nat) (p : IParser) : IParser where
  run := fun state h =>
    match p.run state h with
    | .error e => .error e
    | .ok (result, h1) => OneOrMore.loop p fuel result h1
  is_valid := p.is_valid

/-! ## Decorated combinator and tree-building actions -/

/-- The type `Action` of `parsers.hpp`, a `std::function<void(State&)>`;
`none` is an empty function object. -/
abbrev Action := Option (State → Heap → Result)

/-- The action `skip` of `parsers.hpp`: does nothing. -/
def skip : Action := some (fun state h => .ok (state, h))

/-- Calls an action when it holds a callable: `if (a) { a(state); }`. -/
def Action.invoke (a : Action) (state : State) (h : Heap) : Result :=
  match a with
  | some f => f state h
  | none => .ok (state, h)

/-- The class `Parser` of `parsers.hpp`: an owned inner combinator
(the member `_parser`, `none` when it is null), three actions and a name. -/
structure Parser where
  inner : Option IParser
  before : Action
  on_accept : Action
  on_fail : Action
  name : String

/-- The default constructor `Parser::Parser()`. -/
def Parser.empty : Parser :=
  { inner := none, before := skip, on_accept := skip, on_fail := skip, name := "" }

/-- The converting constructor `Parser::Parser(const This&)`. -/
def Parser.of (p : IParser) : Parser :=
  { inner := some p, before := skip, on_accept := skip, on_fail := skip, name := "" }

/-- The method `Parser::is_valid` of `parsers.cpp`. -/
def Parser.is_valid (p : Parser) : Bool :=
  match p.inner with
  | some q => q.is_valid
  | none => false

/-- The method `Parser::operator()` of `parsers.cpp`. -/
def Parser.call (p : Parser) (state : State) (h : Heap) : Result :=
  match p.inner with
  | none => .error .assertion
  | some q =>
    if !q.is_valid then .error .assertion else
    match p.before.invoke state h with
    | .error e => .error e
    | .ok (state, h1) =>
      match q.run state h1 with
      | .error e => .error e
      | .ok (result, h2) =>
        if result.accept then p.on_accept.invoke result h2
        else p.on_fail.invoke result h2

/-- A `Parser` seen through the interface `IParser`. -/
def Parser.toIParser (p : Parser) : IParser :=
  { run := p.call, is_valid := p.is_valid }

/-- The expression `new Tree(...)`: the fresh node gets the next address. -/
def Heap.alloc (h : Heap) (n : ASTNode) : Nat × Heap :=
  (h.nodes.length, { h with nodes := h.nodes ++ [n] })

/-- The getter `AST::parent()` through a pointer to the node at address `a`. -/
def Heap.parent (h : Heap) (a : Nat) : Except Fault Ptr :=
  match h.nodes[a]? with
  | none => .error .undefined
  | some n => .ok n.parent

/-- The setter `AST::parent(AST*)` through a pointer to the node at address `a`. -/
def Heap.set_parent (h : Heap) (a : Nat) (p : Ptr) : Except Fault Heap :=
  match h.nodes[a]? with
  | none => .error .undefined
  | some n => .ok { h with nodes := h.nodes.set a { n with parent := p } }

/-- The function template `before_action<Tree>` of `parsers.hpp`; `cls` names
the class `Tree`. -/
def before_action (cls : String) (state : State) (h : Heap) : Result :=
  let (candidate, h0) := h.alloc { parent := none, children := [], cls := cls, content := "" }
  let h1 : Heap := { h0 with built := candidate :: h0.built }
  match state.tree.append h1 candidate with
  | .error e => .error e
  | .ok h2 =>
    match h2.set_parent candidate state.tree.cursor with
    | .error e => .error e
    | .ok h3 => .ok ({ state with tree := { state.tree with cursor := some candidate } }, h3)

/-- The function `accept_action` of `parsers.hpp`. -/
def accept_action (state : State) (h : Heap) : Result :=
  match state.tree.cursor with
  | none => .error .undefined
  | some c =>
    match h.parent c with
    | .error e => .error e
    | .ok p => .ok ({ state with tree := { state.tree with cursor := p } }, h)

/-- The function `fail_action` of `parsers.hpp`. -/
def fail_action (state : State) (h : Heap) : Result :=
  match state.tree.cursor with
  | none => .error .undefined
  | some to_delete =>
    match h.parent to_delete with
    | .error e => .error e
    | .ok parent =>
      let state1 : State := { state with tree := { state.tree with cursor := parent } }
      match parent with
      | some p =>
        match h.node_pop p to_delete with
        | .error e => .error e
        | .ok h1 => .ok (state1, { h1 with popped := to_delete :: h1.popped })
      | none => .ok (state1, h)

/-- The function template `primary_type_builder<Tree>` of `parsers.hpp`; `cls`
names the class `Tree`, whose constructor receives the content of the token
before `current`. -/
def primary_type_builder (cls : String) (state : State) (h : Heap) : Result :=
  if state.current = 0 then .error .undefined else
  match state.lexems[state.current - 1]? with
  | none => .error .undefined
  | some target =>
    let (tree, h1) := h.alloc { parent := none, children := [], cls := cls, content := target.content }
    match h1.set_parent tree state.tree.cursor with
    | .error e => .error e
    | .ok h2 =>
      match state.tree.append h2 tree with
      | .error e => .error e
      | .ok h3 => .ok (state, h3)

/-- The function template `bind<Tree>(p, n)` of `parsers.hpp`. -/
def bind (cls : String) (p : Parser) : Parser :=
  { p with before := some (before_action cls), on_accept := some accept_action,
           on_fail := some fail_action, name := cls }

/-- The function template `bind_primary<Tree>(p, n)` of `parsers.hpp`. -/
def bind_primary (cls : String) (p : Parser) : Parser :=
  { p with on_accept := some (primary_type_builder cls), name := cls }

/-! ## Driver -/

/-- The class `Driver` of `parsers.hpp`. -/
structure Driver where
  parser : Parser
  finish : State

/-- The constructor `Driver::Driver(const Parser&)`. -/
def Driver.of (p : Parser) : Driver := { parser := p, finish := State.default }

/-- The method `Driver::is_accept` of `parsers.cpp`. -/
def Driver.is_accept (d : Driver) (start : State) : Bool :=
  d.finish.accept && d.finish.current == start.end_

/-- The state `start` built by `Driver::accept` and `Driver::parse`. -/
def Driver.start (input : Lexems) (tree : Ptr) : State :=
  { lexems := input, begin := 0, end_ := input.length, current := 0,
    tree := SyntaxTree.mk_root tree, accept := false }

/-- The method `Driver::accept` of `parsers.cpp`; returns the verdict, the
driver with its `_finish` member updated, and the heap. -/
def Driver.accept (d : Driver) (input : Lexems) (tree : Ptr) (h : Heap) :
    Except Fault (Bool × Driver × Heap) :=
  if input.length == 0 then .ok (false, d, h) else
  let start := Driver.start input tree
  match d.parser.call start h with
  | .error e => .error e
  | .ok (fin, h1) =>
    let d1 : Driver := { d with finish := fin }
    .ok (d1.is_accept start, d1, h1)

/-- The method `Driver::parse` of `parsers.cpp`. -/
def Driver.parse (d : Driver) (input : Lexems) (tree : Ptr) (h : Heap) :
    Except Fault (SyntaxTree × Driver × Heap) :=
  if input.length == 0 then .ok (SyntaxTree.mk_root none, d, h) else
  let start := Driver.start input tree
  match d.parser.call start h with
  | .error e => .error e
  | .ok (fin, h1) =>
    let d1 : Driver := { d with finish := fin }
    .ok (if d1.is_accept start then d1.finish.tree else SyntaxTree.mk_root none, d1, h1)

/-! ## Grammars: combinators built from the library's constructors -/

/-- How a `Parser` is decorated: left with the default actions, bound to a node
class with `bind`, or bound to a terminal node class with `bind_primary`. -/
inductive Binding where
  | plain
  | node (cls : String)
  | primary (cls : String)
deriving DecidableEq, Repr

/-- Applies a `Binding` to a `Parser`. -/
def Binding.decorate : Binding → Parser → Parser
  | .plain, p => p
  | .node cls, p => bind cls p
  | .primary cls, p => bind_primary cls p

/-- Combinator expressions built from `Atom`, `Any`, `And`, `Or`, `OneOrMore`
and the decorated `Parser`. -/
inductive Grammar where
  | atom (tag : Tag)
  | any
  | and (left right : Grammar)
  | or (left right : Grammar)
  | one_or_more (p : Grammar)
  | decorated (b : Binding) (p : Grammar)
deriving DecidableEq, Repr

/-- The combinator value denoted by a `Grammar`; `fuel` is the step budget
given to every `OneOrMore` loop. -/
def Grammar.build (fuel : Nat) : Grammar → IParser
  | .atom tag => Atom tag
  | .any => Any
  | .and l r => And (l.build fuel) (r.build fuel)
  | .or l r => Or (l.build fuel) (r.build fuel)
  | .one_or_more p => OneOrMore fuel (p.build fuel)
  | .decorated b p => (b.decorate (Parser.of (p.build fuel))).toIParser

/-- The heap with no node. -/
def Heap.empty : Heap := { nodes := [], built := [], popped := [] }

/-- A token with the given tag (and some content). -/
def tok (tag : Tag) : Lexem :=
  { content := "x", start := 0, length := 1, end_ := 1, tag := tag }

/-- The method `Forward::operator()` of `parsers.cpp` together with
`Forward::is_valid`: the bound callable receives the `Forward` itself.
`fuel` bounds the depth of the self-reference. -/
def Forward (impl : Option (IParser → State → Heap → Result)) : Nat → IParser
  | 0 =>
    { run := fun _ _ => match impl with
        | none => .error .assertion
        | some _ => .error .fuel
      is_valid := impl.isSome }
  | fuel + 1 =>
    { run := fun state h => match impl with
        | none => .error .assertion
        | some f => f (Forward impl fuel) state h
      is_valid := impl.isSome }

/-- A `Forward` bound to a callable that copies its state and clears `accept`:
`Forward::Decl([](const Forward&, const State& s) { State r = s; r.accept = false; return r; })`. -/
def never : IParser :=
  Forward (some (fun _ state h => .ok ({ state with accept := false }, h))) 1

/-- The state in which the only token of a one-token input has been consumed:
`current == end`, `accept == true`. -/
def at_end_state : State :=
  { lexems := [tok 1], begin := 0, end_ := 1, current := 1,
    tree := SyntaxTree.mk_root none, accept := true }

/-- Length of the longest run of consecutive `tag`-tagged tokens of `state`
that starts at `current` and stays below `end`. -/
def run_length (tag : Tag) (state : State) : Nat :=
  (((state.lexems.drop state.current).take (state.end_ - state.current)).takeWhile
    (fun l => l.tag == tag)).length

/-! ## Specification vocabulary -/

/-- How an output state `r` relates to the input state `s` of a call: same
token vector, same range, same tree root; no consumption on failure; no
backward move on success. -/
structure Threaded (s r : State) : Prop where
  lexems : r.lexems = s.lexems
  begin : r.begin = s.begin
  end_ : r.end_ = s.end_
  root : r.tree.root = s.tree.root
  on_fail : r.accept = false → r.current = s.current
  on_accept : r.accept = true → s.current ≤ r.current

/-- A combinator all of whose results are `Threaded` from their input. -/
def Disciplined (p : IParser) : Prop :=
  ∀ s h r h1, p.run s h = .ok (r, h1) → Threaded s r

/-- An action that touches nothing but the cursor of the tree. -/
def CursorOnly (a : Action) : Prop :=
  ∀ s h r h1, a.invoke s h = .ok (r, h1) →
    ∃ c, r = { s with tree := { s.tree with cursor := c } }

/-- The children of the node at address `a` (none when there is no node). -/
def Heap.kids (h : Heap) (a : Nat) : List Nat :=
  match h.nodes[a]? with
  | some n => n.children
  | none => []

/-- The node `n` is reachable from the node `a` through children links. -/
inductive Heap.Reach (h : Heap) (a : Nat) : Nat → Prop
  | refl : Heap.Reach h a a
  | step {b c : Nat} : Heap.Reach h a b → c ∈ h.kids b → Heap.Reach h a c

/-- The node `n` is reachable from the tree root `root`; nothing is reachable
from a null root. -/
def Heap.reachable_from (h : Heap) (root : Ptr) (n : Nat) : Prop :=
  ∃ r, root = some r ∧ h.Reach r n

/-- Leak-freedom as the specification words it: every node constructed by
`before_action` is reachable from the root or was itself passed to `pop` by
`fail_action`. -/
def Heap.LeakFree (h : Heap) (root : Ptr) : Prop :=
  ∀ n ∈ h.built, h.reachable_from root n ∨ n ∈ h.popped

/-- Every node constructed by `before_action` is reachable from the root or
lies in the subtree of a node passed to `pop` by `fail_action`. -/
def Heap.Attached (h : Heap) (root : Ptr) : Prop :=
  ∀ n ∈ h.built, h.reachable_from root n ∨ ∃ a ∈ h.popped, h.Reach a n

/-- No node has a child pointer that points outside the heap. -/
def Heap.Closed (h : Heap) : Prop :=
  ∀ a, ∀ c ∈ h.kids a, c < h.nodes.length

/-- The heap `h1` comes after `h`: no node was freed, the nodes of `h` kept
their parent pointer and their links to nodes of `h`. -/
def Heap.Extends (h h1 : Heap) : Prop :=
  h.nodes.length ≤ h1.nodes.length ∧
  (∀ a b, b < h.nodes.length → b ∈ h.kids a → b ∈ h1.kids a) ∧
  (∀ a, a < h.nodes.length → h1.parent a = h.parent a)

/-- A combinator that, run with a valid cursor below the root `root`, gives the
tree back with the same cursor and keeps the heap closed and attached. -/
def TreeSafe (root : Nat) (p : IParser) : Prop :=
  ∀ s h r h1 c, p.run s h = .ok (r, h1) → s.tree.cursor = some c →
    c < h.nodes.length → h.Closed → h.Reach root c → h.Attached (some root) →
    r.tree = s.tree ∧ h1.Closed ∧ h.Extends h1 ∧ h1.Attached (some root)

/-- A heap holding one node, a root without children, and empty logs. -/
def root_heap : Heap :=
  { nodes := [⟨none, [], "Root", ""⟩], built := [], popped := [] }

/-- The rule `bind<A>(bind<B>(Atom 1) + Atom 2)`. -/
def nested_rule : Parser :=
  (Binding.node "A").decorate
    (Parser.of ((Grammar.and (.decorated (.node "B") (.atom 1)) (.atom 2)).build 0))

/-- The heap after `bind<A>(Atom 1)` parsed `[1]` under a null root. -/
def null_root_final_heap : Heap :=
  { nodes := [⟨none, [], "A", ""⟩], built := [0], popped := [] }

/-- The heap after `nested_rule` parsed `[1, 3]` under the root of `root_heap`. -/
def nested_final_heap : Heap :=
  { nodes := [⟨none, [], "Root", ""⟩, ⟨some 0, [2], "A", ""⟩, ⟨some 1, [], "B", ""⟩],
    built := [2, 1], popped := [1] }

/-- The heap `h1` comes after `h` and the nodes of `h` kept their parent
pointer. -/
def Heap.ParentsKept (h h1 : Heap) : Prop :=
  h.nodes.length ≤ h1.nodes.length ∧ ∀ a, a < h.nodes.length → h1.parent a = h.parent a

/-- A combinator that gives the tree back as it received it (same root, same
cursor) and leaves the parent pointers of the existing nodes alone. -/
def Balanced (p : IParser) : Prop :=
  ∀ s h r h1, p.run s h = .ok (r, h1) → r.tree = s.tree ∧ h.ParentsKept h1

/-- The unbound sequence `bind_primary<Num>(Atom 1) + Atom 2`. -/
def failing_sequence : Grammar :=
  .and (.decorated (.primary "Num") (.atom 1)) (.atom 2)

/-- The sequence `bind_primary<Num>(Atom 1) + bind_primary<Op>(Atom 3)`. -/
def second_sequence : Grammar :=
  .and (.decorated (.primary "Num") (.atom 1)) (.decorated (.primary "Op") (.atom 3))

/-- The rule `bind<A>(failing_sequence | second_sequence)`. -/
def choice_rule : Parser :=
  bind "A" (Parser.of ((Grammar.or failing_sequence second_sequence).build 0))

/-- The two tokens `7` (tag 1) and `+` (tag 3). -/
def two_tokens : Lexems :=
  [⟨"7", 0, 1, 1, 1⟩, ⟨"+", 1, 1, 2, 3⟩]

/-- The heap after `failing_sequence` rejected `two_tokens` under the root of
`root_heap`. -/
def after_left_heap : Heap :=
  { nodes := [⟨none, [1], "Root", ""⟩, ⟨some 0, [], "Num", "7"⟩], built := [], popped := [] }

/-- The heap after `choice_rule` parsed `two_tokens` under the root of
`root_heap`. -/
def choice_final_heap : Heap :=
  { nodes := [⟨none, [1], "Root", ""⟩, ⟨some 0, [2, 3, 4], "A", ""⟩,
      ⟨some 1, [], "Num", "7"⟩, ⟨some 1, [], "Num", "7"⟩, ⟨some 1, [], "Op", "+"⟩],
    built := [1], popped := [] }

/-- A client action that records its call: it constructs a node of class
`label` and leaves the state alone. -/
def trace_action (label : String) : Action :=
  some (fun state h => .ok (state, (h.alloc ⟨none, [], label, ""⟩).2))

/-- A client combinator that records its call and accepts without moving. -/
def traced_inner : IParser :=
  { run := fun state h =>
      .ok ({ state with accept := true }, (h.alloc ⟨none, [], "inner", ""⟩).2)
    is_valid := true }

/-- A decorated parser all of whose parts record their calls. -/
def traced_rule : Parser :=
  { inner := some traced_inner, before := trace_action "before",
    on_accept := trace_action "on_accept", on_fail := trace_action "on_fail", name := "" }

/-- A `Forward` bound to a callable that accepts and leaves the position where
it is: `Forward::Decl([](const Forward&, const State& s) { State r = s; r.accept = true; return r; })`. -/
def stay : IParser :=
  Forward (some (fun _ state h => .ok ({ state with accept := true }, h))) 1

/-- A combinator whose accepting evaluations, started below `end`, move
`current` forward without passing `end`. -/
def Progressing (p : IParser) : Prop :=
  ∀ s h r h1, s.current < s.end_ → p.run s h = .ok (r, h1) → r.accept = true →
    s.current < r.current ∧ r.current ≤ r.end_ ∧ r.end_ = s.end_

/-! ## Lexer (`lexer.hpp`, `lexer.cpp`) -/

/-- The struct `Rule` of `lexer.hpp`. The compiled `std::regex` belongs to the
standard library: it is represented by what `std::regex_search` finds in a
text, the position and the length of the match, or `none`. -/
structure Rule where
  pattern : String
  regex : List Char → Option (Nat × Nat)
  tag : Nat
  ignorable : Bool

/-- The type `Rules` of `lexer.hpp`. -/
abbrev Rules := List Rule

/-- The type `MatchObject` of `lexer.hpp`: `none` is the empty match object,
`some m` a match whose `str()` is `m`. -/
abbrev MatchObject := Option (List Char)

/-- The method `Rule::match(CSIterator, CSIterator)` of `lexer.cpp`: the match
found by the search is kept when it starts at position 0. -/
def Rule.match_range (r : Rule) (text : List Char) : MatchObject :=
  match r.regex text with
  | some (position, length) => if position == 0 then some (text.take length) else none
  | none => none

/-- The method `Rule::match(const std::string&, uint64_t)` of `lexer.cpp`. -/
def Rule.match_at (r : Rule) (input : List Char) (pos : Nat) : MatchObject :=
  if pos ≥ input.length then none else r.match_range (input.drop pos)

/-- The method `Rule::isValid` of `lexer.cpp`. -/
def Rule.isValid (r : Rule) : Bool :=
  !(r.pattern == "" && r.ignorable)

/-- The default constructor `Lexem::Lexem()`. -/
def Lexem.nil : Lexem :=
  { content := "", start := 0, length := 0, end_ := 0, tag := 0 }

/-- The constructor `Lexem::Lexem(const std::string&, uint64_t, Tag)`. -/
def Lexem.of (value : String) (begin : Nat) (tag : Tag) : Lexem :=
  { content := value, start := begin, length := value.length,
    end_ := begin + value.length, tag := tag }

/-- The method `Lexem::empty` of `lexer.cpp`. -/
def Lexem.empty (l : Lexem) : Bool :=
  l.content == "" && l.start == 0 && l.length == 0 && l.end_ == 0

/-- The class `Lexer` of `lexer.hpp`: the rules and the scan position, which
is a member of the object. -/
structure Lexer where
  rules : Rules
  position : Nat

/-- The constructor `Lexer::Lexer(const Rules&)`. -/
def Lexer.of (rules : Rules) : Lexer := { rules := rules, position := 0 }

/-- The `for` loop of `Lexer::findLexem`: the token and the new position for
the first rule that matches, `none` when the loop ends without a match. -/
def Lexer.findLexem_loop (input : String) (position : Nat) : Rules → Option (Lexem × Nat)
  | [] => none
  | rule :: rest =>
    match rule.match_at input.data position with
    | some m =>
      let content := String.mk m
      some (if rule.ignorable then Lexem.nil else Lexem.of content position rule.tag,
        position + content.length)
    | none => Lexer.findLexem_loop input position rest

/-- The method `Lexer::findLexem` of `lexer.cpp`: the token and the lexer with
its position moved, or the message of the `UnexpectedLexem` it throws (the
position is then as before). -/
def Lexer.findLexem (lx : Lexer) (input : String) : Except String (Lexem × Lexer) :=
  match Lexer.findLexem_loop input lx.position lx.rules with
  | some (lexem, position) => .ok (lexem, { lx with position := position })
  | none => .error "UnexpectedLexem"

/-- How a call of `Lexer::tokenize` ends: it returns tokens, it throws
`UnexpectedLexem`, or its loop used up the step budget of the model. -/
inductive LexOutcome where
  | tokens (out : Lexems)
  | UnexpectedLexem (msg : String)
  | fuel
deriving DecidableEq, Repr

/-- The `while` loop of `Lexer::tokenize` followed by `_position = 0; return out;`.
`fuel` bounds the number of iterations. The lexer is returned next to the
outcome: it is the object as the call leaves it. -/
def Lexer.tokenize_loop (input : String) : Nat → Lexer → Lexems → LexOutcome × Lexer
  | 0, lx, out =>
    if lx.position < input.length then (.fuel, lx)
    else (.tokens out, { lx with position := 0 })
  | fuel + 1, lx, out =>
    if lx.position < input.length then
      match lx.findLexem input with
      | .error msg => (.UnexpectedLexem msg, lx)
      | .ok (lexem, lx1) =>
        Lexer.tokenize_loop input fuel lx1 (if !lexem.empty then out ++ [lexem] else out)
    else (.tokens out, { lx with position := 0 })

/-- The method `Lexer::tokenize` of `lexer.cpp`. -/
def Lexer.tokenize (fuel : Nat) (lx : Lexer) (input : String) : LexOutcome × Lexer :=
  Lexer.tokenize_loop input fuel lx []

/-! ## Lexer: specification vocabulary -/

/-- The first rule in list order that matches at position `p`, with its
match. -/
def first_match (rules : Rules) (input : String) (p : Nat) : Option (Rule × List Char) :=
  rules.findSome? (fun r => (r.match_at input.data p).map (fun m => (r, m)))

/-- Scanning from position `p` reaches position `q`: each step goes over the
match of the first rule that matches. -/
inductive Scans (rules : Rules) (input : String) : Nat → Nat → Prop
  | here (p : Nat) : Scans rules input p p
  | next {p q : Nat} {r : Rule} {m : List Char} :
      first_match rules input p = some (r, m) → Scans rules input (p + m.length) q →
      Scans rules input p q

/-- No rule of the list ever matches the empty string. -/
def NonEmptyMatches (rules : Rules) : Prop :=
  ∀ r ∈ rules, ∀ (input : List Char) (pos : Nat) (m : List Char),
    r.match_at input pos = some m → m ≠ []

/-- What is said of one emitted token: it starts at a position `start`, the
first rule matching there is not ignorable and gives the tag, the content is
the text of `input` from `start` to `end`, and `end = start + length`. -/
def TokenAt (rules : Rules) (input : String) (t : Lexem) : Prop :=
  ∃ r m, first_match rules input t.start = some (r, m) ∧ r.ignorable = false ∧
    t.tag = r.tag ∧ t.content = String.mk m ∧
    t.content.data = (input.data.drop t.start).take t.length ∧
    t.end_ = t.start + t.length ∧ 0 < t.length ∧ t.end_ ≤ input.length

/-! ## The rules of `tests/ariphmetic.cpp` -/

/-- Position of the first character of a text that satisfies `p`. -/
def search_first (p : Char → Bool) : List Char → Option Nat
  | [] => none
  | c :: cs => if p c then some 0 else (search_first p cs).map (· + 1)

/-- Modelled from the pattern: what `std::regex_search` finds for a pattern
that is one escaped character, such as `\+`: its first occurrence. -/
def regex_of_char (c : Char) : List Char → Option (Nat × Nat) :=
  fun text => (search_first (· == c) text).map (fun i => (i, 1))

/-- Modelled from the pattern: what `std::regex_search` finds for a pattern
`x+` over a character class, such as `\d+`: the first character of the class
and all those of the class that follow it. -/
def regex_of_plus (cls : Char → Bool) : List Char → Option (Nat × Nat) :=
  fun text => (search_first cls text).map (fun i => (i, ((text.drop i).takeWhile cls).length))

/-- Modelled from the pattern: what `std::regex_search` finds for a pattern
`x*` over a character class, such as `a*`: the characters of the class at the
start of the text, possibly none. -/
def regex_of_star (cls : Char → Bool) : List Char → Option (Nat × Nat) :=
  fun text => some (0, (text.takeWhile cls).length)

/-- The character class `\s`. -/
def is_space (c : Char) : Bool :=
  c == ' ' || c == '\t' || c == '\n' || c == '\r' || c.val == 11 || c.val == 12

/-- The function `rules()` of `tests/ariphmetic.cpp`, with the tags of its
`Tag::Type`: `NUM = 0`, `ADD`, `SUB`, `MUL`, `DIV`, `OPEN`, `CLOSE`,
`SPACE = 254`. -/
def arith_rules : Rules :=
  [ ⟨"\\d+", regex_of_plus Char.isDigit, 0, false⟩,
    ⟨"\\+", regex_of_char '+', 1, false⟩,
    ⟨"\\-", regex_of_char '-', 2, false⟩,
    ⟨"\\*", regex_of_char '*', 3, false⟩,
    ⟨"/", regex_of_char '/', 4, false⟩,
    ⟨"\\(", regex_of_char '(', 5, false⟩,
    ⟨"\\)", regex_of_char ')', 6, false⟩,
    ⟨"\\s+", regex_of_plus is_space, 254, true⟩ ]

/-- The tokens of `34 + 4`. -/
def tokens_34_plus_4 : Lexems :=
  [⟨"34", 0, 2, 2, 0⟩, ⟨"+", 3, 1, 4, 1⟩, ⟨"4", 5, 1, 6, 0⟩]

/-- The ignorable rule `\s*`, which matches the empty string wherever no space
stands. -/
def blank_rule : Rule := ⟨"\\s*", regex_of_star is_space, 254, true⟩

/-- The rule `a*`, which matches the empty string wherever no `a` stands. -/
def star_rule : Rule := ⟨"a*", regex_of_star (· == 'a'), 1, false⟩

/-! ## The rule `add_stmt` of the arithmetic grammar -/

/-- The grammar `NUM + ADD + NUM`, its atoms bound with
`bind_primary<NumAST>` and `bind_primary<OpAST>`; `num` and `add` are the tags
of the two atoms. -/
def add_sequence (num add : Tag) : Grammar :=
  .and (.and (.decorated (.primary "NumAST") (.atom num))
             (.decorated (.primary "OpAST") (.atom add)))
       (.decorated (.primary "NumAST") (.atom num))

/-- The rule `add_stmt = NUM + ADD + NUM` bound with `bind<AddAST>`. -/
def add_stmt (num add : Tag) : Parser :=
  (Binding.node "AddAST").decorate (Parser.of ((add_sequence num add).build 0))

/-- The tokens of `3+4` as the arithmetic rules give them (`NUM = 0`,
`ADD = 1`). -/
def tokens_3_plus_4 : Lexems :=
  [⟨"3", 0, 1, 1, 0⟩, ⟨"+", 1, 1, 2, 1⟩, ⟨"4", 2, 1, 3, 0⟩]

/-- The heap after `add_stmt` parsed the three tokens `a`, `op`, `b` under the
root of `root_heap`. -/
def add_final_heap (a op b : String) : Heap :=
  { nodes := [⟨none, [1], "Root", ""⟩, ⟨some 0, [2, 3, 4], "AddAST", ""⟩,
      ⟨some 1, [], "NumAST", a⟩, ⟨some 1, [], "OpAST", op⟩, ⟨some 1, [], "NumAST", b⟩],
    built := [1], popped := [] }

/-- The tokens of `3+4` with the tag 8 in place of `NUM = 0`. -/
def tokens_3_plus_4_retagged : Lexems :=
  [⟨"3", 0, 1, 1, 8⟩, ⟨"+", 1, 1, 2, 1⟩, ⟨"4", 2, 1, 3, 8⟩]

/-- The tokens of `3+` as the arithmetic rules give them. -/
def tokens_3_plus : Lexems :=
  [⟨"3", 0, 1, 1, 0⟩, ⟨"+", 1, 1, 2, 1⟩]

/-- The tokens of `3+` with the tag 8 in place of `NUM = 0`. -/
def tokens_3_plus_retagged : Lexems :=
  [⟨"3", 0, 1, 1, 8⟩, ⟨"+", 1, 1, 2, 1⟩]

/-- The tokens of `3+*` with the tag 8 in place of `NUM = 0`. -/
def tokens_3_plus_star : Lexems :=
  [⟨"3", 0, 1, 1, 8⟩, ⟨"+", 1, 1, 2, 1⟩, ⟨"*", 2, 1, 3, 3⟩]

/-- The heap after `add_stmt` rejected `tokens_3_plus_star` under the root of
`root_heap`: the nodes built for `3` and `+` left the tree with the `AddAST`
node. -/
def add_rejected_heap : Heap :=
  { nodes := [⟨none, [], "Root", ""⟩, ⟨some 0, [2, 3], "AddAST", ""⟩,
      ⟨some 1, [], "NumAST", "3"⟩, ⟨some 1, [], "OpAST", "+"⟩],
    built := [1], popped := [1] }

/-- The heap `h1` comes after `h` by changes below the node `c`: it is closed,
the other nodes of `h` have the children they had, and `c` has its children
of `h` followed by nodes that are new. -/
def Heap.GrownUnder (h h1 : Heap) (c : Nat) : Prop :=
  h1.Closed ∧ h.nodes.length ≤ h1.nodes.length ∧
  (∀ a, a < h.nodes.length → a ≠ c → h1.kids a = h.kids a) ∧
  ∃ extra, h1.kids c = h.kids c ++ extra ∧ ∀ x ∈ extra, h.nodes.length ≤ x

/-- A combinator that only changes the heap below the cursor node. -/
def KidsFrame (p : IParser) : Prop :=
  ∀ s h r h1 c, p.run s h = .ok (r, h1) → s.tree.cursor = some c →
    c < h.nodes.length → h.Closed → h.GrownUnder h1 c

/-! ## Data for the precondition, tree-method, nesting and callback properties -/

/-- The rule `Parser(Or(Atom(0), Atom(1)))`: an alternation whose left branch
is an `Atom` with tag 0 and whose right branch is valid. -/
def zero_branch_choice : Parser := Parser.of (Or (Atom 0) (Atom 1))

/-- The rule `Parser(And(Atom(0), Atom(1)))`: a sequence with an `Atom` of
tag 0. -/
def zero_in_sequence : Parser := Parser.of (And (Atom 0) (Atom 1))

/-- A heap with a root (address 0), its child (address 1) and a grandchild
(address 2). -/
def three_level_heap : Heap :=
  { nodes := [{ parent := none, children := [1], cls := "Root", content := "" },
              { parent := some 0, children := [2], cls := "A", content := "" },
              { parent := some 1, children := [], cls := "B", content := "" }],
    built := [], popped := [] }

/-- The heap `three_level_heap` after the root has lost its child. -/
def three_level_heap_root_popped : Heap :=
  { nodes := [{ parent := none, children := [], cls := "Root", content := "" },
              { parent := some 0, children := [2], cls := "A", content := "" },
              { parent := some 1, children := [], cls := "B", content := "" }],
    built := [], popped := [] }

/-- The heap `three_level_heap` after address 2 was appended once more to the
children of the node at address 1. -/
def three_level_heap_appended : Heap :=
  { nodes := [{ parent := none, children := [1], cls := "Root", content := "" },
              { parent := some 0, children := [2, 2], cls := "A", content := "" },
              { parent := some 1, children := [], cls := "B", content := "" }],
    built := [], popped := [] }

/-- The right-nested sequence `Parser(And(Atom(a), And(Atom(b), Atom(c))))`. -/
def nested_sequence (a b c : Tag) : Parser :=
  Parser.of (And (Atom a) (And (Atom b) (Atom c)))

/-- The user callback `[](State& s) { s.current += 1; }`. -/
def skip_one : Action :=
  some (fun state h => .ok ({ state with current := state.current + 1 }, h))

/-- The rule `Parser(Atom(2)).on_before(skip_one)`. -/
def skipping_rule : Parser := { Parser.of (Atom 2) with before := skip_one }

/-- A combinator whose accepting evaluations, started away from `end`, move
`current` forward. -/
def StrictlyProgressing (p : IParser) : Prop :=
  ∀ s h r h1, s.current ≠ s.end_ → p.run s h = .ok (r, h1) → r.accept = true →
    s.current < r.current

/-- Grammars all of whose decorated parsers keep the default callbacks. -/
def Grammar.default_callbacks : Grammar → Bool
  | .atom _ => true
  | .any => true
  | .and l r => l.default_callbacks && r.default_callbacks
  | .or l r => l.default_callbacks && r.default_callbacks
  | .one_or_more p => p.default_callbacks
  | .decorated b p => decide (b = Binding.plain) && p.default_callbacks

/-- The grammar `OneOrMore(And(Any, Any))`. -/
def pairs_of_any : Grammar := .one_or_more (.and .any .any)

/-! ## Combinator objects and `clone` -/

mutual
/-- The objects of the combinator classes of `parsers.hpp`, with their data
members: `Atom` (`_tag`), `Any`, `And` and `Or` (`_left`, `_right`),
`OneOrMore` and `Forward` (`_parser`), and `Parser` (`_parser`, `_before`,
`_on_accept`, `_on_fail`, `_name`). -/
inductive Combinator where
  | atom (tag : Tag)
  | any
  | and (left right : Combinator)
  | or (left right : Combinator)
  | one_or_more (p : Combinator)
  | forward (impl : Option (IParser → State → Heap → Result))
  | parser (inner : CombinatorPtr) (before on_accept on_fail : Action) (name : String)
/-- A value of type `IParser*`: null, or the address of a combinator object. -/
inductive CombinatorPtr where
  | null
  | to (target : Combinator)
end

mutual
/-- The combinator value of an object; `fuel` is the step budget given to
every `OneOrMore` loop and every `Forward`. -/
def Combinator.eval (fuel : Nat) : Combinator → IParser
  | .atom tag => Atom tag
  | .any => Any
  | .and l r => And (l.eval fuel) (r.eval fuel)
  | .or l r => Or (l.eval fuel) (r.eval fuel)
  | .one_or_more p => OneOrMore fuel (p.eval fuel)
  | .forward impl => Forward impl fuel
  | .parser inner before on_accept on_fail name =>
    Parser.toIParser
      { inner := inner.eval fuel, before := before, on_accept := on_accept,
        on_fail := on_fail, name := name }
/-- The combinator value behind an `IParser*`. -/
def CombinatorPtr.eval (fuel : Nat) : CombinatorPtr → Option IParser
  | .null => none
  | .to target => some (target.eval fuel)
end

/-- The virtual method `is_valid` of a combinator object. -/
def Combinator.is_valid (c : Combinator) : Bool := (c.eval 0).is_valid

mutual
/-- The virtual method `clone` of `parsers.hpp` and `parsers.cpp`. The value
classes build a new object from their members, which copies them (`And` and
`Or` take the constructor arguments by value and so copy each member twice; a
copy of a copy is the copy again, see `Combinator.copy_copy`).
`Parser::clone` builds a default `Parser` and gives it the clone of the inner
combinator, or returns null when the parser is not valid. -/
def Combinator.clone : Combinator → CombinatorPtr
  | .atom tag => .to (.atom tag)
  | .any => .to .any
  | .and l r => .to (.and l.copy r.copy)
  | .or l r => .to (.or l.copy r.copy)
  | .one_or_more p => .to (.one_or_more p.copy)
  | .forward impl => .to (.forward impl)
  | .parser inner before on_accept on_fail name =>
    if (Combinator.parser inner before on_accept on_fail name).is_valid then
      .to (.parser inner.clone skip skip skip "")
    else .null
/-- The expression `p != nullptr ? p->clone() : nullptr`. -/
def CombinatorPtr.clone : CombinatorPtr → CombinatorPtr
  | .null => .null
  | .to target => target.clone
/-- Copy construction of a combinator object: member by member for the value
classes; `Parser::Parser(const Parser&)` clones the inner combinator and
copies the three actions, not the name. -/
def Combinator.copy : Combinator → Combinator
  | .atom tag => .atom tag
  | .any => .any
  | .and l r => .and l.copy r.copy
  | .or l r => .or l.copy r.copy
  | .one_or_more p => .one_or_more p.copy
  | .forward impl => .forward impl
  | .parser inner before on_accept on_fail _ =>
    .parser inner.clone before on_accept on_fail ""
end

/-- The rule `bind<A>(p, "A")` for `Parser p(Atom(1))`, as an object. -/
def bound_atom : Combinator :=
  .parser (.to (.atom 1)) (some (before_action "A")) (some accept_action)
    (some fail_action) "A"

end parselib

/-! # Verified properties -/

namespace parselib

/-! ## Sequence and ordered choice -/

/-- C1 (counterexample): at `current == end` the sequence returns its input
state untouched, so `And(never, Any)` keeps `accept == true` although its left
operand rejects that state. The driver reaches that state with the root
`And(Any, And(never, Any))` on a one-token input, which it accepts. -/
theorem C1_and_at_end_passes_accept :
    never.run at_end_state Heap.empty
        = .ok ({ at_end_state with accept := false }, Heap.empty) ∧
    (And never Any).run at_end_state Heap.empty = .ok (at_end_state, Heap.empty) ∧
    at_end_state.accept = true ∧ at_end_state.current = at_end_state.end_ ∧
    Any.run (Driver.start [tok 1] none) Heap.empty = .ok (at_end_state, Heap.empty) ∧
    ∃ d1 h1, Driver.accept (Driver.of (Parser.of (And Any (And never Any)))) [tok 1] none
        Heap.empty = .ok (true, d1, h1) :=
  ⟨rfl, rfl, rfl, rfl, rfl, _, _, rfl⟩

/-- C1 (amended): on every state with `current != end`, `And(L,R)` returns the
input state with `accept = false` when `L` rejects, the input state with
`accept = false` when `L` accepts and `R` rejects `L`'s output, and exactly
`R`'s output when both accept; it accepts iff `L` accepts and `R` accepts on
`L`'s output. -/
theorem C1_and_contract (L R : IParser) (s : State) (h : Heap)
    (hne : s.current ≠ s.end_) :
    (∀ l h1, L.run s h = .ok (l, h1) → l.accept = false →
      (And L R).run s h = .ok ({ s with accept := false }, h1)) ∧
    (∀ l h1 r h2, L.run s h = .ok (l, h1) → l.accept = true →
      R.run l h1 = .ok (r, h2) → r.accept = false →
      (And L R).run s h = .ok ({ s with accept := false }, h2)) ∧
    (∀ l h1 r h2, L.run s h = .ok (l, h1) → l.accept = true →
      R.run l h1 = .ok (r, h2) → r.accept = true →
      (And L R).run s h = .ok (r, h2)) ∧
    (∀ out h2, (And L R).run s h = .ok (out, h2) →
      (out.accept = true ↔
        ∃ l h1, L.run s h = .ok (l, h1) ∧ l.accept = true ∧
          ∃ r, R.run l h1 = .ok (r, h2) ∧ r.accept = true)) := by
  have ht : terminate s = false := by simp [terminate, hne]
  refine ⟨?_, ?_, ?_, ?_⟩
  · intro l h1 hl hacc
    simp [And, ht, hl, hacc]
  · intro l h1 r h2 hl hacc hr hracc
    simp [And, ht, hl, hacc, hr, hracc]
  · intro l h1 r h2 hl hacc hr hracc
    simp [And, ht, hl, hacc, hr, hracc]
  · intro out h2 hrun
    simp only [And, ht] at hrun
    cases hl : L.run s h with
    | error e => simp [hl] at hrun
    | ok v =>
      obtain ⟨l, h1⟩ := v
      simp only [hl] at hrun
      cases hacc : l.accept with
      | false =>
        simp [hacc] at hrun
        obtain ⟨rfl, rfl⟩ := hrun
        simp [hacc]
      | true =>
        simp only [hacc] at hrun
        cases hr : R.run l h1 with
        | error e => simp [hr] at hrun
        | ok w =>
          obtain ⟨r, h3⟩ := w
          simp only [hr] at hrun
          cases hracc : r.accept with
          | false =>
            simp [hracc] at hrun
            obtain ⟨rfl, rfl⟩ := hrun
            simp [hacc, hr, hracc]
          | true =>
            simp [hracc] at hrun
            obtain ⟨rfl, rfl⟩ := hrun
            exact ⟨fun _ => ⟨l, h1, rfl, hacc, r, hr, hracc⟩, fun _ => hracc⟩

/-- C1 (witness): the amended contract at `And(Any, Any)` on the start state of
a two-token input. -/
theorem C1_and_contract_witness :
    (Driver.start [tok 1, tok 2] none).current ≠ (Driver.start [tok 1, tok 2] none).end_ ∧
    (And Any Any).run (Driver.start [tok 1, tok 2] none) Heap.empty
      = .ok ({ Driver.start [tok 1, tok 2] none with accept := true, current := 2 },
          Heap.empty) :=
  ⟨by decide,
   (C1_and_contract Any Any (Driver.start [tok 1, tok 2] none) Heap.empty (by decide)).2.2.1
     _ _ _ _ rfl rfl rfl rfl⟩

/-- C2 (counterexample): at `current == end` the choice returns its input
state untouched, so `Or(never, never)` keeps `accept == true` although neither
alternative accepts. The driver reaches that state with the root
`And(Any, Or(never, never))` on a one-token input, which it accepts. -/
theorem C2_or_at_end_passes_accept :
    never.run at_end_state Heap.empty
        = .ok ({ at_end_state with accept := false }, Heap.empty) ∧
    (Or never never).run at_end_state Heap.empty = .ok (at_end_state, Heap.empty) ∧
    at_end_state.accept = true ∧ at_end_state.current = at_end_state.end_ ∧
    Any.run (Driver.start [tok 1] none) Heap.empty = .ok (at_end_state, Heap.empty) ∧
    ∃ d1 h1, Driver.accept (Driver.of (Parser.of (And Any (Or never never)))) [tok 1] none
        Heap.empty = .ok (true, d1, h1) :=
  ⟨rfl, rfl, rfl, rfl, rfl, _, _, rfl⟩

/-- C2 (amended): ordered choice on every state with `current != end`. When
`a` accepts, the result is `a`'s output (whatever `b` would do); when `a`
rejects and `b`, run from the original state, accepts, the result is `b`'s
output; when neither accepts the result is the input state with
`accept = false`; `Or(a,b)` accepts iff `a` accepts or `a` rejects and `b`
accepts. -/
theorem C2_or_contract (a b : IParser) (s : State) (h : Heap)
    (hne : s.current ≠ s.end_) :
    (∀ x h1, a.run s h = .ok (x, h1) → x.accept = true →
      (Or a b).run s h = .ok (x, h1)) ∧
    (∀ x h1 y h2, a.run s h = .ok (x, h1) → x.accept = false →
      b.run s h1 = .ok (y, h2) → y.accept = true →
      (Or a b).run s h = .ok (y, h2)) ∧
    (∀ x h1 y h2, a.run s h = .ok (x, h1) → x.accept = false →
      b.run s h1 = .ok (y, h2) → y.accept = false →
      (Or a b).run s h = .ok ({ s with accept := false }, h2)) ∧
    (∀ out h2, (Or a b).run s h = .ok (out, h2) →
      (out.accept = true ↔
        ∃ x h1, a.run s h = .ok (x, h1) ∧
          ((x.accept = true ∧ h1 = h2) ∨
           (x.accept = false ∧ ∃ y, b.run s h1 = .ok (y, h2) ∧ y.accept = true)))) := by
  have ht : terminate s = false := by simp [terminate, hne]
  refine ⟨?_, ?_, ?_, ?_⟩
  · intro x h1 hx hacc
    simp [Or, ht, hx, hacc]
  · intro x h1 y h2 hx hacc hy hyacc
    simp [Or, ht, hx, hacc, hy, hyacc]
  · intro x h1 y h2 hx hacc hy hyacc
    simp [Or, ht, hx, hacc, hy, hyacc]
  · intro out h2 hrun
    simp only [Or, ht] at hrun
    cases hx : a.run s h with
    | error e => simp [hx] at hrun
    | ok v =>
      obtain ⟨x, h1⟩ := v
      simp only [hx] at hrun
      cases hacc : x.accept with
      | true =>
        simp [hacc] at hrun
        obtain ⟨rfl, rfl⟩ := hrun
        exact ⟨fun _ => ⟨x, h1, rfl, Or.inl ⟨hacc, rfl⟩⟩, fun _ => hacc⟩
      | false =>
        simp only [hacc] at hrun
        cases hy : b.run s h1 with
        | error e => simp [hy] at hrun
        | ok w =>
          obtain ⟨y, h3⟩ := w
          simp only [hy] at hrun
          cases hyacc : y.accept with
          | true =>
            simp [hyacc] at hrun
            obtain ⟨rfl, rfl⟩ := hrun
            exact ⟨fun _ => ⟨x, h1, rfl, Or.inr ⟨hacc, y, hy, hyacc⟩⟩, fun _ => hyacc⟩
          | false =>
            simp [hyacc] at hrun
            obtain ⟨rfl, rfl⟩ := hrun
            constructor
            · intro hc
              simp at hc
            · rintro ⟨x1, h4, he, hcase⟩
              simp only [Except.ok.injEq, Prod.mk.injEq] at he
              obtain ⟨rfl, rfl⟩ := he
              rcases hcase with ⟨hc, _⟩ | ⟨_, y1, hy1, hc⟩
              · simp [hacc] at hc
              · rw [hy] at hy1
                simp only [Except.ok.injEq, Prod.mk.injEq] at hy1
                obtain ⟨⟨rfl, _⟩⟩ := hy1
                simp [hyacc] at hc

/-- C2 (witness): the amended contract at `Or(Atom 1, Atom 2)` on the start
state of the one-token input `[2]`: the second alternative is taken. -/
theorem C2_or_contract_witness :
    (Driver.start [tok 2] none).current ≠ (Driver.start [tok 2] none).end_ ∧
    (Or (Atom 1) (Atom 2)).run (Driver.start [tok 2] none) Heap.empty
      = .ok ({ Driver.start [tok 2] none with accept := true, current := 1 }, Heap.empty) :=
  ⟨by decide,
   (C2_or_contract (Atom 1) (Atom 2) (Driver.start [tok 2] none) Heap.empty (by decide)).2.1
     _ _ _ _ rfl rfl rfl rfl⟩

/-! ## Leaf combinators -/

/-- C3 (failing input): `Atom` does not compare `current` with `end`. On a state
with `current == end` at the end of the token vector it reads the token past
the end and produces no rejecting state; the driver reaches that state with
`And(Atom 1, Atom 2)` on the one-token input `[1]`. -/
theorem C3_atom_reads_past_end :
    (Atom 2).run at_end_state Heap.empty = .error .undefined ∧
    Driver.accept (Driver.of (Parser.of (And (Atom 1) (Atom 2)))) [tok 1] none Heap.empty
      = .error .undefined :=
  ⟨rfl, rfl⟩

/-- C4 (failing input): `Any` does not compare `current` with `end`. On a state
with `current == end` it accepts and moves `current` past `end`; the driver
reaches that state with `And(Any, Any)` on a one-token input and finishes with
`current` beyond `end`. -/
theorem C4_any_moves_past_end :
    Any.run at_end_state Heap.empty
      = .ok ({ at_end_state with accept := true, current := at_end_state.end_ + 1 },
          Heap.empty) ∧
    ∃ d1 h1, Driver.accept (Driver.of (Parser.of (And Any Any))) [tok 1] none Heap.empty
        = .ok (false, d1, h1) ∧
      d1.finish.accept = true ∧ d1.finish.end_ = 1 ∧ d1.finish.current = 2 :=
  ⟨rfl, _, _, rfl, rfl, rfl, rfl⟩

/-! ## Repetition -/

/-- The run is empty when `current` is not below `end`. -/
theorem run_length_of_ge (t : Tag) (s : State) (hge : s.end_ ≤ s.current) :
    run_length t s = 0 := by
  simp [run_length, Nat.sub_eq_zero_of_le hge]

/-- The run is empty when the token at `current` has another tag. -/
theorem run_length_of_mismatch (t : Tag) (s : State) (l : Lexem)
    (hl : s.lexems[s.current]? = some l) (hlt : s.current < s.end_)
    (hne : (l.tag == t) = false) : run_length t s = 0 := by
  obtain ⟨hlen, hget⟩ := List.getElem?_eq_some_iff.mp hl
  obtain ⟨k, hk⟩ : ∃ k, s.end_ - s.current = k + 1 := ⟨s.end_ - s.current - 1, by omega⟩
  simp [run_length, List.drop_eq_getElem_cons hlen, hk, hget, hne]

/-- The run grows by one over a matching token. -/
theorem run_length_of_match (t : Tag) (s : State) (l : Lexem) (acc : Bool)
    (hl : s.lexems[s.current]? = some l) (hlt : s.current < s.end_)
    (heq : (l.tag == t) = true) :
    run_length t s
      = run_length t { s with accept := acc, current := s.current + 1 } + 1 := by
  obtain ⟨hlen, hget⟩ := List.getElem?_eq_some_iff.mp hl
  obtain ⟨k, hk⟩ : ∃ k, s.end_ - s.current = k + 1 := ⟨s.end_ - s.current - 1, by omega⟩
  have hk2 : s.end_ - (s.current + 1) = k := by omega
  simp [run_length, List.drop_eq_getElem_cons hlen, hk, hk2, hget, heq]

/-- The result of `Atom` when `current` points at a token. -/
theorem Atom_run_of_get (t : Tag) (s : State) (h : Heap) (l : Lexem)
    (hl : s.lexems[s.current]? = some l) :
    (Atom t).run s h
      = .ok ({ s with accept := (l.tag == t), current := s.current + (l.tag == t).toNat }, h) := by
  simp [Atom, hl]

/-- The loop of `OneOrMore(Atom(t))`, started on an accepting state inside the
token range, stops after the run of `t`-tagged tokens. -/
theorem loop_atom_run (t : Tag) :
    ∀ (fuel : Nat) (res : State) (h : Heap), res.accept = true →
      res.current ≤ res.end_ → res.end_ ≤ res.lexems.length →
      res.end_ - res.current ≤ fuel →
      OneOrMore.loop (Atom t) fuel res h
        = .ok ({ res with current := res.current + run_length t res }, h) := by
  intro fuel
  induction fuel with
  | zero =>
    intro res h hacc hle hlen hfuel
    have hce : res.current = res.end_ := by omega
    have ht : terminate res = true := by simp [terminate, hce]
    simp [OneOrMore.loop, ht, run_length_of_ge t res (by omega)]
  | succ n ih =>
    intro res h hacc hle hlen hfuel
    by_cases hce : res.current = res.end_
    · have ht : terminate res = true := by simp [terminate, hce]
      simp [OneOrMore.loop, ht, run_length_of_ge t res (by omega)]
    · have ht : terminate res = false := by simp [terminate, hce]
      have hlt : res.current < res.lexems.length := by omega
      have hl : res.lexems[res.current]? = some res.lexems[res.current] :=
        List.getElem?_eq_getElem hlt
      obtain ⟨lx, bg, en, cur, tr, acc⟩ := res
      simp only at hacc hle hlen hfuel hce hlt hl
      subst hacc
      rw [OneOrMore.loop]
      simp only [ht, Bool.not_false, Bool.and_self, ↓reduceIte]
      rw [Atom_run_of_get t _ h _ hl]
      cases hm : (lx[cur].tag == t) with
      | false =>
        have h0 := run_length_of_mismatch t ⟨lx, bg, en, cur, tr, true⟩ _ hl (by simp; omega) hm
        simp [h0]
      | true =>
        have h1 := run_length_of_match t ⟨lx, bg, en, cur, tr, true⟩ _ true hl
          (by simp; omega) hm
        have hih := ih ⟨lx, bg, en, cur + 1, tr, true⟩ h rfl
          (by simp; omega) (by simpa using hlen) (by simp; omega)
        simp only [Bool.toNat_true, Bool.true_eq_false, ↓reduceIte]
        rw [hih, h1]
        simp [Nat.add_assoc, Nat.add_comm]

/-- C5: for a non-zero tag `t` and a state with `current != end` inside the
token vector, `OneOrMore(Atom(t))` (given a step budget of at least
`end - current`) returns a result; it accepts iff the token at `current` has
tag `t`; on acceptance `current` has advanced by the length of the longest run
of `t`-tagged tokens starting there (stopping at the first other token or at
`end`); otherwise the failing state of the first evaluation is returned. -/
theorem C5_one_or_more_greedy (t : Tag) (s : State) (h : Heap) (fuel : Nat)
    (_ht : t ≠ 0) (hne : s.current ≠ s.end_) (hle : s.current ≤ s.end_)
    (hlen : s.end_ ≤ s.lexems.length) (hfuel : s.end_ - s.current ≤ fuel) :
    ∃ l, s.lexems[s.current]? = some l ∧
      ((l.tag = t →
          (OneOrMore fuel (Atom t)).run s h
            = .ok ({ s with accept := true, current := s.current + run_length t s }, h) ∧
          1 ≤ run_length t s) ∧
       (l.tag ≠ t →
          (OneOrMore fuel (Atom t)).run s h = .ok ({ s with accept := false }, h) ∧
          (Atom t).run s h = .ok ({ s with accept := false }, h))) ∧
      (∀ out h1, (OneOrMore fuel (Atom t)).run s h = .ok (out, h1) →
        (out.accept = true ↔ l.tag = t)) := by
  have hlt : s.current < s.lexems.length := by omega
  have hl : s.lexems[s.current]? = some s.lexems[s.current] := List.getElem?_eq_getElem hlt
  refine ⟨s.lexems[s.current], hl, ?_⟩
  by_cases hm : s.lexems[s.current].tag = t
  · have hb : (s.lexems[s.current].tag == t) = true := by simp [hm]
    have h1 := run_length_of_match t s _ true hl (by omega) hb
    have hloop := loop_atom_run t fuel { s with accept := true, current := s.current + 1 } h rfl
      (by simp; omega) (by simpa using hlen) (by simp; omega)
    have hrun : (OneOrMore fuel (Atom t)).run s h
        = .ok ({ s with accept := true, current := s.current + run_length t s }, h) := by
      simp only [OneOrMore]
      rw [Atom_run_of_get t s h _ hl]
      simp only [hb, Bool.toNat_true]
      rw [hloop, h1]
      simp [Nat.add_assoc, Nat.add_comm]
    refine ⟨⟨fun _ => ⟨hrun, by omega⟩, fun hc => absurd hm hc⟩, ?_⟩
    intro out h2 ho
    rw [hrun] at ho
    simp only [Except.ok.injEq, Prod.mk.injEq] at ho
    obtain ⟨rfl, _⟩ := ho
    simp [hm]
  · have hb : (s.lexems[s.current].tag == t) = false := by simp [hm]
    have hatom : (Atom t).run s h = .ok ({ s with accept := false }, h) := by
      rw [Atom_run_of_get t s h _ hl]
      simp [hb]
    have hrun : (OneOrMore fuel (Atom t)).run s h = .ok ({ s with accept := false }, h) := by
      simp only [OneOrMore]
      rw [Atom_run_of_get t s h _ hl]
      cases fuel <;> simp [hb, OneOrMore.loop]
    refine ⟨⟨fun hc => absurd hc hm, fun _ => ⟨hrun, hatom⟩⟩, ?_⟩
    intro out h2 ho
    rw [hrun] at ho
    simp only [Except.ok.injEq, Prod.mk.injEq] at ho
    obtain ⟨rfl, _⟩ := ho
    simp [hm]


/-- C5 (witness): on the tokens `[1, 1, 2]` the repetition of `Atom 1` consumes
the run of two tokens. -/
theorem C5_one_or_more_greedy_witness :
    (OneOrMore 3 (Atom 1)).run (Driver.start [tok 1, tok 1, tok 2] none) Heap.empty
      = .ok ({ Driver.start [tok 1, tok 1, tok 2] none with accept := true, current := 2 },
          Heap.empty) := by
  obtain ⟨l, hl, ⟨hm, _⟩, _⟩ :=
    C5_one_or_more_greedy 1 (Driver.start [tok 1, tok 1, tok 2] none) Heap.empty 3
      (by decide) (by decide) (by decide) (by decide) (by decide)
  have hl1 : l = tok 1 := by simpa [Driver.start] using hl.symm
  subst hl1
  exact (hm rfl).1

/-! ## Position discipline of the library combinators -/

theorem Atom_disciplined (t : Tag) : Disciplined (Atom t) := by
  intro s h r h1 hrun
  simp only [Atom] at hrun
  cases hl : s.lexems[s.current]? with
  | none => simp [hl] at hrun
  | some l =>
    simp only [hl, Except.ok.injEq, Prod.mk.injEq] at hrun
    obtain ⟨rfl, _⟩ := hrun
    refine ⟨rfl, rfl, rfl, rfl, ?_, ?_⟩
    · intro hacc
      simp only at hacc
      simp [hacc]
    · intro _
      simp

theorem Any_disciplined : Disciplined Any := by
  intro s h r h1 hrun
  simp only [Any, Except.ok.injEq, Prod.mk.injEq] at hrun
  obtain ⟨rfl, _⟩ := hrun
  exact ⟨rfl, rfl, rfl, rfl, fun hc => by simp at hc, fun _ => by simp⟩

theorem Threaded.unchanged (s : State) : Threaded s s :=
  ⟨rfl, rfl, rfl, rfl, fun _ => rfl, fun _ => Nat.le_refl _⟩

theorem Threaded.rejected (s : State) : Threaded s { s with accept := false } :=
  ⟨rfl, rfl, rfl, rfl, fun _ => rfl, fun _ => Nat.le_refl _⟩

theorem And_disciplined (L R : IParser) (hL : Disciplined L) (hR : Disciplined R) :
    Disciplined (And L R) := by
  intro s h r h2 hrun
  simp only [And] at hrun
  split at hrun
  · simp only [Except.ok.injEq, Prod.mk.injEq] at hrun
    obtain ⟨rfl, _⟩ := hrun
    exact Threaded.unchanged _
  · split at hrun
    · simp at hrun
    · rename_i l h1 hl
      split at hrun
      · simp only [Except.ok.injEq, Prod.mk.injEq] at hrun
        obtain ⟨rfl, _⟩ := hrun
        exact Threaded.rejected _
      · rename_i hlacc
        simp only [Bool.not_eq_true', Bool.not_eq_false] at hlacc
        split at hrun
        · simp at hrun
        · rename_i r1 h3 hr
          split at hrun
          · simp only [Except.ok.injEq, Prod.mk.injEq] at hrun
            obtain ⟨rfl, _⟩ := hrun
            exact Threaded.rejected _
          · rename_i hracc
            simp only [Except.ok.injEq, Prod.mk.injEq] at hrun
            obtain ⟨rfl, _⟩ := hrun
            have t1 := hL _ _ _ _ hl
            have t2 := hR _ _ _ _ hr
            refine ⟨t2.lexems.trans t1.lexems, t2.begin.trans t1.begin,
              t2.end_.trans t1.end_, t2.root.trans t1.root, ?_, ?_⟩
            · intro hc
              simp [hc] at hracc
            · intro hc
              exact Nat.le_trans (t1.on_accept hlacc) (t2.on_accept hc)

theorem Or_disciplined (L R : IParser) (hL : Disciplined L) (hR : Disciplined R) :
    Disciplined (Or L R) := by
  intro s h r h2 hrun
  simp only [Or] at hrun
  split at hrun
  · simp only [Except.ok.injEq, Prod.mk.injEq] at hrun
    obtain ⟨rfl, _⟩ := hrun
    exact Threaded.unchanged _
  · split at hrun
    · simp at hrun
    · rename_i l h1 hl
      split at hrun
      · simp only [Except.ok.injEq, Prod.mk.injEq] at hrun
        obtain ⟨rfl, _⟩ := hrun
        exact hL _ _ _ _ hl
      · split at hrun
        · simp at hrun
        · rename_i r1 h3 hr
          split at hrun
          · simp only [Except.ok.injEq, Prod.mk.injEq] at hrun
            obtain ⟨rfl, _⟩ := hrun
            exact hR _ _ _ _ hr
          · simp only [Except.ok.injEq, Prod.mk.injEq] at hrun
            obtain ⟨rfl, _⟩ := hrun
            exact Threaded.rejected _

/-- The loop of `OneOrMore` returns its start state or a later accepting one. -/
theorem loop_threaded (p : IParser) (hp : Disciplined p) :
    ∀ (fuel : Nat) (res : State) (h : Heap) (r : State) (h1 : Heap),
      OneOrMore.loop p fuel res h = .ok (r, h1) →
      r.lexems = res.lexems ∧ r.begin = res.begin ∧ r.end_ = res.end_ ∧
      r.tree.root = res.tree.root ∧ res.current ≤ r.current ∧
      (r.accept = false → r.current = res.current ∧ res.accept = false) := by
  intro fuel
  induction fuel with
  | zero =>
    intro res h r h1 hrun
    simp only [OneOrMore.loop] at hrun
    split at hrun
    · simp at hrun
    · simp only [Except.ok.injEq, Prod.mk.injEq] at hrun
      obtain ⟨rfl, _⟩ := hrun
      exact ⟨rfl, rfl, rfl, rfl, Nat.le_refl _, fun hc => ⟨rfl, hc⟩⟩
  | succ n ih =>
    intro res h r h1 hrun
    simp only [OneOrMore.loop] at hrun
    split at hrun
    · rename_i hcond
      split at hrun
      · simp at hrun
      · rename_i temp h2 htemp
        split at hrun
        · simp only [Except.ok.injEq, Prod.mk.injEq] at hrun
          obtain ⟨rfl, _⟩ := hrun
          exact ⟨rfl, rfl, rfl, rfl, Nat.le_refl _, fun hc => ⟨rfl, hc⟩⟩
        · rename_i htacc
          simp only [beq_iff_eq, Bool.not_eq_false] at htacc
          have t1 := hp _ _ _ _ htemp
          obtain ⟨e1, e2, e3, e4, e5, e6⟩ := ih _ _ _ _ hrun
          refine ⟨e1.trans t1.lexems, e2.trans t1.begin, e3.trans t1.end_,
            e4.trans t1.root, Nat.le_trans (t1.on_accept htacc) e5, ?_⟩
          intro hc
          have := (e6 hc).2
          simp [htacc] at this
    · simp only [Except.ok.injEq, Prod.mk.injEq] at hrun
      obtain ⟨rfl, _⟩ := hrun
      exact ⟨rfl, rfl, rfl, rfl, Nat.le_refl _, fun hc => ⟨rfl, hc⟩⟩

theorem OneOrMore_disciplined (fuel : Nat) (p : IParser) (hp : Disciplined p) :
    Disciplined (OneOrMore fuel p) := by
  intro s h r h2 hrun
  simp only [OneOrMore] at hrun
  split at hrun
  · simp at hrun
  · rename_i res h1 hres
    have t1 := hp _ _ _ _ hres
    obtain ⟨e1, e2, e3, e4, e5, e6⟩ := loop_threaded p hp _ _ _ _ _ hrun
    refine ⟨e1.trans t1.lexems, e2.trans t1.begin, e3.trans t1.end_, e4.trans t1.root, ?_, ?_⟩
    · intro hc
      obtain ⟨hcur, hracc⟩ := e6 hc
      exact hcur.trans (t1.on_fail hracc)
    · intro _
      cases hracc : res.accept with
      | true => exact Nat.le_trans (t1.on_accept hracc) e5
      | false =>
        have := t1.on_fail hracc
        omega


theorem skip_cursorOnly : CursorOnly skip := by
  intro s h r h1 hrun
  simp only [skip, Action.invoke, Except.ok.injEq, Prod.mk.injEq] at hrun
  obtain ⟨rfl, _⟩ := hrun
  exact ⟨s.tree.cursor, rfl⟩

theorem before_action_cursorOnly (cls : String) : CursorOnly (some (before_action cls)) := by
  intro s h r h1 hrun
  simp only [Action.invoke, before_action] at hrun
  split at hrun
  · simp at hrun
  · split at hrun
    · simp at hrun
    · simp only [Except.ok.injEq, Prod.mk.injEq] at hrun
      obtain ⟨rfl, _⟩ := hrun
      exact ⟨_, rfl⟩

theorem accept_action_cursorOnly : CursorOnly (some accept_action) := by
  intro s h r h1 hrun
  simp only [Action.invoke, accept_action] at hrun
  split at hrun
  · simp at hrun
  · split at hrun
    · simp at hrun
    · simp only [Except.ok.injEq, Prod.mk.injEq] at hrun
      obtain ⟨rfl, _⟩ := hrun
      exact ⟨_, rfl⟩

theorem fail_action_cursorOnly : CursorOnly (some fail_action) := by
  intro s h r h1 hrun
  simp only [Action.invoke, fail_action] at hrun
  split at hrun
  · simp at hrun
  · split at hrun
    · simp at hrun
    · split at hrun
      · split at hrun
        · simp at hrun
        · simp only [Except.ok.injEq, Prod.mk.injEq] at hrun
          obtain ⟨rfl, _⟩ := hrun
          exact ⟨_, rfl⟩
      · simp only [Except.ok.injEq, Prod.mk.injEq] at hrun
        obtain ⟨rfl, _⟩ := hrun
        exact ⟨_, rfl⟩

theorem primary_type_builder_cursorOnly (cls : String) :
    CursorOnly (some (primary_type_builder cls)) := by
  intro s h r h1 hrun
  simp only [Action.invoke, primary_type_builder] at hrun
  split at hrun
  · simp at hrun
  · split at hrun
    · simp at hrun
    · split at hrun
      · simp at hrun
      · split at hrun
        · simp at hrun
        · simp only [Except.ok.injEq, Prod.mk.injEq] at hrun
          obtain ⟨rfl, _⟩ := hrun
          exact ⟨s.tree.cursor, rfl⟩

/-- A decorated parser whose actions only move the cursor inherits the
discipline of its inner combinator. -/
theorem Parser_disciplined (p : Parser) (q : IParser) (hq : p.inner = some q)
    (hd : Disciplined q) (hb : CursorOnly p.before) (ha : CursorOnly p.on_accept)
    (hf : CursorOnly p.on_fail) : Disciplined p.toIParser := by
  intro s h r h3 hrun
  simp only [Parser.toIParser, Parser.call, hq] at hrun
  split at hrun
  · simp at hrun
  · split at hrun
    · simp at hrun
    · rename_i s1 h1 hbef
      obtain ⟨c1, rfl⟩ := hb _ _ _ _ hbef
      split at hrun
      · simp at hrun
      · rename_i res h2 hres
        have t := hd _ _ _ _ hres
        split at hrun
        · obtain ⟨c2, rfl⟩ := ha _ _ _ _ hrun
          exact ⟨t.lexems, t.begin, t.end_, t.root, t.on_fail, t.on_accept⟩
        · obtain ⟨c2, rfl⟩ := hf _ _ _ _ hrun
          exact ⟨t.lexems, t.begin, t.end_, t.root, t.on_fail, t.on_accept⟩

/-- Every combinator built from `Atom`, `Any`, `And`, `Or`, `OneOrMore` and
`Parser` with the default or the canonical actions is disciplined. -/
theorem build_disciplined (fuel : Nat) : ∀ g : Grammar, Disciplined (g.build fuel)
  | .atom t => Atom_disciplined t
  | .any => Any_disciplined
  | .and l r => And_disciplined _ _ (build_disciplined fuel l) (build_disciplined fuel r)
  | .or l r => Or_disciplined _ _ (build_disciplined fuel l) (build_disciplined fuel r)
  | .one_or_more p => OneOrMore_disciplined fuel _ (build_disciplined fuel p)
  | .decorated b p => by
    have hp := build_disciplined fuel p
    cases b with
    | plain =>
      exact Parser_disciplined _ _ rfl hp skip_cursorOnly skip_cursorOnly skip_cursorOnly
    | node cls =>
      exact Parser_disciplined _ _ rfl hp (before_action_cursorOnly cls)
        accept_action_cursorOnly fail_action_cursorOnly
    | primary cls =>
      exact Parser_disciplined _ _ rfl hp skip_cursorOnly
        (primary_type_builder_cursorOnly cls) skip_cursorOnly

/-- C6: non-consumption on failure. Whenever a combinator built from `Atom`,
`Any`, `And`, `Or`, `OneOrMore` and decorated parsers (default actions, `bind`
or `bind_primary`) returns a state with `accept = false`, the output `current`
equals the input `current`. -/
theorem C6_no_consumption_on_failure (g : Grammar) (fuel : Nat) (s : State) (h : Heap)
    (r : State) (h1 : Heap) (hrun : (g.build fuel).run s h = .ok (r, h1))
    (hrej : r.accept = false) : r.current = s.current :=
  (build_disciplined fuel g _ _ _ _ hrun).on_fail hrej

/-- C6 (witness): the bound sequence `bind<A>(Atom 1 + Atom 2)` consumes its
first token and then fails on `[1, 3]`; the output `current` is the input one. -/
theorem C6_no_consumption_on_failure_witness :
    ∃ r h1, ((Grammar.decorated (.node "A") (.and (.atom 1) (.atom 2))).build 0).run
        (Driver.start [tok 1, tok 3] none) Heap.empty = .ok (r, h1) ∧
      r.accept = false ∧ r.current = (Driver.start [tok 1, tok 3] none).current :=
  ⟨_, _, rfl, rfl,
    C6_no_consumption_on_failure (.decorated (.node "A") (.and (.atom 1) (.atom 2))) 0
      (Driver.start [tok 1, tok 3] none) Heap.empty _ _ rfl rfl⟩

/-- C7: monotone consumption on success. Whenever a combinator built from
`Atom`, `Any`, `And`, `Or`, `OneOrMore` and decorated parsers (default actions,
`bind` or `bind_primary`) returns a state with `accept = true`, the output
`current` is not before the input `current`; for `Atom` and `Any` it is
strictly after it. -/
theorem C7_monotone_consumption (s : State) (h : Heap) (r : State) (h1 : Heap)
    (hacc : r.accept = true) :
    (∀ (g : Grammar) (fuel : Nat), (g.build fuel).run s h = .ok (r, h1) →
      s.current ≤ r.current) ∧
    (∀ t : Tag, (Atom t).run s h = .ok (r, h1) → s.current < r.current) ∧
    (Any.run s h = .ok (r, h1) → s.current < r.current) := by
  refine ⟨fun g fuel hrun => (build_disciplined fuel g _ _ _ _ hrun).on_accept hacc, ?_, ?_⟩
  · intro t hrun
    simp only [Atom] at hrun
    split at hrun
    · simp at hrun
    · simp only [Except.ok.injEq, Prod.mk.injEq] at hrun
      obtain ⟨rfl, _⟩ := hrun
      simp only at hacc
      simp [hacc]
  · intro hrun
    simp only [Any, Except.ok.injEq, Prod.mk.injEq] at hrun
    obtain ⟨rfl, _⟩ := hrun
    simp

/-- C7 (witness): `OneOrMore(Atom 1)` accepts on `[1, 1]` and ends at position
2; `Atom 1` alone accepts and ends at position 1. -/
theorem C7_monotone_consumption_witness :
    (0 ≤ 2 ∧ ((Grammar.one_or_more (.atom 1)).build 2).run
        (Driver.start [tok 1, tok 1] none) Heap.empty
      = .ok ({ Driver.start [tok 1, tok 1] none with accept := true, current := 2 },
          Heap.empty)) ∧
    (Driver.start [tok 1, tok 1] none).current
      < ({ Driver.start [tok 1, tok 1] none with accept := true, current := 1 } : State).current :=
  ⟨⟨(C7_monotone_consumption (Driver.start [tok 1, tok 1] none) Heap.empty
      { Driver.start [tok 1, tok 1] none with accept := true, current := 2 } Heap.empty rfl).1
      (.one_or_more (.atom 1)) 2 rfl, rfl⟩,
   (C7_monotone_consumption (Driver.start [tok 1, tok 1] none) Heap.empty
      { Driver.start [tok 1, tok 1] none with accept := true, current := 1 } Heap.empty rfl).2.1
      1 rfl⟩


/-! ## Driver -/

/-- C8: `Driver::accept` returns `false` on the empty sequence; on a non-empty
sequence `T` on which the root returns a state, it returns `true` iff that
state has `accept = true` and `current` equal to the end of `T`. Hence a
`true` verdict means that `T` is non-empty and the root stopped at its end. -/
theorem C8_driver_accept (d : Driver) (T : Lexems) (tree : Ptr) (h : Heap) :
    Driver.accept d [] tree h = .ok (false, d, h) ∧
    (∀ r h1, T ≠ [] → d.parser.call (Driver.start T tree) h = .ok (r, h1) →
      Driver.accept d T tree h
        = .ok (r.accept && r.current == (Driver.start T tree).end_,
            { d with finish := r }, h1)) ∧
    (∀ d1 h1, Driver.accept d T tree h = .ok (true, d1, h1) ↔
      T ≠ [] ∧ ∃ r, d.parser.call (Driver.start T tree) h = .ok (r, h1) ∧
        r.accept = true ∧ r.current = T.length ∧ d1 = { d with finish := r }) := by
  refine ⟨rfl, ?_, ?_⟩
  · intro r h1 hT hcall
    have hlen : (T.length == 0) = false := by
      cases T with
      | nil => exact absurd rfl hT
      | cons a l => rfl
    simp [Driver.accept, hlen, hcall, Driver.is_accept]
  · intro d1 h1
    cases T with
    | nil => simp [Driver.accept]
    | cons a l =>
      have hlen : (((a :: l).length) == 0) = false := rfl
      simp only [Driver.accept, hlen, Bool.false_eq_true, ↓reduceIte]
      cases hcall : d.parser.call (Driver.start (a :: l) tree) h with
      | error e => simp
      | ok v =>
        obtain ⟨r, h2⟩ := v
        simp only [Except.ok.injEq, Prod.mk.injEq, Driver.is_accept, Driver.start,
          Bool.and_eq_true, beq_iff_eq, ne_eq, reduceCtorEq, not_false_eq_true, true_and]
        constructor
        · rintro ⟨⟨hacc, hcur⟩, rfl, rfl⟩
          exact ⟨r, ⟨rfl, rfl⟩, hacc, hcur, rfl⟩
        · rintro ⟨r1, ⟨rfl, rfl⟩, hacc, hcur, rfl⟩
          exact ⟨⟨hacc, hcur⟩, rfl, rfl⟩

/-- C8 (witness): the root `And(Atom 1, Atom 2)` returns an accepting state at
the end of `[1, 2]`, and `Driver::accept` answers `true`. -/
theorem C8_driver_accept_witness :
    ∃ d1 h1, Driver.accept (Driver.of (Parser.of (And (Atom 1) (Atom 2)))) [tok 1, tok 2] none
        Heap.empty = .ok (true, d1, h1) :=
  ⟨_, _, (C8_driver_accept (Driver.of (Parser.of (And (Atom 1) (Atom 2)))) [tok 1, tok 2] none
      Heap.empty).2.1 _ _ (by decide) rfl⟩

/-- C9 (counterexample): with the default null tree root, the bound rule
`bind<A>(Atom 1)` accepts and consumes all of `[1]` and constructs a node, yet
`Driver::parse` returns a null-rooted tree. -/
theorem C9_parse_accepts_with_empty_tree :
    ∃ d1 h1, Driver.parse (Driver.of (bind "A" (Parser.of (Atom 1)))) [tok 1] none Heap.empty
        = .ok (SyntaxTree.mk_root none, d1, h1) ∧
      d1.finish.accept = true ∧ d1.finish.current = d1.finish.end_ ∧
      h1.built = [0] ∧ h1.nodes.length = 1 :=
  ⟨_, _, rfl, rfl, rfl, rfl, rfl⟩

/-- C9 (amended): `Driver::parse` returns a null-rooted tree on the empty
sequence; on a non-empty sequence on which the root returns a state, it
returns that final state's tree when the state has `accept = true` and
`current` at the end of `T`, and a null-rooted tree otherwise. When the root
is built from the library combinators with default or canonical actions, the
tree of the final state has the initial root node as its root, so the tree
returned on acceptance is non-empty iff an initial root node was supplied. -/
theorem C9_driver_parse (d : Driver) (T : Lexems) (tree : Ptr) (h : Heap)
    (r : State) (h1 : Heap) (hT : T ≠ [])
    (hcall : d.parser.call (Driver.start T tree) h = .ok (r, h1)) :
    Driver.parse d [] tree h = .ok (SyntaxTree.mk_root none, d, h) ∧
    Driver.parse d T tree h
      = .ok (if r.accept && r.current == T.length then r.tree else SyntaxTree.mk_root none,
          { d with finish := r }, h1) ∧
    (∀ (b : Binding) (g : Grammar) (fuel : Nat),
      d.parser = b.decorate (Parser.of (g.build fuel)) →
      r.tree.root = tree ∧ (r.tree.root ≠ none ↔ tree ≠ none)) := by
  have hlen : (T.length == 0) = false := by
    cases T with
    | nil => exact absurd rfl hT
    | cons a l => rfl
  refine ⟨rfl, ?_, ?_⟩
  · simp only [Driver.parse, hlen, Bool.false_eq_true, ↓reduceIte, hcall]
    simp [Driver.is_accept, Driver.start]
  · intro b g fuel hp
    have hd : Disciplined (d.parser.toIParser) := by
      rw [hp]
      exact build_disciplined fuel (.decorated b g)
    have t := hd _ _ _ _ hcall
    have hroot : r.tree.root = tree := t.root
    exact ⟨hroot, by rw [hroot]⟩

/-- C9 (witness): with an initial root node at address 0, the bound rule
`bind<A>(Atom 1)` on `[1]` makes `Driver::parse` return the tree rooted at that
node. -/
theorem C9_driver_parse_witness :
    ∃ d1 h1, Driver.parse (Driver.of (bind "A" (Parser.of (Atom 1)))) [tok 1] (some 0)
        { Heap.empty with nodes := [⟨none, [], "Root", ""⟩] }
      = .ok (SyntaxTree.mk_root (some 0), d1, h1) :=
  ⟨_, _, (C9_driver_parse (Driver.of (bind "A" (Parser.of (Atom 1)))) [tok 1] (some 0)
      { Heap.empty with nodes := [⟨none, [], "Root", ""⟩] } _ _ (by decide) rfl).2.1⟩


/-! ## Heap operations -/

theorem Heap.kids_set (h : Heap) (a : Nat) (n n1 : ASTNode) (hn : h.nodes[a]? = some n)
    (x : Nat) :
    ({ h with nodes := h.nodes.set a n1 } : Heap).kids x
      = if x = a then n1.children else h.kids x := by
  have hlt : a < h.nodes.length := (List.getElem?_eq_some_iff.mp hn).1
  by_cases hx : x = a
  · subst hx
    simp [Heap.kids, List.getElem?_set, hlt]
  · have hx1 : ¬ a = x := fun e => hx e.symm
    simp [Heap.kids, List.getElem?_set, hx, hx1]

theorem Heap.parent_set (h : Heap) (a : Nat) (n n1 : ASTNode) (hn : h.nodes[a]? = some n)
    (x : Nat) :
    ({ h with nodes := h.nodes.set a n1 } : Heap).parent x
      = if x = a then .ok n1.parent else h.parent x := by
  have hlt : a < h.nodes.length := (List.getElem?_eq_some_iff.mp hn).1
  by_cases hx : x = a
  · subst hx
    simp [Heap.parent, List.getElem?_set, hlt]
  · have hx1 : ¬ a = x := fun e => hx e.symm
    simp [Heap.parent, List.getElem?_set, hx, hx1]

theorem Heap.node_append_ok (h h1 : Heap) (a k : Nat) (hop : h.node_append a k = .ok h1) :
    a < h.nodes.length ∧ h1.nodes.length = h.nodes.length ∧
    h1.built = h.built ∧ h1.popped = h.popped ∧
    (∀ x, h1.kids x = if x = a then h.kids a ++ [k] else h.kids x) ∧
    (∀ x, h1.parent x = h.parent x) := by
  simp only [Heap.node_append] at hop
  cases hn : h.nodes[a]? with
  | none => simp [hn] at hop
  | some n =>
    simp only [hn, Except.ok.injEq] at hop
    subst hop
    have hlt : a < h.nodes.length := (List.getElem?_eq_some_iff.mp hn).1
    refine ⟨hlt, by simp, rfl, rfl, ?_, ?_⟩
    · intro x
      rw [Heap.kids_set h a n _ hn x]
      by_cases hx : x = a
      · subst hx
        simp [Heap.kids, hn]
      · simp [hx]
    · intro x
      rw [Heap.parent_set h a n _ hn x]
      by_cases hx : x = a
      · subst hx
        simp [Heap.parent, hn]
      · simp [hx]

theorem Heap.node_pop_ok (h h1 : Heap) (a k : Nat) (hop : h.node_pop a k = .ok h1) :
    a < h.nodes.length ∧ h1.nodes.length = h.nodes.length ∧
    h1.built = h.built ∧ h1.popped = h.popped ∧
    (∀ x, h1.kids x = if x = a then (h.kids a).erase k else h.kids x) ∧
    (∀ x, h1.parent x = h.parent x) := by
  simp only [Heap.node_pop] at hop
  cases hn : h.nodes[a]? with
  | none => simp [hn] at hop
  | some n =>
    simp only [hn, Except.ok.injEq] at hop
    subst hop
    have hlt : a < h.nodes.length := (List.getElem?_eq_some_iff.mp hn).1
    refine ⟨hlt, by simp, rfl, rfl, ?_, ?_⟩
    · intro x
      rw [Heap.kids_set h a n _ hn x]
      by_cases hx : x = a
      · subst hx
        simp [Heap.kids, hn]
      · simp [hx]
    · intro x
      rw [Heap.parent_set h a n _ hn x]
      by_cases hx : x = a
      · subst hx
        simp [Heap.parent, hn]
      · simp [hx]

theorem Heap.set_parent_ok (h h1 : Heap) (a : Nat) (p : Ptr)
    (hop : h.set_parent a p = .ok h1) :
    a < h.nodes.length ∧ h1.nodes.length = h.nodes.length ∧
    h1.built = h.built ∧ h1.popped = h.popped ∧
    (∀ x, h1.kids x = h.kids x) ∧
    (∀ x, h1.parent x = if x = a then .ok p else h.parent x) := by
  simp only [Heap.set_parent] at hop
  cases hn : h.nodes[a]? with
  | none => simp [hn] at hop
  | some n =>
    simp only [hn, Except.ok.injEq] at hop
    subst hop
    have hlt : a < h.nodes.length := (List.getElem?_eq_some_iff.mp hn).1
    refine ⟨hlt, by simp, rfl, rfl, ?_, ?_⟩
    · intro x
      rw [Heap.kids_set h a n _ hn x]
      by_cases hx : x = a
      · subst hx
        simp [Heap.kids, hn]
      · simp [hx]
    · intro x
      rw [Heap.parent_set h a n _ hn x]

theorem Heap.alloc_ok (h : Heap) (n : ASTNode) :
    (h.alloc n).1 = h.nodes.length ∧
    (h.alloc n).2.nodes.length = h.nodes.length + 1 ∧
    (h.alloc n).2.built = h.built ∧ (h.alloc n).2.popped = h.popped ∧
    (∀ x, (h.alloc n).2.kids x = if x = h.nodes.length then n.children else h.kids x) ∧
    (∀ x, (h.alloc n).2.parent x
      = if x = h.nodes.length then .ok n.parent else h.parent x) := by
  refine ⟨rfl, by simp [Heap.alloc], rfl, rfl, ?_, ?_⟩
  · intro x
    by_cases hx : x = h.nodes.length
    · subst hx
      simp [Heap.alloc, Heap.kids]
    · simp only [Heap.alloc, Heap.kids, hx, ↓reduceIte]
      rcases Nat.lt_or_gt_of_ne hx with hlt | hgt
      · rw [List.getElem?_append_left hlt]
      · rw [List.getElem?_eq_none (by simp; omega), List.getElem?_eq_none (by omega)]
  · intro x
    by_cases hx : x = h.nodes.length
    · subst hx
      simp [Heap.alloc, Heap.parent]
    · simp only [Heap.alloc, Heap.parent, hx, ↓reduceIte]
      rcases Nat.lt_or_gt_of_ne hx with hlt | hgt
      · rw [List.getElem?_append_left hlt]
      · rw [List.getElem?_eq_none (by simp; omega), List.getElem?_eq_none (by omega)]

/-- A node outside the heap has no children. -/
theorem Heap.kids_of_ge (h : Heap) (a : Nat) (ha : h.nodes.length ≤ a) : h.kids a = [] := by
  simp [Heap.kids, List.getElem?_eq_none ha]

/-! ## Reachability under heap changes -/

theorem Heap.Reach.mono {h h1 : Heap} {x n : Nat}
    (hk : ∀ a b, b ∈ h.kids a → b ∈ h1.kids a) (hr : h.Reach x n) : h1.Reach x n := by
  induction hr with
  | refl => exact .refl
  | step _ hc ih => exact .step ih (hk _ _ hc)

theorem Heap.Reach.of_extends {h h1 : Heap} {x n : Nat} (hc : h.Closed)
    (he : h.Extends h1) (hr : h.Reach x n) : h1.Reach x n := by
  induction hr with
  | refl => exact .refl
  | step _ hm ih => exact .step ih (he.2.1 _ _ (hc _ _ hm) hm)

/-- Removing the link `p → k` leaves every node reachable from where it was, or
reachable from `k`. -/
theorem Heap.Reach.after_pop {h h1 : Heap} {p k x n : Nat}
    (hk : ∀ a b, b ∈ h.kids a → (a = p ∧ b = k) ∨ b ∈ h1.kids a) (hr : h.Reach x n) :
    h1.Reach x n ∨ h1.Reach k n := by
  induction hr with
  | refl => exact Or.inl .refl
  | step _ hm ih =>
    rcases hk _ _ hm with ⟨_, rfl⟩ | hm1
    · exact Or.inr .refl
    · rcases ih with ih | ih
      · exact Or.inl (.step ih hm1)
      · exact Or.inr (.step ih hm1)

theorem Heap.Extends.same_heap (h : Heap) : h.Extends h :=
  ⟨Nat.le_refl _, fun _ _ _ hm => hm, fun _ _ => rfl⟩

theorem Heap.Extends.trans {h h1 h2 : Heap} (e1 : h.Extends h1) (e2 : h1.Extends h2) :
    h.Extends h2 :=
  ⟨Nat.le_trans e1.1 e2.1,
   fun a b hb hm => e2.2.1 a b (Nat.lt_of_lt_of_le hb e1.1) (e1.2.1 a b hb hm),
   fun a ha => (e2.2.2 a (Nat.lt_of_lt_of_le ha e1.1)).trans (e1.2.2 a ha)⟩


/-! ## The canonical actions on the heap -/

theorem Heap.kids_congr (g h : Heap) (e : g.nodes = h.nodes) (x : Nat) :
    g.kids x = h.kids x := by
  simp [Heap.kids, e]

theorem Heap.parent_congr (g h : Heap) (e : g.nodes = h.nodes) (x : Nat) :
    g.parent x = h.parent x := by
  simp [Heap.parent, e]

/-- Consequences of hanging a fresh node (at the next free address) under the
node `c`. -/
theorem attach_facts (h h3 : Heap) (c : Nat) (hc : c < h.nodes.length)
    (hlen : h3.nodes.length = h.nodes.length + 1)
    (hkids : ∀ x, h3.kids x = if x = c then h.kids c ++ [h.nodes.length] else h.kids x)
    (hpar : ∀ x, h3.parent x = if x = h.nodes.length then .ok (some c) else h.parent x)
    (hcl : h.Closed) :
    h3.Closed ∧ h.Extends h3 ∧ (∀ x n, h.Reach x n → h3.Reach x n) ∧
    h3.Reach c h.nodes.length := by
  have hsub : ∀ a b, b ∈ h.kids a → b ∈ h3.kids a := by
    intro a b hb
    rw [hkids a]
    by_cases ha : a = c
    · subst ha
      simp [hb]
    · simpa [ha] using hb
  refine ⟨?_, ⟨by omega, fun a b _ hb => hsub a b hb, ?_⟩, fun x n hr => hr.mono hsub, ?_⟩
  · intro a b hb
    rw [hkids a] at hb
    by_cases ha : a = c
    · subst ha
      simp only [↓reduceIte, List.mem_append, List.mem_singleton] at hb
      rcases hb with hb | hb
      · have := hcl _ _ hb
        omega
      · omega
    · simp only [ha, ↓reduceIte] at hb
      have := hcl _ _ hb
      omega
  · intro a ha
    rw [hpar a]
    have : a ≠ h.nodes.length := by omega
    simp [this]
  · refine .step .refl ?_
    rw [hkids c]
    simp

theorem before_action_spec (cls : String) (root : Nat) (s s1 : State) (h h1 : Heap) (c : Nat)
    (hrun : before_action cls s h = .ok (s1, h1)) (hcur : s.tree.cursor = some c)
    (hc : c < h.nodes.length) (hcl : h.Closed) (hreach : h.Reach root c)
    (hatt : h.Attached (some root)) :
    s1 = { s with tree := { s.tree with cursor := some h.nodes.length } } ∧
    h1.nodes.length = h.nodes.length + 1 ∧ h1.Closed ∧ h.Extends h1 ∧
    h1.Attached (some root) ∧ h1.Reach root h.nodes.length ∧
    h1.parent h.nodes.length = .ok (some c) := by
  simp only [before_action, SyntaxTree.append, hcur] at hrun
  obtain ⟨ha1, ha2, ha3, ha4, ha5, ha6⟩ := Heap.alloc_ok h ⟨none, [], cls, ""⟩
  generalize h.alloc ⟨none, [], cls, ""⟩ = al at hrun ha1 ha2 ha3 ha4 ha5 ha6
  obtain ⟨k, h0⟩ := al
  simp only at hrun ha1 ha2 ha3 ha4 ha5 ha6
  subst ha1
  split at hrun
  · simp at hrun
  · rename_i h2 hap
    split at hrun
    · simp at hrun
    · rename_i h3 hsp
      simp only [Except.ok.injEq, Prod.mk.injEq] at hrun
      obtain ⟨rfl, rfl⟩ := hrun
      generalize hg : (Heap.mk h0.nodes (h.nodes.length :: h0.built) h0.popped) = g at hap
      have hgn : g.nodes = h0.nodes := by rw [← hg]
      have hgb : g.built = h.nodes.length :: h0.built := by rw [← hg]
      have hgp : g.popped = h0.popped := by rw [← hg]
      obtain ⟨_, hb2, hb3, hb4, hb5, hb6⟩ := Heap.node_append_ok _ _ _ _ hap
      obtain ⟨_, hc2, hc3, hc4, hc5, hc6⟩ := Heap.set_parent_ok _ _ _ _ hsp
      have hne : c ≠ h.nodes.length := by omega
      have hlen : h3.nodes.length = h.nodes.length + 1 := by
        rw [hc2, hb2, hgn]
        exact ha2
      have hkids : ∀ x, h3.kids x
          = if x = c then h.kids c ++ [h.nodes.length] else h.kids x := by
        intro x
        rw [hc5 x, hb5 x]
        rw [Heap.kids_congr g h0 hgn x, Heap.kids_congr g h0 hgn c, ha5 x, ha5 c]
        by_cases hx : x = c
        · subst hx
          simp [hne]
        · by_cases hx2 : x = h.nodes.length
          · subst hx2
            simp [hx, Heap.kids_of_ge h h.nodes.length (Nat.le_refl _)]
          · simp [hx, hx2]
      have hpar : ∀ x, h3.parent x
          = if x = h.nodes.length then .ok (some c) else h.parent x := by
        intro x
        rw [hc6 x, hb6 x]
        rw [Heap.parent_congr g h0 hgn x, ha6 x]
        by_cases hx : x = h.nodes.length <;> simp [hx]
      obtain ⟨f1, f2, f3, f4⟩ := attach_facts h h3 c hc hlen hkids hpar hcl
      have hbuilt : h3.built = h.nodes.length :: h.built := by
        rw [hc3, hb3, hgb, ha3]
      have hpopped : h3.popped = h.popped := by
        rw [hc4, hb4, hgp, ha4]
      have hrk : h3.Reach root h.nodes.length := by
        have := f3 _ _ hreach
        exact .step this (by rw [hkids c]; simp)
      refine ⟨rfl, hlen, f1, f2, ?_, hrk, ?_⟩
      · intro n hn
        rw [hbuilt] at hn
        rcases List.mem_cons.mp hn with rfl | hn
        · exact Or.inl ⟨root, rfl, hrk⟩
        · rcases hatt n hn with ⟨r, hr, hreach1⟩ | ⟨a, ha, hreach1⟩
          · exact Or.inl ⟨r, hr, f3 _ _ hreach1⟩
          · exact Or.inr ⟨a, by rw [hpopped]; exact ha, f3 _ _ hreach1⟩
      · rw [hpar]
        simp

theorem accept_action_spec (s r : State) (h h1 : Heap) (k : Nat) (p : Ptr)
    (hrun : accept_action s h = .ok (r, h1)) (hcur : s.tree.cursor = some k)
    (hpar : h.parent k = .ok p) :
    r = { s with tree := { s.tree with cursor := p } } ∧ h1 = h := by
  simp only [accept_action, hcur, hpar, Except.ok.injEq, Prod.mk.injEq] at hrun
  exact ⟨hrun.1.symm, hrun.2.symm⟩

theorem fail_action_spec (root : Nat) (s r : State) (h h1 : Heap) (k c : Nat)
    (hrun : fail_action s h = .ok (r, h1)) (hcur : s.tree.cursor = some k)
    (hpar : h.parent k = .ok (some c)) (hcl : h.Closed) (hatt : h.Attached (some root)) :
    r = { s with tree := { s.tree with cursor := some c } } ∧
    h1.nodes.length = h.nodes.length ∧ h1.Closed ∧
    (∀ a b, b ≠ k → b ∈ h.kids a → b ∈ h1.kids a) ∧
    (∀ a, h1.parent a = h.parent a) ∧ h1.Attached (some root) := by
  simp only [fail_action, hcur, hpar] at hrun
  split at hrun
  · simp at hrun
  · rename_i h2 hpop
    simp only [Except.ok.injEq, Prod.mk.injEq] at hrun
    obtain ⟨rfl, rfl⟩ := hrun
    obtain ⟨_, hb2, hb3, hb4, hb5, hb6⟩ := Heap.node_pop_ok _ _ _ _ hpop
    generalize hg : (Heap.mk h2.nodes h2.built (k :: h2.popped)) = g
    have hgn : g.nodes = h2.nodes := by rw [← hg]
    have hgb : g.built = h.built := by rw [← hg, ← hb3]
    have hgp : g.popped = k :: h.popped := by rw [← hg, ← hb4]
    have hsub : ∀ a b, b ∈ h2.kids a → b ∈ h.kids a := by
      intro a b hb
      rw [hb5 a] at hb
      by_cases ha : a = c
      · subst ha
        simp only [↓reduceIte] at hb
        exact List.mem_of_mem_erase hb
      · simpa [ha] using hb
    have hkeep : ∀ a b, b ∈ h.kids a → (a = c ∧ b = k) ∨ b ∈ h2.kids a := by
      intro a b hb
      rw [hb5 a]
      by_cases ha : a = c
      · subst ha
        by_cases hbk : b = k
        · exact Or.inl ⟨rfl, hbk⟩
        · right
          simp only [↓reduceIte]
          exact (List.mem_erase_of_ne hbk).mpr hb
      · right
        simpa [ha] using hb
    refine ⟨rfl, by rw [hgn]; exact hb2, ?_, ?_, ?_, ?_⟩
    · intro a b hb
      rw [Heap.kids_congr g h2 hgn a] at hb
      have := hcl _ _ (hsub a b hb)
      rw [hgn]
      omega
    · intro a b hbk hb
      rw [Heap.kids_congr g h2 hgn a]
      rcases hkeep a b hb with ⟨_, hk⟩ | hk
      · exact absurd hk hbk
      · exact hk
    · intro a
      rw [Heap.parent_congr g h2 hgn a, hb6 a]
    · intro n hn
      rw [hgb] at hn
      have lift : ∀ x, h.Reach x n → g.Reach x n ∨ g.Reach k n :=
        fun x hr => hr.after_pop
          (fun a b hb => by rw [Heap.kids_congr g h2 hgn a]; exact hkeep a b hb)
      have hk_in : k ∈ g.popped := by rw [hgp]; exact List.mem_cons_self _ _
      rcases hatt n hn with ⟨r, hr, hreach1⟩ | ⟨a, ha, hreach1⟩
      · rcases lift _ hreach1 with hx | hx
        · exact Or.inl ⟨r, hr, hx⟩
        · exact Or.inr ⟨k, hk_in, hx⟩
      · rcases lift _ hreach1 with hx | hx
        · exact Or.inr ⟨a, by rw [hgp]; exact List.mem_cons_of_mem _ ha, hx⟩
        · exact Or.inr ⟨k, hk_in, hx⟩


theorem primary_type_builder_spec (cls : String) (root : Nat) (s r : State) (h h1 : Heap)
    (c : Nat) (hrun : primary_type_builder cls s h = .ok (r, h1))
    (hcur : s.tree.cursor = some c) (hc : c < h.nodes.length) (hcl : h.Closed)
    (hatt : h.Attached (some root)) :
    r = s ∧ h1.Closed ∧ h.Extends h1 ∧ h1.Attached (some root) := by
  simp only [primary_type_builder, SyntaxTree.append, hcur] at hrun
  split at hrun
  · simp at hrun
  · split at hrun
    · simp at hrun
    · rename_i target _
      obtain ⟨ha1, ha2, ha3, ha4, ha5, ha6⟩ := Heap.alloc_ok h ⟨none, [], cls, target.content⟩
      generalize h.alloc ⟨none, [], cls, target.content⟩ = al at hrun ha1 ha2 ha3 ha4 ha5 ha6
      obtain ⟨k, h0⟩ := al
      simp only at hrun ha1 ha2 ha3 ha4 ha5 ha6
      subst ha1
      split at hrun
      · simp at hrun
      · rename_i h2 hsp
        split at hrun
        · simp at hrun
        · rename_i h3 hap
          simp only [Except.ok.injEq, Prod.mk.injEq] at hrun
          obtain ⟨rfl, rfl⟩ := hrun
          obtain ⟨_, hc2, hc3, hc4, hc5, hc6⟩ := Heap.set_parent_ok _ _ _ _ hsp
          obtain ⟨_, hb2, hb3, hb4, hb5, hb6⟩ := Heap.node_append_ok _ _ _ _ hap
          have hne : c ≠ h.nodes.length := by omega
          have hlen : h3.nodes.length = h.nodes.length + 1 := by
            rw [hb2, hc2]
            exact ha2
          have hkids : ∀ x, h3.kids x
              = if x = c then h.kids c ++ [h.nodes.length] else h.kids x := by
            intro x
            rw [hb5 x, hc5 x, hc5 c, ha5 x, ha5 c]
            by_cases hx : x = c
            · subst hx
              simp [hne]
            · by_cases hx2 : x = h.nodes.length
              · subst hx2
                simp [hx, Heap.kids_of_ge h h.nodes.length (Nat.le_refl _)]
              · simp [hx, hx2]
          have hpar : ∀ x, h3.parent x
              = if x = h.nodes.length then .ok (some c) else h.parent x := by
            intro x
            rw [hb6 x, hc6 x, ha6 x]
            by_cases hx : x = h.nodes.length <;> simp [hx]
          obtain ⟨f1, f2, f3, _⟩ := attach_facts h h3 c hc hlen hkids hpar hcl
          refine ⟨rfl, f1, f2, ?_⟩
          intro n hn
          rw [hb3, hc3, ha3] at hn
          rcases hatt n hn with ⟨r, hr, hreach1⟩ | ⟨a, ha, hreach1⟩
          · exact Or.inl ⟨r, hr, f3 _ _ hreach1⟩
          · exact Or.inr ⟨a, by rw [hb4, hc4, ha4]; exact ha, f3 _ _ hreach1⟩

/-! ## Tree safety of the library combinators -/

/-- A valid cursor below the root stays valid and below the root in a later heap. -/
theorem cursor_kept {h h1 : Heap} {root c : Nat} (hc : c < h.nodes.length)
    (hcl : h.Closed) (he : h.Extends h1) (hr : h.Reach root c) :
    c < h1.nodes.length ∧ h1.Reach root c :=
  ⟨Nat.lt_of_lt_of_le hc he.1, hr.of_extends hcl he⟩

theorem Atom_treeSafe (root : Nat) (t : Tag) : TreeSafe root (Atom t) := by
  intro s h r h1 c hrun _ _ hcl _ hatt
  simp only [Atom] at hrun
  split at hrun
  · simp at hrun
  · simp only [Except.ok.injEq, Prod.mk.injEq] at hrun
    obtain ⟨rfl, rfl⟩ := hrun
    exact ⟨rfl, hcl, Heap.Extends.same_heap _, hatt⟩

theorem Any_treeSafe (root : Nat) : TreeSafe root Any := by
  intro s h r h1 c hrun _ _ hcl _ hatt
  simp only [Any, Except.ok.injEq, Prod.mk.injEq] at hrun
  obtain ⟨rfl, rfl⟩ := hrun
  exact ⟨rfl, hcl, Heap.Extends.same_heap _, hatt⟩

theorem And_treeSafe (root : Nat) (L R : IParser) (hL : TreeSafe root L)
    (hR : TreeSafe root R) : TreeSafe root (And L R) := by
  intro s h r h2 c hrun hcur hc hcl hreach hatt
  simp only [And] at hrun
  split at hrun
  · simp only [Except.ok.injEq, Prod.mk.injEq] at hrun
    obtain ⟨rfl, rfl⟩ := hrun
    exact ⟨rfl, hcl, Heap.Extends.same_heap _, hatt⟩
  · split at hrun
    · simp at hrun
    · rename_i l h1 hl
      obtain ⟨l1, l2, l3, l4⟩ := hL _ _ _ _ _ hl hcur hc hcl hreach hatt
      split at hrun
      · simp only [Except.ok.injEq, Prod.mk.injEq] at hrun
        obtain ⟨rfl, rfl⟩ := hrun
        exact ⟨rfl, l2, l3, l4⟩
      · split at hrun
        · simp at hrun
        · rename_i r1 h3 hr
          obtain ⟨c1, c2⟩ := cursor_kept hc hcl l3 hreach
          obtain ⟨r1', r2, r3, r4⟩ := hR _ _ _ _ _ hr (by rw [l1]; exact hcur) c1 l2 c2 l4
          split at hrun
          · simp only [Except.ok.injEq, Prod.mk.injEq] at hrun
            obtain ⟨rfl, rfl⟩ := hrun
            exact ⟨rfl, r2, l3.trans r3, r4⟩
          · simp only [Except.ok.injEq, Prod.mk.injEq] at hrun
            obtain ⟨rfl, rfl⟩ := hrun
            exact ⟨r1'.trans l1, r2, l3.trans r3, r4⟩

theorem Or_treeSafe (root : Nat) (L R : IParser) (hL : TreeSafe root L)
    (hR : TreeSafe root R) : TreeSafe root (Or L R) := by
  intro s h r h2 c hrun hcur hc hcl hreach hatt
  simp only [Or] at hrun
  split at hrun
  · simp only [Except.ok.injEq, Prod.mk.injEq] at hrun
    obtain ⟨rfl, rfl⟩ := hrun
    exact ⟨rfl, hcl, Heap.Extends.same_heap _, hatt⟩
  · split at hrun
    · simp at hrun
    · rename_i l h1 hl
      obtain ⟨l1, l2, l3, l4⟩ := hL _ _ _ _ _ hl hcur hc hcl hreach hatt
      split at hrun
      · simp only [Except.ok.injEq, Prod.mk.injEq] at hrun
        obtain ⟨rfl, rfl⟩ := hrun
        exact ⟨l1, l2, l3, l4⟩
      · split at hrun
        · simp at hrun
        · rename_i r1 h3 hr
          obtain ⟨c1, c2⟩ := cursor_kept hc hcl l3 hreach
          obtain ⟨r1', r2, r3, r4⟩ := hR _ _ _ _ _ hr hcur c1 l2 c2 l4
          split at hrun
          · simp only [Except.ok.injEq, Prod.mk.injEq] at hrun
            obtain ⟨rfl, rfl⟩ := hrun
            exact ⟨r1', r2, l3.trans r3, r4⟩
          · simp only [Except.ok.injEq, Prod.mk.injEq] at hrun
            obtain ⟨rfl, rfl⟩ := hrun
            exact ⟨rfl, r2, l3.trans r3, r4⟩

theorem loop_treeSafe (root : Nat) (p : IParser) (hp : TreeSafe root p) :
    ∀ (fuel : Nat) (res : State) (h : Heap) (r : State) (h1 : Heap) (c : Nat),
      OneOrMore.loop p fuel res h = .ok (r, h1) → res.tree.cursor = some c →
      c < h.nodes.length → h.Closed → h.Reach root c → h.Attached (some root) →
      r.tree = res.tree ∧ h1.Closed ∧ h.Extends h1 ∧ h1.Attached (some root) := by
  intro fuel
  induction fuel with
  | zero =>
    intro res h r h1 c hrun hcur hc hcl hreach hatt
    simp only [OneOrMore.loop] at hrun
    split at hrun
    · simp at hrun
    · simp only [Except.ok.injEq, Prod.mk.injEq] at hrun
      obtain ⟨rfl, rfl⟩ := hrun
      exact ⟨rfl, hcl, Heap.Extends.same_heap _, hatt⟩
  | succ n ih =>
    intro res h r h1 c hrun hcur hc hcl hreach hatt
    simp only [OneOrMore.loop] at hrun
    split at hrun
    · split at hrun
      · simp at hrun
      · rename_i temp h2 htemp
        obtain ⟨l1, l2, l3, l4⟩ := hp _ _ _ _ _ htemp hcur hc hcl hreach hatt
        split at hrun
        · simp only [Except.ok.injEq, Prod.mk.injEq] at hrun
          obtain ⟨rfl, rfl⟩ := hrun
          exact ⟨rfl, l2, l3, l4⟩
        · obtain ⟨c1, c2⟩ := cursor_kept hc hcl l3 hreach
          obtain ⟨r1, r2, r3, r4⟩ := ih _ _ _ _ _ hrun (by rw [l1]; exact hcur) c1 l2 c2 l4
          exact ⟨r1.trans l1, r2, l3.trans r3, r4⟩
    · simp only [Except.ok.injEq, Prod.mk.injEq] at hrun
      obtain ⟨rfl, rfl⟩ := hrun
      exact ⟨rfl, hcl, Heap.Extends.same_heap _, hatt⟩

theorem OneOrMore_treeSafe (root fuel : Nat) (p : IParser) (hp : TreeSafe root p) :
    TreeSafe root (OneOrMore fuel p) := by
  intro s h r h2 c hrun hcur hc hcl hreach hatt
  simp only [OneOrMore] at hrun
  split at hrun
  · simp at hrun
  · rename_i res h1 hres
    obtain ⟨l1, l2, l3, l4⟩ := hp _ _ _ _ _ hres hcur hc hcl hreach hatt
    obtain ⟨c1, c2⟩ := cursor_kept hc hcl l3 hreach
    obtain ⟨r1, r2, r3, r4⟩ :=
      loop_treeSafe root p hp _ _ _ _ _ _ hrun (by rw [l1]; exact hcur) c1 l2 c2 l4
    exact ⟨r1.trans l1, r2, l3.trans r3, r4⟩


/-- Putting the cursor back on a tree whose cursor was `c` gives that tree. -/
theorem SyntaxTree.cursor_restored (t : SyntaxTree) (c k : Nat) (hcur : t.cursor = some c) :
    ({ ({ t with cursor := some k } : SyntaxTree) with cursor := some c } : SyntaxTree) = t := by
  cases t
  simp only at hcur
  subst hcur
  rfl

theorem decorated_treeSafe (root : Nat) (b : Binding) (q : IParser)
    (hq : TreeSafe root q) : TreeSafe root (b.decorate (Parser.of q)).toIParser := by
  intro s h r h5 c hrun hcur hc hcl hreach hatt
  cases b with
  | plain =>
    simp only [Parser.toIParser, Binding.decorate, Parser.of, Parser.call, Action.invoke,
      skip] at hrun
    split at hrun
    · simp at hrun
    · split at hrun
      · simp at hrun
      · rename_i res h2 hres
        have hsafe := hq _ _ _ _ _ hres hcur hc hcl hreach hatt
        split at hrun
        · simp only [Except.ok.injEq, Prod.mk.injEq] at hrun
          obtain ⟨rfl, rfl⟩ := hrun
          exact hsafe
        · simp only [Except.ok.injEq, Prod.mk.injEq] at hrun
          obtain ⟨rfl, rfl⟩ := hrun
          exact hsafe
  | primary cls =>
    simp only [Parser.toIParser, Binding.decorate, bind_primary, Parser.of, Parser.call,
      Action.invoke, skip] at hrun
    split at hrun
    · simp at hrun
    · split at hrun
      · simp at hrun
      · rename_i res h2 hres
        obtain ⟨i1, i2, i3, i4⟩ := hq _ _ _ _ _ hres hcur hc hcl hreach hatt
        split at hrun
        · obtain ⟨c1, _⟩ := cursor_kept hc hcl i3 hreach
          obtain ⟨rfl, p2, p3, p4⟩ := primary_type_builder_spec cls root _ _ _ _ c hrun
            (by rw [i1]; exact hcur) c1 i2 i4
          exact ⟨i1, p2, i3.trans p3, p4⟩
        · simp only [Except.ok.injEq, Prod.mk.injEq] at hrun
          obtain ⟨rfl, rfl⟩ := hrun
          exact ⟨i1, i2, i3, i4⟩
  | node cls =>
    simp only [Parser.toIParser, Binding.decorate, bind, Parser.of, Parser.call,
      Action.invoke] at hrun
    split at hrun
    · simp at hrun
    · split at hrun
      · simp at hrun
      · rename_i s1 h1 hbef
        obtain ⟨rfl, b2, b3, b4, b5, b6, b7⟩ :=
          before_action_spec cls root _ _ _ _ c hbef hcur hc hcl hreach hatt
        split at hrun
        · simp at hrun
        · rename_i res h2 hres
          obtain ⟨i1, i2, i3, i4⟩ := hq _ _ _ _ h.nodes.length hres rfl (by omega) b3 b6 b5
          have hpar : h2.parent h.nodes.length = .ok (some c) := by
            rw [i3.2.2 _ (by omega)]
            exact b7
          have hrescur : res.tree.cursor = some h.nodes.length := by rw [i1]
          have he := b4.trans i3
          split at hrun
          · obtain ⟨rfl, rfl⟩ := accept_action_spec _ _ _ _ _ _ hrun hrescur hpar
            refine ⟨?_, i2, he, i4⟩
            show ({ res.tree with cursor := some c } : SyntaxTree) = s.tree
            rw [i1]
            exact SyntaxTree.cursor_restored s.tree c _ hcur
          · obtain ⟨rfl, f2, f3, f4, f5, f6⟩ :=
              fail_action_spec root _ _ _ _ _ c hrun hrescur hpar i2 i4
            refine ⟨?_, f3, ⟨?_, ?_, ?_⟩, f6⟩
            · show ({ res.tree with cursor := some c } : SyntaxTree) = s.tree
              rw [i1]
              exact SyntaxTree.cursor_restored s.tree c _ hcur
            · rw [f2]
              exact he.1
            · intro a x hx hm
              exact f4 a x (by omega) (he.2.1 a x hx hm)
            · intro a ha
              rw [f5 a]
              exact he.2.2 a ha

/-- Every combinator built from the library constructors with default or
canonical actions is tree-safe. -/
theorem build_treeSafe (root fuel : Nat) : ∀ g : Grammar, TreeSafe root (g.build fuel)
  | .atom t => Atom_treeSafe root t
  | .any => Any_treeSafe root
  | .and l r => And_treeSafe root _ _ (build_treeSafe root fuel l) (build_treeSafe root fuel r)
  | .or l r => Or_treeSafe root _ _ (build_treeSafe root fuel l) (build_treeSafe root fuel r)
  | .one_or_more p => OneOrMore_treeSafe root fuel _ (build_treeSafe root fuel p)
  | .decorated b p => decorated_treeSafe root b _ (build_treeSafe root fuel p)


/-! ## AST leak-freedom -/

/-- The last link of a path. -/
theorem Heap.Reach.last {h : Heap} {a n : Nat} (hr : h.Reach a n) :
    n = a ∨ ∃ b, h.Reach a b ∧ n ∈ h.kids b := by
  cases hr with
  | refl => exact Or.inl rfl
  | step hr1 hm => exact Or.inr ⟨_, hr1, hm⟩

theorem root_heap_closed : root_heap.Closed := by
  intro a c hc
  rcases a with _ | a <;> simp [Heap.kids, root_heap] at hc

/-- C10 (counterexample): two parses after which a node constructed by
`before_action` is neither reachable from the root of the final tree nor was
passed to `pop`. With the default null root, `bind<A>(Atom 1)` accepts `[1]`
and its node hangs under nothing. With a root node, the rule
`bind<A>(bind<B>(Atom 1) + Atom 2)` rejects `[1, 3]`: only the node of `A` is
passed to `pop`, the node of `B` leaves the tree inside it. -/
theorem C10_leak_counterexample :
    (∃ t d1, Driver.parse (Driver.of (bind "A" (Parser.of (Atom 1)))) [tok 1] none Heap.empty
        = .ok (t, d1, null_root_final_heap) ∧
      d1.finish.tree.root = none ∧ ¬ null_root_final_heap.LeakFree none) ∧
    (∃ t d1, Driver.parse (Driver.of nested_rule) [tok 1, tok 3] (some 0) root_heap
        = .ok (t, d1, nested_final_heap) ∧
      d1.finish.tree.root = some 0 ∧ ¬ nested_final_heap.LeakFree (some 0)) := by
  refine ⟨⟨_, _, rfl, rfl, ?_⟩, ⟨_, _, rfl, rfl, ?_⟩⟩
  · intro hlf
    rcases hlf 0 (by simp [null_root_final_heap]) with ⟨r, hr, _⟩ | hp
    · simp at hr
    · simp [null_root_final_heap] at hp
  · intro hlf
    have k2 : ∀ b, 2 ∈ nested_final_heap.kids b → b = 1 := by
      intro b hb
      rcases b with _ | _ | _ | b <;> simp [Heap.kids, nested_final_heap] at hb ⊢
    have k1 : ∀ b, ¬ 1 ∈ nested_final_heap.kids b := by
      intro b hb
      rcases b with _ | _ | _ | b <;> simp [Heap.kids, nested_final_heap] at hb
    rcases hlf 2 (by simp [nested_final_heap]) with ⟨r, hr, hreach⟩ | hp
    · simp only [Option.some.injEq] at hr
      subst hr
      rcases hreach.last with h0 | ⟨b, hb, hm⟩
      · simp at h0
      · have hb1 := k2 b hm
        subst hb1
        rcases hb.last with h0 | ⟨b1, _, hm1⟩
        · simp at h0
        · exact k1 b1 hm1
    · simp [nested_final_heap] at hp

/-- C10 (amended): let the root be bound with default or canonical actions
over a combinator built from the library constructors, and let the parse start
from a non-null root node of a heap without dangling child pointers, with
empty construction and pop logs. After `Driver::parse` or `Driver::accept`
returns, accepting or rejecting, every node constructed by `before_action` is
reachable from the root of the final state's tree or lies in the subtree of a
node that `fail_action` passed to `pop`; that root is the initial root node. -/
theorem C10_leak_freedom (b : Binding) (g : Grammar) (fuel : Nat) (T : Lexems) (root : Nat)
    (h : Heap) (hroot : root < h.nodes.length) (hcl : h.Closed) (hb : h.built = [])
    (_hp : h.popped = []) :
    (∀ t d1 h1,
      Driver.parse (Driver.of (b.decorate (Parser.of (g.build fuel)))) T (some root) h
        = .ok (t, d1, h1) →
      h1.Attached (some root) ∧ (T ≠ [] → d1.finish.tree.root = some root)) ∧
    (∀ v d1 h1,
      Driver.accept (Driver.of (b.decorate (Parser.of (g.build fuel)))) T (some root) h
        = .ok (v, d1, h1) →
      h1.Attached (some root) ∧ (T ≠ [] → d1.finish.tree.root = some root)) := by
  have hatt : h.Attached (some root) := by
    intro n hn
    rw [hb] at hn
    simp at hn
  have hsafe : TreeSafe root (b.decorate (Parser.of (g.build fuel))).toIParser :=
    build_treeSafe root fuel (.decorated b g)
  have key : ∀ r h1, (b.decorate (Parser.of (g.build fuel))).call
      (Driver.start T (some root)) h = .ok (r, h1) →
      h1.Attached (some root) ∧ r.tree.root = some root := by
    intro r h1 hcall
    obtain ⟨e1, _, _, e4⟩ := hsafe _ _ _ _ root hcall rfl hroot hcl .refl hatt
    exact ⟨e4, by rw [e1]; rfl⟩
  constructor
  · intro t d1 h1 hrun
    simp only [Driver.parse, Driver.of] at hrun
    split at hrun
    · rename_i hlen
      simp only [Except.ok.injEq, Prod.mk.injEq] at hrun
      obtain ⟨_, _, rfl⟩ := hrun
      refine ⟨hatt, fun hT => ?_⟩
      cases T with
      | nil => exact absurd rfl hT
      | cons a l => exact absurd hlen (by simp)
    · split at hrun
      · simp at hrun
      · rename_i fin h2 hcall
        simp only [Except.ok.injEq, Prod.mk.injEq] at hrun
        obtain ⟨_, rfl, rfl⟩ := hrun
        obtain ⟨k1, k2⟩ := key _ _ hcall
        exact ⟨k1, fun _ => k2⟩
  · intro v d1 h1 hrun
    simp only [Driver.accept, Driver.of] at hrun
    split at hrun
    · rename_i hlen
      simp only [Except.ok.injEq, Prod.mk.injEq] at hrun
      obtain ⟨_, _, rfl⟩ := hrun
      refine ⟨hatt, fun hT => ?_⟩
      cases T with
      | nil => exact absurd rfl hT
      | cons a l => exact absurd hlen (by simp)
    · split at hrun
      · simp at hrun
      · rename_i fin h2 hcall
        simp only [Except.ok.injEq, Prod.mk.injEq] at hrun
        obtain ⟨_, rfl, rfl⟩ := hrun
        obtain ⟨k1, k2⟩ := key _ _ hcall
        exact ⟨k1, fun _ => k2⟩

/-- C10 (witness): the rejecting parse of `[1, 3]` by
`bind<A>(bind<B>(Atom 1) + Atom 2)` under a root node leaves both constructed
nodes in the subtree passed to `pop`. -/
theorem C10_leak_freedom_witness :
    ∃ t d1, Driver.parse (Driver.of nested_rule) [tok 1, tok 3] (some 0) root_heap
        = .ok (t, d1, nested_final_heap) ∧
      nested_final_heap.Attached (some 0) ∧ d1.finish.tree.root = some 0 :=
  ⟨_, _, rfl,
    ((C10_leak_freedom (.node "A") (.and (.decorated (.node "B") (.atom 1)) (.atom 2)) 0
      [tok 1, tok 3] 0 root_heap (by decide) root_heap_closed rfl rfl).1 _ _ _ rfl).1,
    rfl⟩


/-! ## Cursor balance -/

theorem Heap.ParentsKept.same_parents (h : Heap) : h.ParentsKept h :=
  ⟨Nat.le_refl _, fun _ _ => rfl⟩

theorem Heap.ParentsKept.then_kept {h h1 h2 : Heap} (e1 : h.ParentsKept h1)
    (e2 : h1.ParentsKept h2) : h.ParentsKept h2 :=
  ⟨Nat.le_trans e1.1 e2.1,
   fun a ha => (e2.2 a (Nat.lt_of_lt_of_le ha e1.1)).trans (e1.2 a ha)⟩

/-- What `before_action` does to the state and to the parent pointers, for any
cursor (null included). -/
theorem before_action_parents (cls : String) (s s1 : State) (h h1 : Heap)
    (hrun : before_action cls s h = .ok (s1, h1)) :
    s1 = { s with tree := { s.tree with cursor := some h.nodes.length } } ∧
    h.ParentsKept h1 ∧ h.nodes.length < h1.nodes.length ∧
    h1.parent h.nodes.length = .ok s.tree.cursor := by
  simp only [before_action] at hrun
  obtain ⟨ha1, ha2, _, _, _, ha6⟩ := Heap.alloc_ok h ⟨none, [], cls, ""⟩
  generalize h.alloc ⟨none, [], cls, ""⟩ = al at hrun ha1 ha2 ha6
  obtain ⟨k, h0⟩ := al
  simp only at hrun ha1 ha2 ha6
  subst ha1
  generalize hg : (Heap.mk h0.nodes (h.nodes.length :: h0.built) h0.popped) = g at hrun
  have hgn : g.nodes = h0.nodes := by rw [← hg]
  split at hrun
  · simp at hrun
  · rename_i h2 hap
    split at hrun
    · simp at hrun
    · rename_i h3 hsp
      simp only [Except.ok.injEq, Prod.mk.injEq] at hrun
      obtain ⟨rfl, rfl⟩ := hrun
      obtain ⟨_, hc2, _, _, _, hc6⟩ := Heap.set_parent_ok _ _ _ _ hsp
      have h2facts : h2.nodes.length = g.nodes.length ∧ ∀ x, h2.parent x = g.parent x := by
        simp only [SyntaxTree.append] at hap
        split at hap
        · obtain ⟨_, hb2, _, _, _, hb6⟩ := Heap.node_append_ok _ _ _ _ hap
          exact ⟨hb2, hb6⟩
        · simp only [Except.ok.injEq] at hap
          subst hap
          exact ⟨rfl, fun _ => rfl⟩
      have hlen : h3.nodes.length = h.nodes.length + 1 := by
        rw [hc2, h2facts.1, hgn]
        exact ha2
      have hpar : ∀ x, h3.parent x
          = if x = h.nodes.length then .ok s.tree.cursor else h.parent x := by
        intro x
        rw [hc6 x, h2facts.2 x, Heap.parent_congr g h0 hgn x, ha6 x]
        by_cases hx : x = h.nodes.length <;> simp [hx]
      refine ⟨rfl, ⟨by omega, fun a ha => ?_⟩, by omega, ?_⟩
      · rw [hpar a]
        have : a ≠ h.nodes.length := by omega
        simp [this]
      · rw [hpar]
        simp

/-- What `fail_action` does to the state and to the parent pointers. -/
theorem fail_action_parents (s r : State) (h h1 : Heap) (k : Nat) (p : Ptr)
    (hrun : fail_action s h = .ok (r, h1)) (hcur : s.tree.cursor = some k)
    (hpar : h.parent k = .ok p) :
    r = { s with tree := { s.tree with cursor := p } } ∧ h.ParentsKept h1 := by
  simp only [fail_action, hcur, hpar] at hrun
  split at hrun
  · split at hrun
    · simp at hrun
    · rename_i h2 hpop
      simp only [Except.ok.injEq, Prod.mk.injEq] at hrun
      obtain ⟨rfl, rfl⟩ := hrun
      obtain ⟨_, hb2, _, _, _, hb6⟩ := Heap.node_pop_ok _ _ _ _ hpop
      generalize hg : (Heap.mk h2.nodes h2.built (k :: h2.popped)) = g
      have hgn : g.nodes = h2.nodes := by rw [← hg]
      refine ⟨rfl, ?_, fun a _ => ?_⟩
      · rw [hgn, hb2]
      · rw [Heap.parent_congr g h2 hgn a, hb6 a]
  · simp only [Except.ok.injEq, Prod.mk.injEq] at hrun
    obtain ⟨rfl, rfl⟩ := hrun
    exact ⟨rfl, Heap.ParentsKept.same_parents _⟩

/-- What `primary_type_builder` does to the state and to the parent pointers. -/
theorem primary_type_builder_parents (cls : String) (s r : State) (h h1 : Heap)
    (hrun : primary_type_builder cls s h = .ok (r, h1)) :
    r = s ∧ h.ParentsKept h1 := by
  simp only [primary_type_builder] at hrun
  split at hrun
  · simp at hrun
  · split at hrun
    · simp at hrun
    · rename_i target _
      obtain ⟨ha1, ha2, _, _, _, ha6⟩ := Heap.alloc_ok h ⟨none, [], cls, target.content⟩
      generalize h.alloc ⟨none, [], cls, target.content⟩ = al at hrun ha1 ha2 ha6
      obtain ⟨k, h0⟩ := al
      simp only at hrun ha1 ha2 ha6
      subst ha1
      split at hrun
      · simp at hrun
      · rename_i h2 hsp
        split at hrun
        · simp at hrun
        · rename_i h3 hap
          simp only [Except.ok.injEq, Prod.mk.injEq] at hrun
          obtain ⟨rfl, rfl⟩ := hrun
          obtain ⟨_, hc2, _, _, _, hc6⟩ := Heap.set_parent_ok _ _ _ _ hsp
          have h3facts : h3.nodes.length = h2.nodes.length ∧
              ∀ x, h3.parent x = h2.parent x := by
            simp only [SyntaxTree.append] at hap
            split at hap
            · obtain ⟨_, hb2, _, _, _, hb6⟩ := Heap.node_append_ok _ _ _ _ hap
              exact ⟨hb2, hb6⟩
            · simp only [Except.ok.injEq] at hap
              subst hap
              exact ⟨rfl, fun _ => rfl⟩
          refine ⟨rfl, ?_, fun a ha => ?_⟩
          · rw [h3facts.1, hc2, ha2]
            omega
          · rw [h3facts.2 a, hc6 a, ha6 a]
            have : a ≠ h.nodes.length := by omega
            simp [this]

theorem Atom_balanced (t : Tag) : Balanced (Atom t) := by
  intro s h r h1 hrun
  simp only [Atom] at hrun
  split at hrun
  · simp at hrun
  · simp only [Except.ok.injEq, Prod.mk.injEq] at hrun
    obtain ⟨rfl, rfl⟩ := hrun
    exact ⟨rfl, Heap.ParentsKept.same_parents _⟩

theorem Any_balanced : Balanced Any := by
  intro s h r h1 hrun
  simp only [Any, Except.ok.injEq, Prod.mk.injEq] at hrun
  obtain ⟨rfl, rfl⟩ := hrun
  exact ⟨rfl, Heap.ParentsKept.same_parents _⟩

theorem And_balanced (L R : IParser) (hL : Balanced L) (hR : Balanced R) :
    Balanced (And L R) := by
  intro s h r h2 hrun
  simp only [And] at hrun
  split at hrun
  · simp only [Except.ok.injEq, Prod.mk.injEq] at hrun
    obtain ⟨rfl, rfl⟩ := hrun
    exact ⟨rfl, Heap.ParentsKept.same_parents _⟩
  · split at hrun
    · simp at hrun
    · rename_i l h1 hl
      obtain ⟨l1, l2⟩ := hL _ _ _ _ hl
      split at hrun
      · simp only [Except.ok.injEq, Prod.mk.injEq] at hrun
        obtain ⟨rfl, rfl⟩ := hrun
        exact ⟨rfl, l2⟩
      · split at hrun
        · simp at hrun
        · rename_i r1 h3 hr
          obtain ⟨r1', r2⟩ := hR _ _ _ _ hr
          split at hrun
          · simp only [Except.ok.injEq, Prod.mk.injEq] at hrun
            obtain ⟨rfl, rfl⟩ := hrun
            exact ⟨rfl, l2.then_kept r2⟩
          · simp only [Except.ok.injEq, Prod.mk.injEq] at hrun
            obtain ⟨rfl, rfl⟩ := hrun
            exact ⟨r1'.trans l1, l2.then_kept r2⟩

theorem Or_balanced (L R : IParser) (hL : Balanced L) (hR : Balanced R) :
    Balanced (Or L R) := by
  intro s h r h2 hrun
  simp only [Or] at hrun
  split at hrun
  · simp only [Except.ok.injEq, Prod.mk.injEq] at hrun
    obtain ⟨rfl, rfl⟩ := hrun
    exact ⟨rfl, Heap.ParentsKept.same_parents _⟩
  · split at hrun
    · simp at hrun
    · rename_i l h1 hl
      obtain ⟨l1, l2⟩ := hL _ _ _ _ hl
      split at hrun
      · simp only [Except.ok.injEq, Prod.mk.injEq] at hrun
        obtain ⟨rfl, rfl⟩ := hrun
        exact ⟨l1, l2⟩
      · split at hrun
        · simp at hrun
        · rename_i r1 h3 hr
          obtain ⟨r1', r2⟩ := hR _ _ _ _ hr
          split at hrun
          · simp only [Except.ok.injEq, Prod.mk.injEq] at hrun
            obtain ⟨rfl, rfl⟩ := hrun
            exact ⟨r1', l2.then_kept r2⟩
          · simp only [Except.ok.injEq, Prod.mk.injEq] at hrun
            obtain ⟨rfl, rfl⟩ := hrun
            exact ⟨rfl, l2.then_kept r2⟩

theorem loop_balanced (p : IParser) (hp : Balanced p) :
    ∀ (fuel : Nat) (res : State) (h : Heap) (r : State) (h1 : Heap),
      OneOrMore.loop p fuel res h = .ok (r, h1) →
      r.tree = res.tree ∧ h.ParentsKept h1 := by
  intro fuel
  induction fuel with
  | zero =>
    intro res h r h1 hrun
    simp only [OneOrMore.loop] at hrun
    split at hrun
    · simp at hrun
    · simp only [Except.ok.injEq, Prod.mk.injEq] at hrun
      obtain ⟨rfl, rfl⟩ := hrun
      exact ⟨rfl, Heap.ParentsKept.same_parents _⟩
  | succ n ih =>
    intro res h r h1 hrun
    simp only [OneOrMore.loop] at hrun
    split at hrun
    · split at hrun
      · simp at hrun
      · rename_i temp h2 htemp
        obtain ⟨l1, l2⟩ := hp _ _ _ _ htemp
        split at hrun
        · simp only [Except.ok.injEq, Prod.mk.injEq] at hrun
          obtain ⟨rfl, rfl⟩ := hrun
          exact ⟨rfl, l2⟩
        · obtain ⟨r1, r2⟩ := ih _ _ _ _ hrun
          exact ⟨r1.trans l1, l2.then_kept r2⟩
    · simp only [Except.ok.injEq, Prod.mk.injEq] at hrun
      obtain ⟨rfl, rfl⟩ := hrun
      exact ⟨rfl, Heap.ParentsKept.same_parents _⟩

theorem OneOrMore_balanced (fuel : Nat) (p : IParser) (hp : Balanced p) :
    Balanced (OneOrMore fuel p) := by
  intro s h r h2 hrun
  simp only [OneOrMore] at hrun
  split at hrun
  · simp at hrun
  · rename_i res h1 hres
    obtain ⟨l1, l2⟩ := hp _ _ _ _ hres
    obtain ⟨r1, r2⟩ := loop_balanced p hp _ _ _ _ _ hrun
    exact ⟨r1.trans l1, l2.then_kept r2⟩

theorem decorated_balanced (b : Binding) (q : IParser) (hq : Balanced q) :
    Balanced (b.decorate (Parser.of q)).toIParser := by
  intro s h r h5 hrun
  cases b with
  | plain =>
    simp only [Parser.toIParser, Binding.decorate, Parser.of, Parser.call, Action.invoke,
      skip] at hrun
    split at hrun
    · simp at hrun
    · split at hrun
      · simp at hrun
      · rename_i res h2 hres
        have hbal := hq _ _ _ _ hres
        split at hrun
        · simp only [Except.ok.injEq, Prod.mk.injEq] at hrun
          obtain ⟨rfl, rfl⟩ := hrun
          exact hbal
        · simp only [Except.ok.injEq, Prod.mk.injEq] at hrun
          obtain ⟨rfl, rfl⟩ := hrun
          exact hbal
  | primary cls =>
    simp only [Parser.toIParser, Binding.decorate, bind_primary, Parser.of, Parser.call,
      Action.invoke, skip] at hrun
    split at hrun
    · simp at hrun
    · split at hrun
      · simp at hrun
      · rename_i res h2 hres
        obtain ⟨i1, i2⟩ := hq _ _ _ _ hres
        split at hrun
        · obtain ⟨rfl, p2⟩ := primary_type_builder_parents cls _ _ _ _ hrun
          exact ⟨i1, i2.then_kept p2⟩
        · simp only [Except.ok.injEq, Prod.mk.injEq] at hrun
          obtain ⟨rfl, rfl⟩ := hrun
          exact ⟨i1, i2⟩
  | node cls =>
    simp only [Parser.toIParser, Binding.decorate, bind, Parser.of, Parser.call,
      Action.invoke] at hrun
    split at hrun
    · simp at hrun
    · split at hrun
      · simp at hrun
      · rename_i s1 h1 hbef
        obtain ⟨rfl, b2, b3, b4⟩ := before_action_parents cls _ _ _ _ hbef
        split at hrun
        · simp at hrun
        · rename_i res h2 hres
          obtain ⟨i1, i2⟩ := hq _ _ _ _ hres
          have hpar : h2.parent h.nodes.length = .ok s.tree.cursor := by
            rw [i2.2 _ b3]
            exact b4
          have hrescur : res.tree.cursor = some h.nodes.length := by rw [i1]
          split at hrun
          · obtain ⟨rfl, rfl⟩ := accept_action_spec _ _ _ _ _ _ hrun hrescur hpar
            refine ⟨?_, b2.then_kept i2⟩
            show ({ res.tree with cursor := s.tree.cursor } : SyntaxTree) = s.tree
            rw [i1]
          · obtain ⟨rfl, f2⟩ := fail_action_parents _ _ _ _ _ _ hrun hrescur hpar
            refine ⟨?_, (b2.then_kept i2).then_kept f2⟩
            show ({ res.tree with cursor := s.tree.cursor } : SyntaxTree) = s.tree
            rw [i1]

/-- Every combinator built from the library constructors with default or
canonical actions is balanced. -/
theorem build_balanced (fuel : Nat) : ∀ g : Grammar, Balanced (g.build fuel)
  | .atom t => Atom_balanced t
  | .any => Any_balanced
  | .and l r => And_balanced _ _ (build_balanced fuel l) (build_balanced fuel r)
  | .or l r => Or_balanced _ _ (build_balanced fuel l) (build_balanced fuel r)
  | .one_or_more p => OneOrMore_balanced fuel _ (build_balanced fuel p)
  | .decorated b p => decorated_balanced b _ (build_balanced fuel p)

/-- C11: cursor balance. For every root bound with default or canonical
actions over a combinator built from the library constructors, every token
sequence and every initial root (null included): when `Driver::parse` or
`Driver::accept` returns, the cursor of the final state's tree equals the root
of that tree, which is the initial root when the sequence is not empty. -/
theorem C11_cursor_balance (b : Binding) (g : Grammar) (fuel : Nat) (T : Lexems)
    (tree : Ptr) (h : Heap) :
    (∀ t d1 h1,
      Driver.parse (Driver.of (b.decorate (Parser.of (g.build fuel)))) T tree h
        = .ok (t, d1, h1) →
      d1.finish.tree.cursor = d1.finish.tree.root ∧
      (T ≠ [] → d1.finish.tree.root = tree)) ∧
    (∀ v d1 h1,
      Driver.accept (Driver.of (b.decorate (Parser.of (g.build fuel)))) T tree h
        = .ok (v, d1, h1) →
      d1.finish.tree.cursor = d1.finish.tree.root ∧
      (T ≠ [] → d1.finish.tree.root = tree)) := by
  have hbal : Balanced (b.decorate (Parser.of (g.build fuel))).toIParser :=
    build_balanced fuel (.decorated b g)
  have key : ∀ r h1, (b.decorate (Parser.of (g.build fuel))).call
      (Driver.start T tree) h = .ok (r, h1) →
      r.tree.cursor = r.tree.root ∧ r.tree.root = tree := by
    intro r h1 hcall
    obtain ⟨e1, _⟩ := hbal _ _ _ _ hcall
    rw [e1]
    exact ⟨rfl, rfl⟩
  constructor
  · intro t d1 h1 hrun
    simp only [Driver.parse, Driver.of] at hrun
    split at hrun
    · rename_i hlen
      simp only [Except.ok.injEq, Prod.mk.injEq] at hrun
      obtain ⟨_, rfl, _⟩ := hrun
      refine ⟨rfl, fun hT => ?_⟩
      cases T with
      | nil => exact absurd rfl hT
      | cons a l => exact absurd hlen (by simp)
    · split at hrun
      · simp at hrun
      · rename_i fin h2 hcall
        simp only [Except.ok.injEq, Prod.mk.injEq] at hrun
        obtain ⟨_, rfl, rfl⟩ := hrun
        obtain ⟨k1, k2⟩ := key _ _ hcall
        exact ⟨k1, fun _ => k2⟩
  · intro v d1 h1 hrun
    simp only [Driver.accept, Driver.of] at hrun
    split at hrun
    · rename_i hlen
      simp only [Except.ok.injEq, Prod.mk.injEq] at hrun
      obtain ⟨_, rfl, _⟩ := hrun
      refine ⟨rfl, fun hT => ?_⟩
      cases T with
      | nil => exact absurd rfl hT
      | cons a l => exact absurd hlen (by simp)
    · split at hrun
      · simp at hrun
      · rename_i fin h2 hcall
        simp only [Except.ok.injEq, Prod.mk.injEq] at hrun
        obtain ⟨_, rfl, rfl⟩ := hrun
        obtain ⟨k1, k2⟩ := key _ _ hcall
        exact ⟨k1, fun _ => k2⟩

/-- C11 (witness): `bind<A>(bind<B>(Atom 1) + Atom 2)` accepts `[1, 2]` under a
root node; the final cursor is that root. -/
theorem C11_cursor_balance_witness :
    ∃ d1 h1, Driver.accept (Driver.of nested_rule) [tok 1, tok 2] (some 0) root_heap
        = .ok (true, d1, h1) ∧
      d1.finish.tree.cursor = d1.finish.tree.root ∧ d1.finish.tree.root = some 0 :=
  ⟨_, _, rfl,
    ((C11_cursor_balance (.node "A") (.and (.decorated (.node "B") (.atom 1)) (.atom 2)) 0
      [tok 1, tok 2] (some 0) root_heap).2 _ _ _ rfl).1, rfl⟩

/-! ## Rollback before the second alternative -/

/-- C12 (failing input): the left alternative `bind_primary<Num>(Atom 1) + Atom 2`
rejects the tokens `7 +`, and the state handed to the right alternative has the
cursor of before; but the `Num` node appended for `7` is still a child of the
cursor node when the right alternative starts. Parsed by
`bind<A>(left | bind_primary<Num>(Atom 1) + bind_primary<Op>(Atom 3))`, the
two tokens give a node `A` with three children. -/
theorem C12_left_branch_leaves_node :
    (failing_sequence.build 0).run (Driver.start two_tokens (some 0)) root_heap
      = .ok ({ Driver.start two_tokens (some 0) with accept := false }, after_left_heap) ∧
    root_heap.kids 0 = [] ∧ after_left_heap.kids 0 = [1] ∧
    ∃ d1, Driver.parse (Driver.of choice_rule) two_tokens (some 0) root_heap
        = .ok (SyntaxTree.mk_root (some 0), d1, choice_final_heap) ∧
      choice_final_heap.kids 1 = [2, 3, 4] :=
  ⟨rfl, rfl, rfl, _, rfl, rfl⟩

/-! ## Decoration protocol -/

/-- C13: one evaluation of a valid decorated parser runs `before` on the input
state first (a failure there ends the evaluation), then the inner combinator
once on the state `before` left, then exactly one of the two other actions on
the inner result: `on_accept` iff the inner accepted, `on_fail` iff it
rejected; what that action leaves is what the evaluation returns. -/
theorem C13_decoration_protocol (p : Parser) (q : IParser) (s : State) (h : Heap)
    (hq : p.inner = some q) (hv : q.is_valid = true) :
    p.is_valid = true ∧
    (∀ e, p.before.invoke s h = .error e → p.call s h = .error e) ∧
    (∀ s1 h1, p.before.invoke s h = .ok (s1, h1) →
      (∀ e, q.run s1 h1 = .error e → p.call s h = .error e) ∧
      (∀ res h2, q.run s1 h1 = .ok (res, h2) →
        (res.accept = true → p.call s h = p.on_accept.invoke res h2) ∧
        (res.accept = false → p.call s h = p.on_fail.invoke res h2))) := by
  refine ⟨by simp [Parser.is_valid, hq, hv], ?_, ?_⟩
  · intro e he
    simp [Parser.call, hq, hv, he]
  · intro s1 h1 hb
    refine ⟨?_, ?_⟩
    · intro e he
      simp [Parser.call, hq, hv, hb, he]
    · intro res h2 hr
      constructor
      · intro hacc
        simp [Parser.call, hq, hv, hb, hr, hacc]
      · intro hacc
        simp [Parser.call, hq, hv, hb, hr, hacc]

/-- C13 (witness): with parts that record their calls, one evaluation of an
accepting decorated parser leaves the records `before`, `inner`, `on_accept`
in that order, each once, and none of `on_fail`. -/
theorem C13_decoration_protocol_witness :
    traced_rule.call (Driver.start [tok 1] none) Heap.empty
      = .ok ({ Driver.start [tok 1] none with accept := true },
          { nodes := [⟨none, [], "before", ""⟩, ⟨none, [], "inner", ""⟩,
              ⟨none, [], "on_accept", ""⟩], built := [], popped := [] }) :=
  (((C13_decoration_protocol traced_rule traced_inner (Driver.start [tok 1] none)
      Heap.empty rfl rfl).2.2 _ _ rfl).2 _ _ rfl).1 rfl

/-! ## Termination of the repetition -/

/-- The loop of `OneOrMore(stay)` never ends on an accepting state below `end`. -/
theorem loop_stay_out_of_fuel (s : State) (h : Heap) (hacc : s.accept = true)
    (hne : s.current ≠ s.end_) :
    ∀ fuel, OneOrMore.loop stay fuel s h = .error .fuel := by
  have ht : terminate s = false := by simp [terminate, hne]
  have hstay : stay.run s h = .ok (s, h) := by
    obtain ⟨lx, bg, en, cur, tr, acc⟩ := s
    simp only at hacc
    subst hacc
    rfl
  intro fuel
  induction fuel with
  | zero => simp [OneOrMore.loop, ht, hacc]
  | succ n ih =>
    rw [OneOrMore.loop]
    simp only [ht, hacc, Bool.not_false, Bool.and_self, ↓reduceIte, hstay]
    simpa [hacc] using ih

/-- C14 (counterexample): `OneOrMore(stay)`, where `stay` accepts without
advancing, returns for no step budget on a one-token input: there is no
progress test in the loop, it goes on for ever. -/
theorem C14_no_progress_guard :
    ¬ ∃ fuel r h1, (OneOrMore fuel stay).run (Driver.start [tok 1] none) Heap.empty
        = .ok (r, h1) := by
  rintro ⟨fuel, r, h1, hrun⟩
  have hloop := loop_stay_out_of_fuel
    { Driver.start [tok 1] none with accept := true } Heap.empty rfl (by decide) fuel
  have hfirst : stay.run (Driver.start [tok 1] none) Heap.empty
      = .ok ({ Driver.start [tok 1] none with accept := true }, Heap.empty) := rfl
  simp only [OneOrMore, hfirst, hloop] at hrun
  exact absurd hrun (by simp)

/-- The loop of `OneOrMore` ends within `end - current` iterations when the
combinator makes progress. -/
theorem loop_terminates (p : IParser) (hp : Progressing p)
    (hnf : ∀ s h, p.run s h ≠ .error .fuel) :
    ∀ (fuel : Nat) (res : State) (h : Heap), res.current ≤ res.end_ →
      res.end_ - res.current ≤ fuel → OneOrMore.loop p fuel res h ≠ .error .fuel := by
  intro fuel
  induction fuel with
  | zero =>
    intro res h hle hfuel
    have hce : res.current = res.end_ := by omega
    simp [OneOrMore.loop, terminate, hce]
  | succ n ih =>
    intro res h hle hfuel
    rw [OneOrMore.loop]
    split
    · rename_i hcond
      simp only [Bool.and_eq_true, Bool.not_eq_true', terminate, beq_eq_false_iff_ne,
        ne_eq] at hcond
      have hlt : res.current < res.end_ := by omega
      cases hrun : p.run res h with
      | error e =>
        simp only
        intro hc
        simp only [Except.error.injEq] at hc
        subst hc
        exact hnf _ _ hrun
      | ok v =>
        obtain ⟨temp, h1⟩ := v
        simp only
        split
        · simp
        · rename_i hta
          simp only [beq_iff_eq, Bool.not_eq_false] at hta
          obtain ⟨p1, p2, p3⟩ := hp _ _ _ _ hlt hrun hta
          exact ih temp h1 p2 (by omega)
    · simp

/-- C14 (amended): for every combinator `P` whose evaluations end and whose
accepting evaluations below `end` move `current` forward without passing
`end`, and every state with `current` below `end`, `OneOrMore(P)` ends: a step
budget of `end - current` is never used up. The loop stops when an iteration
rejects or reaches `end`. -/
theorem C14_one_or_more_terminates (p : IParser) (hp : Progressing p)
    (hnf : ∀ s h, p.run s h ≠ .error .fuel) (s : State) (h : Heap) (fuel : Nat)
    (hlt : s.current < s.end_) (hfuel : s.end_ - s.current ≤ fuel) :
    (OneOrMore fuel p).run s h ≠ .error .fuel := by
  simp only [OneOrMore]
  cases hrun : p.run s h with
  | error e =>
    simp only
    intro hc
    simp only [Except.error.injEq] at hc
    subst hc
    exact hnf _ _ hrun
  | ok v =>
    obtain ⟨res, h1⟩ := v
    simp only
    cases hacc : res.accept with
    | false =>
      cases fuel <;> simp [OneOrMore.loop, hacc]
    | true =>
      obtain ⟨p1, p2, p3⟩ := hp _ _ _ _ hlt hrun hacc
      exact loop_terminates p hp hnf fuel res h1 p2 (by omega)

theorem Atom_progressing (t : Tag) : Progressing (Atom t) := by
  intro s h r h1 hlt hrun hacc
  simp only [Atom] at hrun
  split at hrun
  · simp at hrun
  · simp only [Except.ok.injEq, Prod.mk.injEq] at hrun
    obtain ⟨rfl, _⟩ := hrun
    simp only at hacc
    refine ⟨?_, ?_, rfl⟩
    · simp [hacc]
    · simp only [hacc, Bool.toNat_true]
      omega

theorem Atom_never_out_of_fuel (t : Tag) (s : State) (h : Heap) :
    (Atom t).run s h ≠ .error .fuel := by
  simp only [Atom]
  split <;> simp

/-- C14 (witness): `OneOrMore(Atom 1)` ends on `[1, 1]` within two iterations. -/
theorem C14_one_or_more_terminates_witness :
    (OneOrMore 2 (Atom 1)).run (Driver.start [tok 1, tok 1] none) Heap.empty
      ≠ .error .fuel :=
  C14_one_or_more_terminates (Atom 1) (Atom_progressing 1) (Atom_never_out_of_fuel 1)
    (Driver.start [tok 1, tok 1] none) Heap.empty 2 (by decide) (by decide)

/-! ## Lexer -/

/-- A match at a position is a piece of the input that starts there. -/
theorem Rule.match_at_prefix (r : Rule) (input : List Char) (pos : Nat) (m : List Char)
    (hm : r.match_at input pos = some m) :
    pos < input.length ∧ m = (input.drop pos).take m.length ∧
    pos + m.length ≤ input.length := by
  simp only [Rule.match_at] at hm
  split at hm
  · simp at hm
  · rename_i hpos
    simp only [Rule.match_range] at hm
    split at hm
    · split at hm
      · rename_i position length _ _
        simp only [Option.some.injEq] at hm
        subst hm
        refine ⟨by omega, ?_, ?_⟩
        · rw [List.length_take]
          rcases Nat.le_total length (input.drop pos).length with hl | hl
          · rw [Nat.min_eq_left hl]
          · rw [Nat.min_eq_right hl, List.take_length, List.take_of_length_le hl]
        · rw [List.length_take, List.length_drop]
          omega
      · simp at hm
    · simp at hm

/-- The loop of `findLexem` takes the first rule that matches. -/
theorem Lexer.findLexem_loop_eq (input : String) (p : Nat) (rules : Rules) :
    Lexer.findLexem_loop input p rules
      = (first_match rules input p).map (fun rm =>
          (if rm.1.ignorable then Lexem.nil else Lexem.of (String.mk rm.2) p rm.1.tag,
            p + rm.2.length)) := by
  induction rules with
  | nil => rfl
  | cons rule rest ih =>
    simp only [Lexer.findLexem_loop, first_match, List.findSome?_cons]
    cases hm : rule.match_at input.data p with
    | some m => rfl
    | none =>
      simp only [Option.map_none']
      exact ih

/-- The token built for a non-empty match is not the empty token. -/
theorem Lexem.of_not_empty (m : List Char) (p : Nat) (tag : Tag) (hm : m ≠ []) :
    (Lexem.of (String.mk m) p tag).empty = false := by
  have : (String.mk m == "") = false := by
    rw [beq_eq_false_iff_ne]
    intro hc
    have hd : (String.mk m).data = ("" : String).data := congrArg String.data hc
    exact hm hd
  simp [Lexem.empty, Lexem.of, this]

/-- The first match comes from a rule of the list that matches there. -/
theorem first_match_mem (rules : Rules) (input : String) (p : Nat) (r : Rule)
    (m : List Char) (hf : first_match rules input p = some (r, m)) :
    r ∈ rules ∧ r.match_at input.data p = some m := by
  simp only [first_match] at hf
  obtain ⟨a, ha, hfa⟩ := List.exists_of_findSome?_eq_some hf
  cases hma : a.match_at input.data p with
  | none => simp [hma] at hfa
  | some m1 =>
    simp only [hma, Option.map_some', Option.some.injEq, Prod.mk.injEq] at hfa
    obtain ⟨rfl, rfl⟩ := hfa
    exact ⟨ha, hma⟩

/-- A successful `findLexem` went over the match of the first matching rule. -/
theorem Lexer.findLexem_ok (lx : Lexer) (input : String) (lexem : Lexem) (lx1 : Lexer)
    (hf : lx.findLexem input = .ok (lexem, lx1)) :
    ∃ r m, first_match lx.rules input lx.position = some (r, m) ∧
      lexem = (if r.ignorable then Lexem.nil else Lexem.of (String.mk m) lx.position r.tag) ∧
      lx1 = { lx with position := lx.position + m.length } := by
  simp only [Lexer.findLexem, Lexer.findLexem_loop_eq] at hf
  cases hfm : first_match lx.rules input lx.position with
  | none => simp [hfm] at hf
  | some rm =>
    obtain ⟨r, m⟩ := rm
    simp only [hfm, Option.map_some', Except.ok.injEq, Prod.mk.injEq] at hf
    exact ⟨r, m, rfl, hf.1.symm, hf.2.symm⟩

/-- `findLexem` throws exactly when no rule matches at the position. -/
theorem Lexer.findLexem_error (lx : Lexer) (input : String) :
    (∃ msg, lx.findLexem input = .error msg) ↔
      first_match lx.rules input lx.position = none := by
  simp only [Lexer.findLexem, Lexer.findLexem_loop_eq]
  cases hfm : first_match lx.rules input lx.position with
  | none => simp
  | some rm => simp

/-- The token of a non-ignorable first match has the properties of `TokenAt`. -/
theorem tokenAt_of_first_match (rules : Rules) (input : String) (p : Nat) (r : Rule)
    (m : List Char) (hne : NonEmptyMatches rules)
    (hf : first_match rules input p = some (r, m)) (hi : r.ignorable = false) :
    TokenAt rules input (Lexem.of (String.mk m) p r.tag) := by
  obtain ⟨hr, hm⟩ := first_match_mem rules input p r m hf
  obtain ⟨_, hpre, hlen⟩ := r.match_at_prefix input.data p m hm
  have hm0 : 0 < m.length := List.length_pos.mpr (hne r hr _ _ _ hm)
  exact ⟨r, m, hf, hi, rfl, rfl, hpre, rfl, hm0, hlen⟩

/-- What the loop of `tokenize` adds to the tokens it starts with, when it
returns. -/
theorem tokenize_loop_tokens (rules : Rules) (input : String) (hne : NonEmptyMatches rules) :
    ∀ (fuel : Nat) (lx : Lexer) (out0 out : Lexems) (lx1 : Lexer), lx.rules = rules →
      Lexer.tokenize_loop input fuel lx out0 = (.tokens out, lx1) →
      ∃ new, out = out0 ++ new ∧
        (∀ t ∈ new, TokenAt rules input t ∧ lx.position ≤ t.start ∧
          Scans rules input lx.position t.start) ∧
        new.Pairwise (fun a b => a.start < b.start ∧ a.end_ ≤ b.start) ∧
        (∀ q r m, Scans rules input lx.position q → first_match rules input q = some (r, m) →
          r.ignorable = false → ∃ t ∈ new, t.start = q) ∧
        (lx.position < input.length → new ≠ [] ∨
          ∃ r m, first_match rules input lx.position = some (r, m) ∧ r.ignorable = true) ∧
        lx1 = { lx with position := 0 } := by
  intro fuel
  induction fuel with
  | zero =>
    intro lx out0 out lx1 hrules hrun
    simp only [Lexer.tokenize_loop] at hrun
    split at hrun
    · simp at hrun
    · rename_i hpos
      simp only [Prod.mk.injEq, LexOutcome.tokens.injEq] at hrun
      obtain ⟨rfl, rfl⟩ := hrun
      refine ⟨[], by simp, by simp, List.Pairwise.nil, ?_, fun hc => absurd hc hpos, rfl⟩
      intro q r m hs hf _
      cases hs with
      | here =>
        have := (first_match_mem rules input _ r m hf).2
        have := (r.match_at_prefix _ _ _ this).1
        exact absurd this hpos
      | next hf1 _ =>
        have := (first_match_mem rules input _ _ _ hf1).2
        have := (Rule.match_at_prefix _ _ _ _ this).1
        exact absurd this hpos
  | succ n ih =>
    intro lx out0 out lx1 hrules hrun
    simp only [Lexer.tokenize_loop] at hrun
    split at hrun
    · rename_i hpos
      split at hrun
      · simp at hrun
      · rename_i lexem lx2 hfind
        obtain ⟨r, m, hf, hlex, hlx2⟩ := Lexer.findLexem_ok lx input lexem lx2 hfind
        rw [hrules] at hf
        obtain ⟨hr, hm⟩ := first_match_mem rules input _ r m hf
        have hm0 : 0 < m.length := List.length_pos.mpr (hne r hr _ _ _ hm)
        have hrules2 : lx2.rules = rules := by rw [hlx2]; exact hrules
        have hpos2 : lx2.position = lx.position + m.length := by rw [hlx2]
        obtain ⟨new, hout, htok, hpair, hcomp, _, hlx1⟩ := ih lx2 _ out lx1 hrules2 hrun
        have hlx1' : lx1 = { lx with position := 0 } := by rw [hlx1, hlx2]
        have hscan : ∀ q, Scans rules input lx2.position q → Scans rules input lx.position q := by
          intro q hq
          rw [hpos2] at hq
          exact Scans.next hf hq
        have hfun : ∀ q r1 m1, Scans rules input lx.position q →
            first_match rules input q = some (r1, m1) →
            (q = lx.position ∧ r1 = r ∧ m1 = m) ∨ Scans rules input lx2.position q := by
          intro q r1 m1 hq hf1
          cases hq with
          | here =>
            rw [hf] at hf1
            simp only [Option.some.injEq, Prod.mk.injEq] at hf1
            exact Or.inl ⟨rfl, hf1.1.symm, hf1.2.symm⟩
          | next hf2 hq2 =>
            rw [hf] at hf2
            simp only [Option.some.injEq, Prod.mk.injEq] at hf2
            obtain ⟨rfl, rfl⟩ := hf2
            right
            rw [hpos2]
            exact hq2
        cases hi : r.ignorable with
        | true =>
          have hle : lexem.empty = true := by rw [hlex, hi]; rfl
          simp only [hle, Bool.not_true, Bool.false_eq_true, ↓reduceIte] at hout
          refine ⟨new, hout, ?_, hpair, ?_, fun _ => Or.inr ⟨r, m, hf, hi⟩, hlx1'⟩
          · intro t ht
            obtain ⟨t1, t2, t3⟩ := htok t ht
            exact ⟨t1, by omega, hscan _ t3⟩
          · intro q r1 m1 hq hf1 hi1
            rcases hfun q r1 m1 hq hf1 with ⟨_, rfl, _⟩ | hq2
            · rw [hi] at hi1
              exact absurd hi1 (by simp)
            · exact hcomp q r1 m1 hq2 hf1 hi1
        | false =>
          have hlex2 : lexem = Lexem.of (String.mk m) lx.position r.tag := by
            rw [hlex, hi]
            rfl
          have hle : lexem.empty = false := by
            rw [hlex2]
            exact Lexem.of_not_empty m _ _ (hne r hr _ _ _ hm)
          simp only [hle, Bool.not_false, ↓reduceIte, List.append_assoc] at hout
          have hstart : lexem.start = lx.position := by rw [hlex2]; rfl
          have hend : lexem.end_ = lx.position + m.length := by rw [hlex2]; rfl
          refine ⟨lexem :: new, by simpa using hout, ?_, ?_, ?_, fun _ => Or.inl (by simp),
            hlx1'⟩
          · intro t ht
            rcases List.mem_cons.mp ht with rfl | ht
            · refine ⟨?_, by omega, ?_⟩
              · rw [hlex2]
                exact tokenAt_of_first_match rules input _ r m hne hf hi
              · rw [hstart]
                exact Scans.here _
            · obtain ⟨t1, t2, t3⟩ := htok t ht
              exact ⟨t1, by omega, hscan _ t3⟩
          · refine List.Pairwise.cons ?_ hpair
            intro t ht
            obtain ⟨_, t2, _⟩ := htok t ht
            constructor <;> omega
          · intro q r1 m1 hq hf1 hi1
            rcases hfun q r1 m1 hq hf1 with ⟨rfl, _, _⟩ | hq2
            · exact ⟨lexem, List.mem_cons_self _ _, hstart⟩
            · obtain ⟨t, ht, hts⟩ := hcomp q r1 m1 hq2 hf1 hi1
              exact ⟨t, List.mem_cons_of_mem _ ht, hts⟩
    · rename_i hpos
      simp only [Prod.mk.injEq, LexOutcome.tokens.injEq] at hrun
      obtain ⟨rfl, rfl⟩ := hrun
      refine ⟨[], by simp, by simp, List.Pairwise.nil, ?_, fun hc => absurd hc hpos, rfl⟩
      intro q r m hs hf _
      cases hs with
      | here =>
        have := (first_match_mem rules input _ r m hf).2
        have := (r.match_at_prefix _ _ _ this).1
        exact absurd this hpos
      | next hf1 _ =>
        have := (first_match_mem rules input _ _ _ hf1).2
        have := (Rule.match_at_prefix _ _ _ _ this).1
        exact absurd this hpos

/-- Scanning goes on over the first match at the position it reached. -/
theorem Scans.snoc {rules : Rules} {input : String} {p q : Nat} {r : Rule} {m : List Char}
    (hs : Scans rules input p q) (hf : first_match rules input q = some (r, m)) :
    Scans rules input p (q + m.length) := by
  induction hs with
  | here p => exact Scans.next hf (Scans.here _)
  | next hf1 _ ih => exact Scans.next hf1 (ih hf)

/-- C15: with rules that only match non-empty pieces of the input, when
`tokenize` returns (from scan position 0): every token starts at a position
reached by the scan, the first rule matching there is not ignorable and gives
its tag, its content is the input text from `start` to `end = start + length`;
the tokens come in strictly increasing start order and do not overlap; a
reached position whose first matching rule is ignorable gives no token and the
scan goes on after the match, one whose first matching rule is not ignorable
gives a token; the empty input gives no token. -/
theorem C15_tokenize_tokens (rules : Rules) (input : String) (fuel : Nat) (out : Lexems)
    (lx1 : Lexer) (hne : NonEmptyMatches rules)
    (hrun : (Lexer.of rules).tokenize fuel input = (.tokens out, lx1)) :
    (∀ t ∈ out, TokenAt rules input t ∧ Scans rules input 0 t.start) ∧
    out.Pairwise (fun a b => a.start < b.start ∧ a.end_ ≤ b.start) ∧
    (∀ q r m, Scans rules input 0 q → first_match rules input q = some (r, m) →
      (r.ignorable = true → Scans rules input 0 (q + m.length) ∧ ∀ t ∈ out, t.start ≠ q) ∧
      (r.ignorable = false → ∃ t ∈ out, t.start = q)) ∧
    (input = "" → out = []) := by
  obtain ⟨new, hout, htok, hpair, hcomp, _, _⟩ :=
    tokenize_loop_tokens rules input hne fuel (Lexer.of rules) [] out lx1 rfl hrun
  simp only [List.nil_append] at hout
  subst hout
  refine ⟨fun t ht => ⟨(htok t ht).1, (htok t ht).2.2⟩, hpair, ?_, ?_⟩
  · intro q r m hq hf
    refine ⟨fun hi => ⟨hq.snoc hf, ?_⟩, fun hi => hcomp q r m hq hf hi⟩
    intro t ht hts
    obtain ⟨r1, m1, hf1, hi1, _⟩ := (htok t ht).1
    rw [hts, hf] at hf1
    simp only [Option.some.injEq, Prod.mk.injEq] at hf1
    rw [← hf1.1, hi] at hi1
    exact absurd hi1 (by simp)
  · intro he
    subst he
    cases fuel <;>
      simp [Lexer.tokenize, Lexer.tokenize_loop, Lexer.of] at hrun <;> exact hrun.1

/-- A one-character pattern only matches a non-empty piece. -/
theorem regex_of_char_nonempty (c : Char) (pattern : String) (tag : Nat) (ign : Bool)
    (input : List Char) (pos : Nat) (m : List Char)
    (hm : (Rule.mk pattern (regex_of_char c) tag ign).match_at input pos = some m) :
    m ≠ [] := by
  simp only [Rule.match_at] at hm
  split at hm
  · simp at hm
  · rename_i hpos
    simp only [Rule.match_range, regex_of_char] at hm
    split at hm
    · rename_i position length heq
      split at hm
      · simp only [Option.some.injEq] at hm
        subst hm
        cases hs : search_first (fun x => x == c) (List.drop pos input) with
        | none => simp [hs] at heq
        | some i =>
          simp only [hs, Option.map_some', Option.some.injEq, Prod.mk.injEq] at heq
          obtain ⟨_, rfl⟩ := heq
          cases hd : List.drop pos input with
          | nil =>
            have := congrArg List.length hd
            simp only [List.length_drop, List.length_nil] at this
            omega
          | cons a l => simp
      · simp at hm
    · simp at hm

/-- A pattern `x+` only matches a non-empty piece. -/
theorem regex_of_plus_nonempty (cls : Char → Bool) (pattern : String) (tag : Nat) (ign : Bool)
    (input : List Char) (pos : Nat) (m : List Char)
    (hm : (Rule.mk pattern (regex_of_plus cls) tag ign).match_at input pos = some m) :
    m ≠ [] := by
  simp only [Rule.match_at] at hm
  split at hm
  · simp at hm
  · simp only [Rule.match_range, regex_of_plus] at hm
    split at hm
    · rename_i position length heq
      split at hm
      · rename_i hp0
        simp only [Option.some.injEq] at hm
        subst hm
        cases hd : List.drop pos input with
        | nil => simp [hd, search_first] at heq
        | cons a l =>
          rw [hd] at heq
          simp only [search_first] at heq
          by_cases ha : cls a = true
          · simp only [ha, ↓reduceIte, Option.map_some', List.drop_zero, Option.some.injEq,
              Prod.mk.injEq, List.takeWhile_cons] at heq
            obtain ⟨_, rfl⟩ := heq
            simp
          · simp only [ha, Bool.false_eq_true, ↓reduceIte, Option.map_map] at heq
            cases hs : search_first cls l with
            | none => simp [hs] at heq
            | some i =>
              simp only [hs, Option.map_some', Function.comp_apply, Option.some.injEq,
                Prod.mk.injEq] at heq
              obtain ⟨rfl, _⟩ := heq
              simp at hp0
      · simp at hm
    · simp at hm

theorem arith_rules_nonempty : NonEmptyMatches arith_rules := by
  intro r hr input pos m hm
  simp only [arith_rules, List.mem_cons, List.mem_singleton, List.not_mem_nil, or_false] at hr
  rcases hr with rfl | rfl | rfl | rfl | rfl | rfl | rfl | rfl
  · exact regex_of_plus_nonempty _ _ _ _ _ _ _ hm
  · exact regex_of_char_nonempty _ _ _ _ _ _ _ hm
  · exact regex_of_char_nonempty _ _ _ _ _ _ _ hm
  · exact regex_of_char_nonempty _ _ _ _ _ _ _ hm
  · exact regex_of_char_nonempty _ _ _ _ _ _ _ hm
  · exact regex_of_char_nonempty _ _ _ _ _ _ _ hm
  · exact regex_of_char_nonempty _ _ _ _ _ _ _ hm
  · exact regex_of_plus_nonempty _ _ _ _ _ _ _ hm

/-- C15 (witness): the rules of the arithmetic test turn `34 + 4` into three
tokens in increasing, non-overlapping order. -/
theorem C15_tokenize_tokens_witness :
    (Lexer.of arith_rules).tokenize 5 "34 + 4" = (.tokens tokens_34_plus_4, Lexer.of arith_rules) ∧
    tokens_34_plus_4.Pairwise (fun a b => a.start < b.start ∧ a.end_ ≤ b.start) :=
  ⟨rfl, (C15_tokenize_tokens arith_rules "34 + 4" 5 tokens_34_plus_4 (Lexer.of arith_rules)
    arith_rules_nonempty rfl).2.1⟩

/-- No position at or after the end of the input starts a match. -/
theorem first_match_none_of_ge (rules : Rules) (input : String) (p : Nat)
    (hp : ¬ p < input.length) : first_match rules input p = none := by
  cases hf : first_match rules input p with
  | none => rfl
  | some rm =>
    obtain ⟨r, m⟩ := rm
    have := (first_match_mem rules input p r m hf).2
    exact absurd (r.match_at_prefix _ _ _ this).1 hp

/-- How the loop of `tokenize` ends when no rule matches the empty string: it
throws iff the scan reaches a position inside the input where no rule matches,
and it returns tokens otherwise. -/
theorem tokenize_loop_outcome (rules : Rules) (input : String) (hne : NonEmptyMatches rules) :
    ∀ (fuel : Nat) (lx : Lexer) (out0 : Lexems), lx.rules = rules →
      input.length - lx.position ≤ fuel →
      ((∃ msg, (Lexer.tokenize_loop input fuel lx out0).1 = .UnexpectedLexem msg) ↔
        ∃ p, Scans rules input lx.position p ∧ p < input.length ∧
          first_match rules input p = none) ∧
      ((∃ msg, (Lexer.tokenize_loop input fuel lx out0).1 = .UnexpectedLexem msg) ∨
        ∃ out, (Lexer.tokenize_loop input fuel lx out0).1 = .tokens out) := by
  have hend : ∀ (lx : Lexer), ¬ lx.position < input.length →
      ¬ ∃ p, Scans rules input lx.position p ∧ p < input.length ∧
        first_match rules input p = none := by
    rintro lx hpos ⟨p, hs, hp, _⟩
    cases hs with
    | here => exact hpos hp
    | next hf1 _ =>
      rw [first_match_none_of_ge rules input _ hpos] at hf1
      simp at hf1
  intro fuel
  induction fuel with
  | zero =>
    intro lx out0 hrules hfuel
    have hpos : ¬ lx.position < input.length := by omega
    simp only [Lexer.tokenize_loop, hpos, ↓reduceIte]
    refine ⟨⟨fun ⟨msg, hc⟩ => by simp at hc, fun hc => absurd hc (hend lx hpos)⟩,
      Or.inr ⟨_, rfl⟩⟩
  | succ n ih =>
    intro lx out0 hrules hfuel
    by_cases hpos : lx.position < input.length
    · simp only [Lexer.tokenize_loop, hpos, ↓reduceIte]
      cases hfind : lx.findLexem input with
      | error msg =>
        have hnone : first_match rules input lx.position = none := by
          rw [← hrules]
          exact (Lexer.findLexem_error lx input).mp ⟨msg, hfind⟩
        simp only
        exact ⟨⟨fun _ => ⟨lx.position, Scans.here _, hpos, hnone⟩, fun _ => ⟨msg, rfl⟩⟩,
          Or.inl ⟨msg, rfl⟩⟩
      | ok v =>
        obtain ⟨lexem, lx2⟩ := v
        simp only
        obtain ⟨r, m, hf, _, hlx2⟩ := Lexer.findLexem_ok lx input lexem lx2 hfind
        rw [hrules] at hf
        obtain ⟨hr, hm⟩ := first_match_mem rules input _ r m hf
        have hm0 : 0 < m.length := List.length_pos.mpr (hne r hr _ _ _ hm)
        have hrules2 : lx2.rules = rules := by rw [hlx2]; exact hrules
        have hpos2 : lx2.position = lx.position + m.length := by rw [hlx2]
        obtain ⟨ih1, ih2⟩ := ih lx2 (if !lexem.empty then out0 ++ [lexem] else out0) hrules2
          (by omega)
        refine ⟨ih1.trans ⟨?_, ?_⟩, ih2⟩
        · rintro ⟨p, hs, hp, hnone⟩
          rw [hpos2] at hs
          exact ⟨p, Scans.next hf hs, hp, hnone⟩
        · rintro ⟨p, hs, hp, hnone⟩
          cases hs with
          | here =>
            rw [hf] at hnone
            simp at hnone
          | next hf1 hs1 =>
            rw [hf] at hf1
            simp only [Option.some.injEq, Prod.mk.injEq] at hf1
            obtain ⟨rfl, rfl⟩ := hf1
            rw [← hpos2] at hs1
            exact ⟨p, hs1, hp, hnone⟩
    · simp only [Lexer.tokenize_loop, hpos, ↓reduceIte]
      refine ⟨⟨fun ⟨msg, hc⟩ => by simp at hc, fun hc => absurd hc (hend lx hpos)⟩,
        Or.inr ⟨_, rfl⟩⟩

/-- The loop of `tokenize` over the single rule `\s*` makes no step on `b`. -/
theorem blank_rule_loops :
    ∀ fuel, Lexer.tokenize_loop "b" fuel (Lexer.of [blank_rule]) []
      = (.fuel, Lexer.of [blank_rule]) := by
  intro fuel
  induction fuel with
  | zero => rfl
  | succ n ih =>
    have hstep : Lexer.tokenize_loop "b" (n + 1) (Lexer.of [blank_rule]) []
        = Lexer.tokenize_loop "b" n (Lexer.of [blank_rule]) [] := rfl
    rw [hstep, ih]

/-- C16 (counterexample): with the ignorable rule `\s*` and the input `b`, the
rule matches (the empty string) at position 0, so the scan reaches no position
without a match; yet `tokenize` neither throws nor returns: its position stays
0 whatever the number of steps. -/
theorem C16_empty_match_no_result :
    first_match [blank_rule] "b" 0 = some (blank_rule, []) ∧
    ¬ ∃ fuel, ((Lexer.of [blank_rule]).tokenize fuel "b").1 ≠ .fuel := by
  refine ⟨rfl, ?_⟩
  rintro ⟨fuel, hc⟩
  exact hc (by rw [Lexer.tokenize, blank_rule_loops fuel])

/-- C16 (amended): for every rule list whose matches are never empty and every
input, `tokenize` (from scan position 0, with a step budget of the input
length) throws `UnexpectedLexem` iff scanning from offset 0 reaches a position
before the end of the input at which no rule matches; otherwise it returns a
token sequence. -/
theorem C16_unexpected_lexem (rules : Rules) (input : String) (fuel : Nat)
    (hne : NonEmptyMatches rules) (hfuel : input.length ≤ fuel) :
    ((∃ msg, ((Lexer.of rules).tokenize fuel input).1 = .UnexpectedLexem msg) ↔
      ∃ p, Scans rules input 0 p ∧ p < input.length ∧ first_match rules input p = none) ∧
    ((¬ ∃ p, Scans rules input 0 p ∧ p < input.length ∧ first_match rules input p = none) →
      ∃ out, ((Lexer.of rules).tokenize fuel input).1 = .tokens out) := by
  obtain ⟨h1, h2⟩ := tokenize_loop_outcome rules input hne fuel (Lexer.of rules) [] rfl
    (by simp only [Lexer.of]; omega)
  refine ⟨h1, fun hno => ?_⟩
  rcases h2 with h2 | h2
  · exact absurd (h1.mp h2) hno
  · exact h2

/-- C16 (witness): the arithmetic rules have no match at the `?` of `(?`, which
the scan reaches at position 1, and `tokenize` throws. -/
theorem C16_unexpected_lexem_witness :
    ((Lexer.of arith_rules).tokenize 2 "(?").1 = .UnexpectedLexem "UnexpectedLexem" ∧
    ∃ p, Scans arith_rules "(?" 0 p ∧ p < ("(?" : String).length ∧
      first_match arith_rules "(?" p = none :=
  ⟨rfl, (C16_unexpected_lexem arith_rules "(?" 2 arith_rules_nonempty (by decide)).1.mp
    ⟨_, rfl⟩⟩

/-- The loop of `tokenize` over the single rule `a*`, once at the `b` of `ab`,
makes no step, whatever tokens it has. -/
theorem star_rule_loops :
    ∀ (fuel : Nat) (out : Lexems),
      (Lexer.tokenize_loop "ab" fuel ⟨[star_rule], 1⟩ out).1 = .fuel := by
  intro fuel
  induction fuel with
  | zero => intro out; rfl
  | succ n ih =>
    intro out
    have hstep : Lexer.tokenize_loop "ab" (n + 1) ⟨[star_rule], 1⟩ out
        = Lexer.tokenize_loop "ab" n ⟨[star_rule], 1⟩ (out ++ [Lexem.of "" 1 1]) := rfl
    rw [hstep, ih]

/-- C17 (counterexample): the rule `a*` is taken as matching at the `b` of
`ab`, with the empty string; that step consumes no character (and emits a
token with empty content), and `tokenize` never ends. -/
theorem C17_empty_match_is_a_match :
    star_rule.match_at ("ab" : String).data 1 = some [] ∧
    (Lexer.mk [star_rule] 1).findLexem "ab" = .ok (Lexem.of "" 1 1, ⟨[star_rule], 1⟩) ∧
    ¬ ∃ fuel, ((Lexer.of [star_rule]).tokenize fuel "ab").1 ≠ .fuel := by
  refine ⟨rfl, rfl, ?_⟩
  rintro ⟨fuel, hc⟩
  cases fuel with
  | zero => exact hc rfl
  | succ n =>
    have hstep : (Lexer.of [star_rule]).tokenize (n + 1) "ab"
        = Lexer.tokenize_loop "ab" n ⟨[star_rule], 1⟩ [Lexem.of "a" 0 1] := rfl
    exact hc (by rw [hstep, star_rule_loops n])

/-- C17 (amended): when no rule of the list ever matches the empty string,
every successful step of `tokenize` moves the scan position forward by at
least one character, and `tokenize` ends for every input, returning tokens or
throwing `UnexpectedLexem`: a step budget of the rest of the input is never
used up. -/
theorem C17_tokenize_terminates (lx : Lexer) (input : String) (fuel : Nat)
    (hne : NonEmptyMatches lx.rules) (hfuel : input.length - lx.position ≤ fuel) :
    (∀ lexem lx1, lx.findLexem input = .ok (lexem, lx1) → lx.position < lx1.position) ∧
    (lx.tokenize fuel input).1 ≠ .fuel ∧
    ((∃ msg, (lx.tokenize fuel input).1 = .UnexpectedLexem msg) ∨
      ∃ out, (lx.tokenize fuel input).1 = .tokens out) := by
  have hout := (tokenize_loop_outcome lx.rules input hne fuel lx [] rfl hfuel).2
  refine ⟨?_, ?_, hout⟩
  · intro lexem lx1 hfind
    obtain ⟨r, m, hf, _, hlx1⟩ := Lexer.findLexem_ok lx input lexem lx1 hfind
    obtain ⟨hr, hm⟩ := first_match_mem lx.rules input _ r m hf
    have hm0 : 0 < m.length := List.length_pos.mpr (hne r hr _ _ _ hm)
    rw [hlx1]
    simp only
    omega
  · intro hc
    rcases hout with ⟨msg, h1⟩ | ⟨out, h1⟩
    · rw [Lexer.tokenize] at hc
      rw [hc] at h1
      simp at h1
    · rw [Lexer.tokenize] at hc
      rw [hc] at h1
      simp at h1

/-- C17 (witness): the arithmetic rules never match the empty string, and
`tokenize` ends on `34 + 4` within the length of the input. -/
theorem C17_tokenize_terminates_witness :
    ((Lexer.of arith_rules).tokenize 6 "34 + 4").1 ≠ .fuel :=
  (C17_tokenize_terminates (Lexer.of arith_rules) "34 + 4" 6 arith_rules_nonempty
    (by decide)).2.1

/-! ## Reuse of a lexer -/

/-- C18 (failing input): after `tokenize("()")` returned, the same lexer turns
`34 + 4` into the three tokens of a fresh lexer. After `tokenize("(?")` threw
`UnexpectedLexem`, the scan position of the lexer is left at 1, and
`tokenize("()")` on that lexer returns the single token `)` where a fresh
lexer returns `(` and `)`. -/
theorem C18_position_kept_after_throw :
    (Lexer.of arith_rules).tokenize 2 "()"
      = (.tokens [⟨"(", 0, 1, 1, 5⟩, ⟨")", 1, 1, 2, 6⟩], Lexer.of arith_rules) ∧
    (((Lexer.of arith_rules).tokenize 2 "()").2.tokenize 5 "34 + 4").1
      = .tokens tokens_34_plus_4 ∧
    ((Lexer.of arith_rules).tokenize 2 "(?").1 = .UnexpectedLexem "UnexpectedLexem" ∧
    ((Lexer.of arith_rules).tokenize 2 "(?").2.position = 1 ∧
    (((Lexer.of arith_rules).tokenize 2 "(?").2.tokenize 2 "()").1
      = .tokens [⟨")", 1, 1, 2, 6⟩] :=
  ⟨rfl, rfl, rfl, rfl, rfl⟩

/-! ## Seed scenario: `add_stmt` -/

/-- C19 (amended): with tags `NUM` and `ADD` other than 0 and an initial root
node, `add_stmt` parses the three tokens of a string number `+` number: the
parse accepts and returns the tree rooted at the initial root node; the only
child of that node is the `AddAST` node, which has exactly three children in
token order: `NumAST` of the first number, `OpAST` of the operator, `NumAST` of
the second number. -/
theorem C19_add_stmt_tree (num add : Tag) (t1 t2 t3 : Lexem) (hnum : num ≠ 0)
    (hadd : add ≠ 0) (h1 : t1.tag = num) (h2 : t2.tag = add) (h3 : t3.tag = num) :
    ∃ d1, Driver.parse (Driver.of (add_stmt num add)) [t1, t2, t3] (some 0) root_heap
        = .ok (SyntaxTree.mk_root (some 0), d1,
            add_final_heap t1.content t2.content t3.content) ∧
      d1.finish.accept = true ∧ d1.finish.current = 3 ∧
      (add_final_heap t1.content t2.content t3.content).kids 0 = [1] ∧
      (add_final_heap t1.content t2.content t3.content).kids 1 = [2, 3, 4] := by
  have e1 : (t1.tag == num) = true := by simp [h1]
  have e2 : (t2.tag == add) = true := by simp [h2]
  have e3 : (t3.tag == num) = true := by simp [h3]
  have v1 : (num != 0) = true := by simp [hnum]
  have v2 : (add != 0) = true := by simp [hadd]
  refine ⟨⟨add_stmt num add, ⟨[t1, t2, t3], 0, 3, 3, SyntaxTree.mk_root (some 0), true⟩⟩,
    ?_, rfl, rfl, rfl, rfl⟩
  simp [Driver.parse, Driver.of, add_stmt, add_sequence, Grammar.build, Binding.decorate,
    bind, bind_primary, Parser.of, Parser.toIParser, Parser.call, Parser.is_valid,
    Action.invoke, skip, And, Atom, terminate, Driver.start, Driver.is_accept,
    before_action, accept_action, fail_action, primary_type_builder, SyntaxTree.append,
    SyntaxTree.mk_root, Heap.alloc, Heap.node_append, Heap.set_parent, Heap.parent,
    root_heap, add_final_heap, e1, e2, e3, v1, v2]

/-- C19 (witness): the tokens of `3+4`, with the tag 8 for `NUM`, give under a
root node the `AddAST` node with the children `NumAST(3)`, `OpAST(+)`,
`NumAST(4)`. -/
theorem C19_add_stmt_tree_witness :
    ∃ d1, Driver.parse (Driver.of (add_stmt 8 1)) tokens_3_plus_4_retagged (some 0) root_heap
        = .ok (SyntaxTree.mk_root (some 0), d1, add_final_heap "3" "+" "4") ∧
      d1.finish.accept = true ∧ d1.finish.current = 3 ∧
      (add_final_heap "3" "+" "4").kids 0 = [1] ∧
      (add_final_heap "3" "+" "4").kids 1 = [2, 3, 4] :=
  C19_add_stmt_tree 8 1 ⟨"3", 0, 1, 1, 8⟩ ⟨"+", 1, 1, 2, 1⟩ ⟨"4", 2, 1, 3, 8⟩
    (by decide) (by decide) rfl rfl rfl

/-- C19 (counterexample): the arithmetic rules turn `3+4` into three tokens
with `NUM = 0`; `Atom(0)` is not valid, so the parse of `add_stmt` stops at the
assertion of `Parser::operator()`, with or without a root node. With the tag 8
for `NUM` and the default null root the parse accepts, but the tree it
returns is null-rooted. -/
theorem C19_add_stmt_does_not_parse :
    ((Lexer.of arith_rules).tokenize 3 "3+4").1 = .tokens tokens_3_plus_4 ∧
    (add_stmt 0 1).is_valid = false ∧
    Driver.parse (Driver.of (add_stmt 0 1)) tokens_3_plus_4 none Heap.empty
      = .error .assertion ∧
    Driver.parse (Driver.of (add_stmt 0 1)) tokens_3_plus_4 (some 0) root_heap
      = .error .assertion ∧
    ∃ d1 h1, Driver.parse (Driver.of (add_stmt 8 1)) tokens_3_plus_4_retagged none Heap.empty
        = .ok (SyntaxTree.mk_root none, d1, h1) ∧ d1.finish.accept = true :=
  ⟨rfl, rfl, rfl, rfl, _, _, rfl, rfl⟩

/-! ## Frame of the tree changes -/

theorem Heap.GrownUnder.no_change (h : Heap) (c : Nat) (hcl : h.Closed) : h.GrownUnder h c :=
  ⟨hcl, Nat.le_refl _, fun _ _ _ => rfl, [], by simp, by simp⟩

theorem Heap.GrownUnder.and_then {h h1 h2 : Heap} {c : Nat}
    (e1 : h.GrownUnder h1 c) (e2 : h1.GrownUnder h2 c) : h.GrownUnder h2 c := by
  obtain ⟨_, a2, a3, x1, a4, a5⟩ := e1
  obtain ⟨b1, b2, b3, x2, b4, b5⟩ := e2
  refine ⟨b1, Nat.le_trans a2 b2, ?_, x1 ++ x2, ?_, ?_⟩
  · intro a ha hac
    rw [b3 a (by omega) hac, a3 a ha hac]
  · rw [b4, a4, List.append_assoc]
  · intro x hx
    rcases List.mem_append.mp hx with hx | hx
    · exact a5 x hx
    · have := b5 x hx
      omega

/-- What `before_action` does to the children lists under a valid cursor. -/
theorem before_action_kids (cls : String) (s s1 : State) (h h1 : Heap) (c : Nat)
    (hrun : before_action cls s h = .ok (s1, h1)) (hcur : s.tree.cursor = some c)
    (hc : c < h.nodes.length) (hcl : h.Closed) :
    h1.Closed ∧ h1.nodes.length = h.nodes.length + 1 ∧
    ∀ x, h1.kids x = if x = c then h.kids c ++ [h.nodes.length] else h.kids x := by
  simp only [before_action, SyntaxTree.append, hcur] at hrun
  obtain ⟨ha1, ha2, _, _, ha5, ha6⟩ := Heap.alloc_ok h ⟨none, [], cls, ""⟩
  generalize h.alloc ⟨none, [], cls, ""⟩ = al at hrun ha1 ha2 ha5 ha6
  obtain ⟨k, h0⟩ := al
  simp only at hrun ha1 ha2 ha5 ha6
  subst ha1
  generalize hg : (Heap.mk h0.nodes (h.nodes.length :: h0.built) h0.popped) = g at hrun
  have hgn : g.nodes = h0.nodes := by rw [← hg]
  split at hrun
  · simp at hrun
  · rename_i h2 hap
    split at hrun
    · simp at hrun
    · rename_i h3 hsp
      simp only [Except.ok.injEq, Prod.mk.injEq] at hrun
      obtain ⟨rfl, rfl⟩ := hrun
      obtain ⟨_, hb2, _, _, hb5, hb6⟩ := Heap.node_append_ok _ _ _ _ hap
      obtain ⟨_, hc2, _, _, hc5, hc6⟩ := Heap.set_parent_ok _ _ _ _ hsp
      have hne : c ≠ h.nodes.length := by omega
      have hlen : h3.nodes.length = h.nodes.length + 1 := by
        rw [hc2, hb2, hgn]
        exact ha2
      have hkids : ∀ x, h3.kids x
          = if x = c then h.kids c ++ [h.nodes.length] else h.kids x := by
        intro x
        rw [hc5 x, hb5 x]
        rw [Heap.kids_congr g h0 hgn x, Heap.kids_congr g h0 hgn c, ha5 x, ha5 c]
        by_cases hx : x = c
        · subst hx
          simp [hne]
        · by_cases hx2 : x = h.nodes.length
          · subst hx2
            simp [hx, Heap.kids_of_ge h h.nodes.length (Nat.le_refl _)]
          · simp [hx, hx2]
      have hpar : ∀ x, h3.parent x
          = if x = h.nodes.length then .ok (some c) else h.parent x := by
        intro x
        rw [hc6 x, hb6 x]
        rw [Heap.parent_congr g h0 hgn x, ha6 x]
        by_cases hx : x = h.nodes.length <;> simp [hx]
      obtain ⟨f1, _, _, _⟩ := attach_facts h h3 c hc hlen hkids hpar hcl
      exact ⟨f1, hlen, hkids⟩

/-- What `primary_type_builder` does to the children lists under a valid
cursor. -/
theorem primary_type_builder_kids (cls : String) (s r : State) (h h1 : Heap) (c : Nat)
    (hrun : primary_type_builder cls s h = .ok (r, h1)) (hcur : s.tree.cursor = some c)
    (hc : c < h.nodes.length) (hcl : h.Closed) : h.GrownUnder h1 c := by
  simp only [primary_type_builder, SyntaxTree.append, hcur] at hrun
  split at hrun
  · simp at hrun
  · split at hrun
    · simp at hrun
    · rename_i target _
      obtain ⟨ha1, ha2, _, _, ha5, ha6⟩ := Heap.alloc_ok h ⟨none, [], cls, target.content⟩
      generalize h.alloc ⟨none, [], cls, target.content⟩ = al at hrun ha1 ha2 ha5 ha6
      obtain ⟨k, h0⟩ := al
      simp only at hrun ha1 ha2 ha5 ha6
      subst ha1
      split at hrun
      · simp at hrun
      · rename_i h2 hsp
        split at hrun
        · simp at hrun
        · rename_i h3 hap
          simp only [Except.ok.injEq, Prod.mk.injEq] at hrun
          obtain ⟨rfl, rfl⟩ := hrun
          obtain ⟨_, hc2, _, _, hc5, hc6⟩ := Heap.set_parent_ok _ _ _ _ hsp
          obtain ⟨_, hb2, _, _, hb5, hb6⟩ := Heap.node_append_ok _ _ _ _ hap
          have hne : c ≠ h.nodes.length := by omega
          have hlen : h3.nodes.length = h.nodes.length + 1 := by
            rw [hb2, hc2]
            exact ha2
          have hkids : ∀ x, h3.kids x
              = if x = c then h.kids c ++ [h.nodes.length] else h.kids x := by
            intro x
            rw [hb5 x, hc5 x, hc5 c, ha5 x, ha5 c]
            by_cases hx : x = c
            · subst hx
              simp [hne]
            · by_cases hx2 : x = h.nodes.length
              · subst hx2
                simp [hx, Heap.kids_of_ge h h.nodes.length (Nat.le_refl _)]
              · simp [hx, hx2]
          have hpar : ∀ x, h3.parent x
              = if x = h.nodes.length then .ok (some c) else h.parent x := by
            intro x
            rw [hb6 x, hc6 x, ha6 x]
            by_cases hx : x = h.nodes.length <;> simp [hx]
          obtain ⟨f1, _, _, _⟩ := attach_facts h h3 c hc hlen hkids hpar hcl
          refine ⟨f1, by omega, ?_, [h.nodes.length], ?_, by simp⟩
          · intro a _ hac
            rw [hkids a]
            simp [hac]
          · rw [hkids c]
            simp

/-- What `fail_action` does to the children lists. -/
theorem fail_action_kids (s r : State) (h h1 : Heap) (k c : Nat)
    (hrun : fail_action s h = .ok (r, h1)) (hcur : s.tree.cursor = some k)
    (hpar : h.parent k = .ok (some c)) :
    h1.nodes.length = h.nodes.length ∧ h1.popped = k :: h.popped ∧
    ∀ x, h1.kids x = if x = c then (h.kids c).erase k else h.kids x := by
  simp only [fail_action, hcur, hpar] at hrun
  split at hrun
  · simp at hrun
  · rename_i h2 hpop
    simp only [Except.ok.injEq, Prod.mk.injEq] at hrun
    obtain ⟨rfl, rfl⟩ := hrun
    obtain ⟨_, hb2, _, hb4, hb5, _⟩ := Heap.node_pop_ok _ _ _ _ hpop
    generalize hg : (Heap.mk h2.nodes h2.built (k :: h2.popped)) = g
    have hgn : g.nodes = h2.nodes := by rw [← hg]
    have hgp : g.popped = k :: h.popped := by rw [← hg, ← hb4]
    refine ⟨by rw [hgn]; exact hb2, hgp, fun x => ?_⟩
    rw [Heap.kids_congr g h2 hgn x, hb5 x]

theorem Atom_kidsFrame (t : Tag) : KidsFrame (Atom t) := by
  intro s h r h1 c hrun _ _ hcl
  simp only [Atom] at hrun
  split at hrun
  · simp at hrun
  · simp only [Except.ok.injEq, Prod.mk.injEq] at hrun
    obtain ⟨_, rfl⟩ := hrun
    exact Heap.GrownUnder.no_change _ _ hcl

theorem Any_kidsFrame : KidsFrame Any := by
  intro s h r h1 c hrun _ _ hcl
  simp only [Any, Except.ok.injEq, Prod.mk.injEq] at hrun
  obtain ⟨_, rfl⟩ := hrun
  exact Heap.GrownUnder.no_change _ _ hcl

theorem And_kidsFrame (L R : IParser) (bL : Balanced L) (hL : KidsFrame L)
    (hR : KidsFrame R) : KidsFrame (And L R) := by
  intro s h r h2 c hrun hcur hc hcl
  simp only [And] at hrun
  split at hrun
  · simp only [Except.ok.injEq, Prod.mk.injEq] at hrun
    obtain ⟨_, rfl⟩ := hrun
    exact Heap.GrownUnder.no_change _ _ hcl
  · split at hrun
    · simp at hrun
    · rename_i l h1 hl
      have g1 := hL _ _ _ _ _ hl hcur hc hcl
      obtain ⟨l1, _⟩ := bL _ _ _ _ hl
      split at hrun
      · simp only [Except.ok.injEq, Prod.mk.injEq] at hrun
        obtain ⟨_, rfl⟩ := hrun
        exact g1
      · split at hrun
        · simp at hrun
        · rename_i r1 h3 hr
          have g2 := hR _ _ _ _ _ hr (by rw [l1]; exact hcur)
            (Nat.lt_of_lt_of_le hc g1.2.1) g1.1
          split at hrun
          · simp only [Except.ok.injEq, Prod.mk.injEq] at hrun
            obtain ⟨_, rfl⟩ := hrun
            exact g1.and_then g2
          · simp only [Except.ok.injEq, Prod.mk.injEq] at hrun
            obtain ⟨_, rfl⟩ := hrun
            exact g1.and_then g2

theorem Or_kidsFrame (L R : IParser) (hL : KidsFrame L) (hR : KidsFrame R) :
    KidsFrame (Or L R) := by
  intro s h r h2 c hrun hcur hc hcl
  simp only [Or] at hrun
  split at hrun
  · simp only [Except.ok.injEq, Prod.mk.injEq] at hrun
    obtain ⟨_, rfl⟩ := hrun
    exact Heap.GrownUnder.no_change _ _ hcl
  · split at hrun
    · simp at hrun
    · rename_i l h1 hl
      have g1 := hL _ _ _ _ _ hl hcur hc hcl
      split at hrun
      · simp only [Except.ok.injEq, Prod.mk.injEq] at hrun
        obtain ⟨_, rfl⟩ := hrun
        exact g1
      · split at hrun
        · simp at hrun
        · rename_i r1 h3 hr
          have g2 := hR _ _ _ _ _ hr hcur (Nat.lt_of_lt_of_le hc g1.2.1) g1.1
          split at hrun
          · simp only [Except.ok.injEq, Prod.mk.injEq] at hrun
            obtain ⟨_, rfl⟩ := hrun
            exact g1.and_then g2
          · simp only [Except.ok.injEq, Prod.mk.injEq] at hrun
            obtain ⟨_, rfl⟩ := hrun
            exact g1.and_then g2

theorem loop_kidsFrame (p : IParser) (bp : Balanced p) (hp : KidsFrame p) :
    ∀ (fuel : Nat) (res : State) (h : Heap) (r : State) (h1 : Heap) (c : Nat),
      OneOrMore.loop p fuel res h = .ok (r, h1) → res.tree.cursor = some c →
      c < h.nodes.length → h.Closed → h.GrownUnder h1 c := by
  intro fuel
  induction fuel with
  | zero =>
    intro res h r h1 c hrun _ _ hcl
    simp only [OneOrMore.loop] at hrun
    split at hrun
    · simp at hrun
    · simp only [Except.ok.injEq, Prod.mk.injEq] at hrun
      obtain ⟨_, rfl⟩ := hrun
      exact Heap.GrownUnder.no_change _ _ hcl
  | succ n ih =>
    intro res h r h1 c hrun hcur hc hcl
    simp only [OneOrMore.loop] at hrun
    split at hrun
    · split at hrun
      · simp at hrun
      · rename_i temp h2 htemp
        have g1 := hp _ _ _ _ _ htemp hcur hc hcl
        obtain ⟨l1, _⟩ := bp _ _ _ _ htemp
        split at hrun
        · simp only [Except.ok.injEq, Prod.mk.injEq] at hrun
          obtain ⟨_, rfl⟩ := hrun
          exact g1
        · have g2 := ih _ _ _ _ c hrun (by rw [l1]; exact hcur)
            (Nat.lt_of_lt_of_le hc g1.2.1) g1.1
          exact g1.and_then g2
    · simp only [Except.ok.injEq, Prod.mk.injEq] at hrun
      obtain ⟨_, rfl⟩ := hrun
      exact Heap.GrownUnder.no_change _ _ hcl

theorem OneOrMore_kidsFrame (fuel : Nat) (p : IParser) (bp : Balanced p) (hp : KidsFrame p) :
    KidsFrame (OneOrMore fuel p) := by
  intro s h r h2 c hrun hcur hc hcl
  simp only [OneOrMore] at hrun
  split at hrun
  · simp at hrun
  · rename_i res h1 hres
    have g1 := hp _ _ _ _ _ hres hcur hc hcl
    obtain ⟨l1, _⟩ := bp _ _ _ _ hres
    have g2 := loop_kidsFrame p bp hp _ _ _ _ _ c hrun (by rw [l1]; exact hcur)
      (Nat.lt_of_lt_of_le hc g1.2.1) g1.1
    exact g1.and_then g2

/-- A rule bound with `bind`, run under a valid cursor `c`: when it accepts,
`c` has one more child, the node of the rule; when it rejects, every node that
existed has the children it had, and the node of the rule was passed to
`pop`. -/
theorem bound_rule_kids (cls : String) (q : IParser) (bq : Balanced q) (hq : KidsFrame q)
    (s r : State) (h h1 : Heap) (c : Nat)
    (hrun : (bind cls (Parser.of q)).call s h = .ok (r, h1))
    (hcur : s.tree.cursor = some c) (hc : c < h.nodes.length) (hcl : h.Closed) :
    h1.Closed ∧ h.nodes.length < h1.nodes.length ∧
    (∀ a, a < h.nodes.length → a ≠ c → h1.kids a = h.kids a) ∧
    (r.accept = true → h1.kids c = h.kids c ++ [h.nodes.length]) ∧
    (r.accept = false → h1.kids c = h.kids c ∧ h.nodes.length ∈ h1.popped) := by
  simp only [bind, Parser.of, Parser.call, Action.invoke] at hrun
  split at hrun
  · simp at hrun
  · split at hrun
    · simp at hrun
    · rename_i s1 hb hbef
      obtain ⟨rfl, _, b3, b4⟩ := before_action_parents cls _ _ _ _ hbef
      obtain ⟨k1, k2, k3⟩ := before_action_kids cls _ _ _ _ c hbef hcur hc hcl
      split at hrun
      · simp at hrun
      · rename_i res h2 hres
        obtain ⟨i1, i2⟩ := bq _ _ _ _ hres
        obtain ⟨g1, g2, g3, _⟩ := hq _ _ _ _ h.nodes.length hres rfl (by omega) k1
        have hpar : h2.parent h.nodes.length = .ok (some c) := by
          rw [i2.2 _ b3, b4, hcur]
        have hrescur : res.tree.cursor = some h.nodes.length := by rw [i1]
        have hold : ∀ a, a < h.nodes.length → h2.kids a = hb.kids a :=
          fun a ha => g3 a (by omega) (by omega)
        have hnotin : h.nodes.length ∉ h.kids c := fun hm => by
          have := hcl _ _ hm
          omega
        split at hrun
        · rename_i hacc
          obtain ⟨rfl, rfl⟩ := accept_action_spec _ _ _ _ _ _ hrun hrescur hpar
          refine ⟨g1, by omega, ?_, ?_, ?_⟩
          · intro a ha hac
            rw [hold a ha, k3 a]
            simp [hac]
          · intro _
            rw [hold c hc, k3 c]
            simp
          · intro hc2
            simp only at hc2
            rw [hacc] at hc2
            exact absurd hc2 (by simp)
        · rename_i hacc
          obtain ⟨rfl, _⟩ := fail_action_parents _ _ _ _ _ _ hrun hrescur hpar
          obtain ⟨f1, f2, f3⟩ := fail_action_kids _ _ _ _ _ c hrun hrescur hpar
          have hkc : h1.kids c = h.kids c := by
            rw [f3 c, hold c hc, k3 c]
            simp only [↓reduceIte]
            rw [List.erase_append_right _ hnotin]
            simp
          refine ⟨?_, by omega, ?_, ?_, ?_⟩
          · intro a x hx
            rw [f1]
            by_cases hac : a = c
            · subst hac
              rw [hkc] at hx
              have := hcl _ _ hx
              omega
            · rw [f3 a] at hx
              simp only [hac, ↓reduceIte] at hx
              exact g1 _ _ hx
          · intro a ha hac
            rw [f3 a]
            simp only [hac, ↓reduceIte]
            rw [hold a ha, k3 a]
            simp [hac]
          · intro hc2
            simp only at hc2
            exact absurd hc2 hacc
          · intro _
            exact ⟨hkc, by rw [f2]; exact List.mem_cons_self _ _⟩

theorem decorated_kidsFrame (b : Binding) (q : IParser) (bq : Balanced q)
    (hq : KidsFrame q) : KidsFrame (b.decorate (Parser.of q)).toIParser := by
  intro s h r h5 c hrun hcur hc hcl
  cases b with
  | plain =>
    simp only [Parser.toIParser, Binding.decorate, Parser.of, Parser.call, Action.invoke,
      skip] at hrun
    split at hrun
    · simp at hrun
    · split at hrun
      · simp at hrun
      · rename_i res h2 hres
        have g1 := hq _ _ _ _ _ hres hcur hc hcl
        split at hrun
        · simp only [Except.ok.injEq, Prod.mk.injEq] at hrun
          obtain ⟨_, rfl⟩ := hrun
          exact g1
        · simp only [Except.ok.injEq, Prod.mk.injEq] at hrun
          obtain ⟨_, rfl⟩ := hrun
          exact g1
  | primary cls =>
    simp only [Parser.toIParser, Binding.decorate, bind_primary, Parser.of, Parser.call,
      Action.invoke, skip] at hrun
    split at hrun
    · simp at hrun
    · split at hrun
      · simp at hrun
      · rename_i res h2 hres
        have g1 := hq _ _ _ _ _ hres hcur hc hcl
        obtain ⟨i1, _⟩ := bq _ _ _ _ hres
        split at hrun
        · have g2 := primary_type_builder_kids cls _ _ _ _ c hrun (by rw [i1]; exact hcur)
            (Nat.lt_of_lt_of_le hc g1.2.1) g1.1
          exact g1.and_then g2
        · simp only [Except.ok.injEq, Prod.mk.injEq] at hrun
          obtain ⟨_, rfl⟩ := hrun
          exact g1
  | node cls =>
    have hrun1 : (bind cls (Parser.of q)).call s h = .ok (r, h5) := hrun
    obtain ⟨k1, k2, k3, k4, k5⟩ := bound_rule_kids cls q bq hq s r h h5 c hrun1 hcur hc hcl
    refine ⟨k1, by omega, k3, ?_⟩
    cases hacc : r.accept with
    | true => exact ⟨[h.nodes.length], k4 hacc, by simp⟩
    | false => exact ⟨[], by simp [(k5 hacc).1], by simp⟩

/-- Every combinator built from the library constructors with default or
canonical actions only changes the heap below the cursor node. -/
theorem build_kidsFrame (fuel : Nat) : ∀ g : Grammar, KidsFrame (g.build fuel)
  | .atom t => Atom_kidsFrame t
  | .any => Any_kidsFrame
  | .and l r => And_kidsFrame _ _ (build_balanced fuel l) (build_kidsFrame fuel l)
      (build_kidsFrame fuel r)
  | .or l r => Or_kidsFrame _ _ (build_kidsFrame fuel l) (build_kidsFrame fuel r)
  | .one_or_more p => OneOrMore_kidsFrame fuel _ (build_balanced fuel p)
      (build_kidsFrame fuel p)
  | .decorated b p => decorated_kidsFrame b _ (build_balanced fuel p) (build_kidsFrame fuel p)

/-- When the nodes of `h` have in `h1` the children they had in the closed heap
`h`, what is reachable in `h1` from a node of `h` is a node of `h`. -/
theorem Heap.Reach.stays_old {h h1 : Heap} {root n : Nat} (hcl : h.Closed)
    (hroot : root < h.nodes.length)
    (hsame : ∀ a, a < h.nodes.length → h1.kids a = h.kids a) (hr : h1.Reach root n) :
    n < h.nodes.length := by
  induction hr with
  | refl => exact hroot
  | step _ hm ih =>
    rw [hsame _ ih] at hm
    exact hcl _ _ hm

/-! ## Post-mortem state -/

/-- C20 (counterexample): `add_stmt` rejects the tokens of `3+*` (tag 8 for
`NUM`) at the third token, after it consumed two and built their nodes; the
final state has `current` at 0, not at the furthest position 2. On the two
tokens of `3+` (scenario S4) `accept` returns no verdict: with `NUM = 0` the
evaluation stops at the validity assertion, with the tag 8 the third atom
reads the token past the end. -/
theorem C20_finish_is_not_furthest :
    (∃ d1, Driver.accept (Driver.of (add_stmt 8 1)) tokens_3_plus_star (some 0) root_heap
        = .ok (false, d1, add_rejected_heap) ∧
      d1.finish.accept = false ∧ d1.finish.current = 0 ∧ d1.finish.end_ = 3) ∧
    Driver.accept (Driver.of (add_stmt 0 1)) tokens_3_plus (some 0) root_heap
      = .error .assertion ∧
    Driver.accept (Driver.of (add_stmt 8 1)) tokens_3_plus_retagged (some 0) root_heap
      = .error .undefined :=
  ⟨⟨_, rfl, rfl, rfl, rfl⟩, rfl, rfl⟩

/-- C20 (amended): when `Driver::accept` rejects a non-empty input with a root
built from the library combinators with default or canonical actions, either
the root rejected and `finish().current` is the start position, or the root
accepted and `finish().current` is where it stopped, which is not `end`; the
tree of `finish()` has its root and its cursor at the initial root. When the
root rule is bound with `bind`, started under a root node of a heap without
dangling child pointers, and rejected, every node that existed before the
parse has the children it had, so that no node built during the parse is
reachable from the root. -/
theorem C20_post_mortem (b : Binding) (g : Grammar) (fuel : Nat) (T : Lexems) (tree : Ptr)
    (h : Heap) (d1 : Driver) (h1 : Heap) (hT : T ≠ [])
    (hrun : Driver.accept (Driver.of (b.decorate (Parser.of (g.build fuel)))) T tree h
      = .ok (false, d1, h1)) :
    ((d1.finish.accept = false ∧ d1.finish.current = 0) ∨
      (d1.finish.accept = true ∧ d1.finish.current ≠ T.length)) ∧
    d1.finish.tree = SyntaxTree.mk_root tree ∧
    (∀ cls root, b = .node cls → tree = some root → root < h.nodes.length → h.Closed →
      d1.finish.accept = false →
      (∀ a, a < h.nodes.length → h1.kids a = h.kids a) ∧
      (∀ n, h1.Reach root n → n < h.nodes.length)) := by
  have hlen : (T.length == 0) = false := by
    cases T with
    | nil => exact absurd rfl hT
    | cons a l => rfl
  simp only [Driver.accept, Driver.of, hlen, Bool.false_eq_true, ↓reduceIte] at hrun
  split at hrun
  · simp at hrun
  · rename_i fin h2 hcall
    simp only [Except.ok.injEq, Prod.mk.injEq] at hrun
    obtain ⟨hverdict, rfl, rfl⟩ := hrun
    have hdis : Threaded (Driver.start T tree) fin :=
      build_disciplined fuel (.decorated b g) _ _ _ _ hcall
    have hbal := (build_balanced fuel (.decorated b g) _ _ _ _ hcall).1
    refine ⟨?_, hbal, ?_⟩
    · cases hacc : fin.accept with
      | false => exact Or.inl ⟨rfl, hdis.on_fail hacc⟩
      | true =>
        right
        refine ⟨rfl, ?_⟩
        simp only [Driver.is_accept, hacc, Bool.true_and, beq_eq_false_iff_ne, ne_eq] at hverdict
        exact hverdict
    · intro cls root hb htree hroot hcl hacc
      subst hb htree
      have hcall1 : (bind cls (Parser.of (g.build fuel))).call (Driver.start T (some root)) h
          = .ok (fin, h2) := hcall
      obtain ⟨_, _, k3, _, k5⟩ := bound_rule_kids cls _ (build_balanced fuel g)
        (build_kidsFrame fuel g) _ _ _ _ root hcall1 rfl hroot hcl
      have hsame : ∀ a, a < h.nodes.length → h2.kids a = h.kids a := by
        intro a ha
        by_cases hac : a = root
        · subst hac
          exact (k5 hacc).1
        · exact k3 a ha hac
      exact ⟨hsame, fun n hr => hr.stays_old hcl hroot hsame⟩

/-- C20 (witness): `add_stmt` rejects the tokens of `3+*` under a root node;
the final position is 0 and the root node has no child again. -/
theorem C20_post_mortem_witness :
    ∃ d1, Driver.accept (Driver.of (add_stmt 8 1)) tokens_3_plus_star (some 0) root_heap
        = .ok (false, d1, add_rejected_heap) ∧
      ((d1.finish.accept = false ∧ d1.finish.current = 0) ∨
        (d1.finish.accept = true ∧ d1.finish.current ≠ tokens_3_plus_star.length)) ∧
      add_rejected_heap.kids 0 = root_heap.kids 0 :=
  ⟨_, rfl,
    (C20_post_mortem (.node "AddAST") (add_sequence 8 1) 0 tokens_3_plus_star (some 0)
      root_heap _ add_rejected_heap (by decide) rfl).1,
    ((C20_post_mortem (.node "AddAST") (add_sequence 8 1) 0 tokens_3_plus_star (some 0)
      root_heap _ add_rejected_heap (by decide) rfl).2.2 "AddAST" 0 rfl rfl (by decide)
      root_heap_closed rfl).1 0 (by decide)⟩

/-! ## C21: which precondition violations are asserted -/

theorem Forward_unbound_run (fuel : Nat) (s : State) (h : Heap) :
    (Forward none fuel).run s h = .error .assertion := by
  cases fuel <;> rfl

theorem Parser.call_of_invalid (p : Parser) (s : State) (h : Heap)
    (hv : p.is_valid = false) : p.call s h = .error .assertion := by
  unfold Parser.call
  unfold Parser.is_valid at hv
  cases hi : p.inner with
  | none => rfl
  | some q =>
    rw [hi] at hv
    simp only at hv
    simp [hv]

/-- C21 (counterexample): the Driver over `Parser(Or(Atom(0), Atom(1)))` passes
the validity assertion, the `Atom` with tag 0 is evaluated on the one-token
input whose tag is 0, accepts it, and the Driver returns `true`. -/
theorem C21_zero_atom_in_choice_runs :
    zero_branch_choice.is_valid = true ∧
    (Atom 0).run (Driver.start [tok 0] none) Heap.empty =
      .ok ({ Driver.start [tok 0] none with accept := true, current := 1 }, Heap.empty) ∧
    Driver.accept (Driver.of zero_branch_choice) [tok 0] none Heap.empty =
      .ok (true,
           { parser := zero_branch_choice,
             finish := { Driver.start [tok 0] none with accept := true, current := 1 } },
           Heap.empty) :=
  ⟨rfl, rfl, rfl⟩

/-- C21 (amended): evaluating an unbound `Forward` is an assertion failure;
evaluating a decorated `Parser` that is not valid (no inner parser, or an inner
combinator that is not valid) is an assertion failure, and so is every Driver
run on a non-empty input over such a root. An `Atom` with tag 0 is not valid,
and validity is the conjunction of the branches for `And`, that of the body for
`OneOrMore`, and the disjunction of the branches for `Or`. -/
theorem C21_precondition_assertions :
    (∀ (fuel : Nat) (s : State) (h : Heap),
      (Forward none fuel).run s h = .error .assertion) ∧
    (∀ (p : Parser) (s : State) (h : Heap), p.inner = none →
      p.call s h = .error .assertion) ∧
    (∀ (p : Parser) (s : State) (h : Heap), p.is_valid = false →
      p.call s h = .error .assertion) ∧
    (∀ (d : Driver) (input : Lexems) (tree : Ptr) (h : Heap), input ≠ [] →
      d.parser.is_valid = false →
      Driver.accept d input tree h = .error .assertion ∧
      Driver.parse d input tree h = .error .assertion) ∧
    (Atom 0).is_valid = false ∧
    (∀ fuel : Nat, (Forward none fuel).is_valid = false) ∧
    (∀ l r : IParser, (And l r).is_valid = (l.is_valid && r.is_valid)) ∧
    (∀ (fuel : Nat) (p : IParser), (OneOrMore fuel p).is_valid = p.is_valid) ∧
    (∀ l r : IParser, (Or l r).is_valid = (l.is_valid || r.is_valid)) := by
  refine ⟨Forward_unbound_run, ?_, Parser.call_of_invalid, ?_, rfl, ?_, fun _ _ => rfl,
    fun _ _ => rfl, fun _ _ => rfl⟩
  · intro p s h hi
    exact Parser.call_of_invalid p s h (by simp [Parser.is_valid, hi])
  · intro d input tree h hne hv
    have hlen : (input.length == 0) = false := by
      cases input with
      | nil => exact absurd rfl hne
      | cons a l => rfl
    constructor
    · simp [Driver.accept, hlen, Parser.call_of_invalid _ _ _ hv]
    · simp [Driver.parse, hlen, Parser.call_of_invalid _ _ _ hv]
  · intro fuel
    cases fuel <;> rfl

/-- C21 (witness): the Driver over `Parser(And(Atom(0), Atom(1)))` fails the
validity assertion on a one-token input. -/
theorem C21_precondition_assertions_witness :
    Driver.accept (Driver.of zero_in_sequence) [tok 0] none Heap.empty = .error .assertion :=
  (C21_precondition_assertions.2.2.2.1 (Driver.of zero_in_sequence) [tok 0] none Heap.empty
    (by simp) rfl).1

/-! ## C22: `Parser::clone` builds a default `Parser` -/

/-- Validity of the combinator behind an `IParser*`; false for null. -/
theorem Parser.is_valid_eval (inner : CombinatorPtr) (b a f : Action) (n : String) :
    (Combinator.parser inner b a f n).is_valid =
      (match inner.eval 0 with
       | some q => q.is_valid
       | none => false) := rfl

mutual
theorem Combinator.is_valid_copy : ∀ c : Combinator, c.copy.is_valid = c.is_valid
  | .atom _ => rfl
  | .any => rfl
  | .and l r => by
    have hl := Combinator.is_valid_copy l
    have hr := Combinator.is_valid_copy r
    simp only [Combinator.is_valid] at hl hr
    simp only [Combinator.copy, Combinator.is_valid, Combinator.eval, And, hl, hr]
  | .or l r => by
    have hl := Combinator.is_valid_copy l
    have hr := Combinator.is_valid_copy r
    simp only [Combinator.is_valid] at hl hr
    simp only [Combinator.copy, Combinator.is_valid, Combinator.eval, Or, hl, hr]
  | .one_or_more p => by
    have hp := Combinator.is_valid_copy p
    simp only [Combinator.is_valid] at hp
    simp only [Combinator.copy, Combinator.is_valid, Combinator.eval, OneOrMore, hp]
  | .forward _ => rfl
  | .parser inner b a f n => by
    rw [Combinator.copy, Parser.is_valid_eval, Parser.is_valid_eval]
    exact CombinatorPtr.is_valid_clone_ptr inner
theorem Combinator.is_valid_clone : ∀ c : Combinator,
    (match c.clone.eval 0 with
     | some q => q.is_valid
     | none => false) = c.is_valid
  | .atom _ => rfl
  | .any => rfl
  | .and l r => by
    have hl := Combinator.is_valid_copy l
    have hr := Combinator.is_valid_copy r
    simp only [Combinator.is_valid] at hl hr
    simp only [Combinator.clone, CombinatorPtr.eval, Combinator.is_valid, Combinator.eval,
      And, hl, hr]
  | .or l r => by
    have hl := Combinator.is_valid_copy l
    have hr := Combinator.is_valid_copy r
    simp only [Combinator.is_valid] at hl hr
    simp only [Combinator.clone, CombinatorPtr.eval, Combinator.is_valid, Combinator.eval,
      Or, hl, hr]
  | .one_or_more p => by
    have hp := Combinator.is_valid_copy p
    simp only [Combinator.is_valid] at hp
    simp only [Combinator.clone, CombinatorPtr.eval, Combinator.is_valid, Combinator.eval,
      OneOrMore, hp]
  | .forward _ => rfl
  | .parser inner b a f n => by
    rw [Combinator.clone]
    cases hv : (Combinator.parser inner b a f n).is_valid with
    | false => simp [CombinatorPtr.eval]
    | true =>
      simp only [if_true, CombinatorPtr.eval]
      have h1 : (Combinator.parser inner.clone skip skip skip "").is_valid =
          (Combinator.parser inner b a f n).is_valid := by
        rw [Parser.is_valid_eval, Parser.is_valid_eval]
        exact CombinatorPtr.is_valid_clone_ptr inner
      rw [hv] at h1
      exact h1
theorem CombinatorPtr.is_valid_clone_ptr : ∀ p : CombinatorPtr,
    (match p.clone.eval 0 with
     | some q => q.is_valid
     | none => false) =
    (match p.eval 0 with
     | some q => q.is_valid
     | none => false)
  | .null => rfl
  | .to c => by
    rw [CombinatorPtr.clone]
    exact Combinator.is_valid_clone c
end

mutual
/-- Copying a copy gives the copy again: the by-value constructor parameters of
`And`, `Or` and `OneOrMore`, which copy their argument once more, add nothing. -/
theorem Combinator.copy_copy : ∀ c : Combinator, c.copy.copy = c.copy
  | .atom _ => rfl
  | .any => rfl
  | .and l r => by
    simp only [Combinator.copy, Combinator.copy_copy l, Combinator.copy_copy r]
  | .or l r => by
    simp only [Combinator.copy, Combinator.copy_copy l, Combinator.copy_copy r]
  | .one_or_more p => by
    simp only [Combinator.copy, Combinator.copy_copy p]
  | .forward _ => rfl
  | .parser inner b a f n => by
    simp only [Combinator.copy, CombinatorPtr.clone_clone_ptr inner]
theorem Combinator.clone_clone : ∀ c : Combinator, c.clone.clone = c.clone
  | .atom _ => rfl
  | .any => rfl
  | .and l r => by
    simp only [Combinator.clone, CombinatorPtr.clone, Combinator.copy_copy l,
      Combinator.copy_copy r]
  | .or l r => by
    simp only [Combinator.clone, CombinatorPtr.clone, Combinator.copy_copy l,
      Combinator.copy_copy r]
  | .one_or_more p => by
    simp only [Combinator.clone, CombinatorPtr.clone, Combinator.copy_copy p]
  | .forward _ => rfl
  | .parser inner b a f n => by
    rw [Combinator.clone]
    cases hv : (Combinator.parser inner b a f n).is_valid with
    | false => simp [CombinatorPtr.clone]
    | true =>
      have h1 : (Combinator.parser inner.clone skip skip skip "").is_valid = true := by
        rw [← hv, Parser.is_valid_eval, Parser.is_valid_eval]
        exact CombinatorPtr.is_valid_clone_ptr inner
      simp only [if_true, CombinatorPtr.clone, Combinator.clone, h1,
        CombinatorPtr.clone_clone_ptr inner]
theorem CombinatorPtr.clone_clone_ptr : ∀ p : CombinatorPtr, p.clone.clone = p.clone
  | .null => rfl
  | .to c => by
    rw [CombinatorPtr.clone]
    exact Combinator.clone_clone c
end

/-- C22 (failing input): for `bind<A>(p, "A")` over `Atom(1)`,
which is valid, `clone()` returns a `Parser` with the three default actions and
an empty name around `Atom(1)`. On the one-token input `[1]` under a root, the
rule itself runs `before_action` and `accept_action` and leaves an `A` node
below the root; the clone accepts the same token and leaves the heap as it
was. The copy constructor keeps the three actions. -/
theorem C22_clone_drops_callbacks :
    bound_atom.is_valid = true ∧
    bound_atom.clone = .to (.parser (.to (.atom 1)) skip skip skip "") ∧
    bound_atom.copy =
      .parser (.to (.atom 1)) (some (before_action "A")) (some accept_action)
        (some fail_action) "" ∧
    (bound_atom.eval 0).run (Driver.start [tok 1] (some 0)) root_heap =
      .ok ({ Driver.start [tok 1] (some 0) with accept := true, current := 1 },
           { nodes := [{ parent := none, children := [1], cls := "Root", content := "" },
                       { parent := some 0, children := [], cls := "A", content := "" }],
             built := [1], popped := [] }) ∧
    ((Combinator.parser (.to (.atom 1)) skip skip skip "").eval 0).run
        (Driver.start [tok 1] (some 0)) root_heap =
      .ok ({ Driver.start [tok 1] (some 0) with accept := true, current := 1 }, root_heap) ∧
    (bound_atom.copy.eval 0).run (Driver.start [tok 1] (some 0)) root_heap =
      (bound_atom.eval 0).run (Driver.start [tok 1] (some 0)) root_heap :=
  ⟨rfl, rfl, rfl, rfl, rfl, rfl⟩

/-! ## C23: `SyntaxTree::pop` acts on the root -/

/-- C23 (failing input): in a tree whose cursor (address 1) is
below the root (address 0), `pop` of the cursor's child (address 2) changes
nothing, and `pop` of the root's child (address 1) removes it from the root's
children, whereas `append` adds to the children of the cursor; with a null
cursor and a root, `pop` still removes from the root's children. -/
theorem C23_pop_acts_on_root :
    SyntaxTree.pop { root := some 0, cursor := some 1 } three_level_heap 2
      = .ok three_level_heap ∧
    three_level_heap.kids 1 = [2] ∧
    SyntaxTree.pop { root := some 0, cursor := some 1 } three_level_heap 1
      = .ok three_level_heap_root_popped ∧
    SyntaxTree.append { root := some 0, cursor := some 1 } three_level_heap 2
      = .ok three_level_heap_appended ∧
    SyntaxTree.pop { root := some 0, cursor := none } three_level_heap 1
      = .ok three_level_heap_root_popped ∧
    SyntaxTree.append { root := some 0, cursor := none } three_level_heap 2
      = .ok three_level_heap :=
  ⟨rfl, rfl, rfl, rfl, rfl, rfl⟩

/-! ## C24: the right-nested sequence on a proper prefix -/

/-- On the one-token input `[a]` the Driver over the right-nested sequence
returns `true`, whatever the non-zero tags. -/
theorem nested_sequence_one_token (a b c : Tag) (ha : a ≠ 0) (hb : b ≠ 0) (hc : c ≠ 0) :
    Driver.accept (Driver.of (nested_sequence a b c)) [tok a] none Heap.empty =
      .ok (true,
           { parser := nested_sequence a b c,
             finish := { Driver.start [tok a] none with accept := true, current := 1 } },
           Heap.empty) := by
  have hv : ((And (Atom a) (And (Atom b) (Atom c))).is_valid) = true := by
    simp [And, Atom, ha, hb, hc]
  simp [Driver.accept, Driver.of, nested_sequence, Parser.call, Parser.of, hv, skip,
    Action.invoke, Driver.start, Driver.is_accept, SyntaxTree.mk_root]
  simp [And, Atom, terminate, tok]

/-- C24 (failing input): the Driver over
`And(Atom(1), And(Atom(2), Atom(3)))` accepts the one-token input `[1]`: the
inner sequence, evaluated at end of input, returns its incoming state, whose
`accept` flag is set; the same holds for all non-zero tags `a`, `b`, `c` on
`[a]`. On the full input `[1, 2, 3]` the Driver accepts, and on `[1, 2]` the
last `Atom` reads the token at `end`. -/
theorem C24_nested_sequence_accepts_one_token :
    Driver.accept (Driver.of (nested_sequence 1 2 3)) [tok 1] none Heap.empty =
      .ok (true,
           { parser := nested_sequence 1 2 3,
             finish := { Driver.start [tok 1] none with accept := true, current := 1 } },
           Heap.empty) ∧
    [tok 1].map Lexem.tag ≠ [1, 2, 3] ∧
    (And (Atom 2) (Atom 3)).run
        { Driver.start [tok 1] none with accept := true, current := 1 } Heap.empty =
      .ok ({ Driver.start [tok 1] none with accept := true, current := 1 }, Heap.empty) ∧
    (∀ a b c : Tag, a ≠ 0 → b ≠ 0 → c ≠ 0 →
      Driver.accept (Driver.of (nested_sequence a b c)) [tok a] none Heap.empty =
        .ok (true,
             { parser := nested_sequence a b c,
               finish := { Driver.start [tok a] none with accept := true, current := 1 } },
             Heap.empty)) ∧
    Driver.accept (Driver.of (nested_sequence 1 2 3)) [tok 1, tok 2, tok 3] none Heap.empty =
      .ok (true,
           { parser := nested_sequence 1 2 3,
             finish := { Driver.start [tok 1, tok 2, tok 3] none with
                           accept := true, current := 3 } },
           Heap.empty) ∧
    Driver.accept (Driver.of (nested_sequence 1 2 3)) [tok 1, tok 2] none Heap.empty =
      .error .undefined :=
  ⟨rfl, by decide, rfl, nested_sequence_one_token, rfl, rfl⟩

/-! ## C25: what `before` does to the state reaches the inner combinator -/

/-- C25 (counterexample): with a `before` callback that adds one to `current`,
`Parser(Atom(2))` accepts on `[1, 2]` from position 0 and ends at position 2:
the inner `Atom` was evaluated at position 1. Evaluated at position 0, the
same `Atom` rejects. -/
theorem C25_before_moves_the_position :
    skipping_rule.call (Driver.start [tok 1, tok 2] none) Heap.empty =
      .ok ({ Driver.start [tok 1, tok 2] none with accept := true, current := 2 },
           Heap.empty) ∧
    (Atom 2).run (Driver.start [tok 1, tok 2] none) Heap.empty =
      .ok ({ Driver.start [tok 1, tok 2] none with accept := false }, Heap.empty) :=
  ⟨rfl, rfl⟩

/-- C25 (amended): a valid decorated parser evaluates its inner combinator on
the state that `before` leaves, and the matching post-action receives the
inner result; when `before` touches nothing but the tree cursor (as `skip` and
`before_action` do), the inner combinator starts at the position, on the token
vector and with the bounds of the input state. -/
theorem C25_before_feeds_inner (p : Parser) (q : IParser) (s s1 : State) (h h1 : Heap)
    (hin : p.inner = some q) (hv : q.is_valid = true)
    (hb : p.before.invoke s h = .ok (s1, h1)) :
    p.call s h =
      (match q.run s1 h1 with
       | .error e => .error e
       | .ok (result, h2) =>
         if result.accept then p.on_accept.invoke result h2
         else p.on_fail.invoke result h2) ∧
    (CursorOnly p.before →
      s1.current = s.current ∧ s1.lexems = s.lexems ∧ s1.begin = s.begin ∧
      s1.end_ = s.end_ ∧ s1.accept = s.accept) ∧
    CursorOnly skip ∧ (∀ cls, CursorOnly (some (before_action cls))) := by
  refine ⟨?_, ?_, skip_cursorOnly, before_action_cursorOnly⟩
  · simp [Parser.call, hin, hv, hb]
  · intro hc
    obtain ⟨c, rfl⟩ := hc s h s1 h1 hb
    exact ⟨rfl, rfl, rfl, rfl, rfl⟩

/-- C25 (witness): `Parser(Atom(2))` with the `before` callback that adds one
to `current`, on `[1, 2]`. -/
theorem C25_before_feeds_inner_witness :
    skipping_rule.call (Driver.start [tok 1, tok 2] none) Heap.empty =
      (match (Atom 2).run { Driver.start [tok 1, tok 2] none with current := 1 } Heap.empty with
       | .error e => .error e
       | .ok (result, h2) =>
         if result.accept then skipping_rule.on_accept.invoke result h2
         else skipping_rule.on_fail.invoke result h2) :=
  (C25_before_feeds_inner skipping_rule (Atom 2) (Driver.start [tok 1, tok 2] none)
    { Driver.start [tok 1, tok 2] none with current := 1 } Heap.empty Heap.empty
    rfl rfl rfl).1

/-! ## C26: strict progress and the loop of `OneOrMore` -/

theorem Atom_strictlyProgressing (t : Tag) : StrictlyProgressing (Atom t) := by
  intro s h r h1 _ hrun hacc
  simp only [Atom] at hrun
  split at hrun
  · simp at hrun
  · simp only [Except.ok.injEq, Prod.mk.injEq] at hrun
    obtain ⟨rfl, _⟩ := hrun
    simp only at hacc
    simp [hacc]

theorem Any_strictlyProgressing : StrictlyProgressing Any := by
  intro s h r h1 _ hrun _
  simp only [Any, Except.ok.injEq, Prod.mk.injEq] at hrun
  obtain ⟨rfl, _⟩ := hrun
  simp

theorem And_strictlyProgressing (l r : IParser) (hl : StrictlyProgressing l)
    (hr : Disciplined r) : StrictlyProgressing (And l r) := by
  intro s h res h1 hne hrun hacc
  have ht : terminate s = false := by simp [terminate, hne]
  simp only [And, ht, Bool.false_eq_true, if_false] at hrun
  split at hrun
  · simp at hrun
  · rename_i l_result hl1 hlrun
    split at hrun
    · simp only [Except.ok.injEq, Prod.mk.injEq] at hrun
      obtain ⟨rfl, _⟩ := hrun
      simp at hacc
    · rename_i hlacc
      split at hrun
      · simp at hrun
      · rename_i r_result hr1 hrrun
        split at hrun
        · simp only [Except.ok.injEq, Prod.mk.injEq] at hrun
          obtain ⟨rfl, _⟩ := hrun
          simp at hacc
        · simp only [Except.ok.injEq, Prod.mk.injEq] at hrun
          obtain ⟨rfl, _⟩ := hrun
          have h1 := hl s h l_result hl1 hne hlrun (by simpa using hlacc)
          have h2 := (hr l_result hl1 r_result _ hrrun).on_accept hacc
          omega

theorem Or_strictlyProgressing (l r : IParser) (hl : StrictlyProgressing l)
    (hr : StrictlyProgressing r) : StrictlyProgressing (Or l r) := by
  intro s h res h1 hne hrun hacc
  have ht : terminate s = false := by simp [terminate, hne]
  simp only [Or, ht, Bool.false_eq_true, if_false] at hrun
  split at hrun
  · simp at hrun
  · rename_i l_result hl1 hlrun
    split at hrun
    · simp only [Except.ok.injEq, Prod.mk.injEq] at hrun
      obtain ⟨rfl, _⟩ := hrun
      exact hl s h _ _ hne hlrun hacc
    · split at hrun
      · simp at hrun
      · rename_i r_result hr1 hrrun
        split at hrun
        · simp only [Except.ok.injEq, Prod.mk.injEq] at hrun
          obtain ⟨rfl, _⟩ := hrun
          exact hr s hl1 _ _ hne hrrun hacc
        · simp only [Except.ok.injEq, Prod.mk.injEq] at hrun
          obtain ⟨rfl, _⟩ := hrun
          simp at hacc

theorem OneOrMore_strictlyProgressing (fuel : Nat) (p : IParser)
    (hp : StrictlyProgressing p) (hd : Disciplined p) :
    StrictlyProgressing (OneOrMore fuel p) := by
  intro s h res h1 hne hrun hacc
  simp only [OneOrMore] at hrun
  split at hrun
  · simp at hrun
  · rename_i result h0 hprun
    have hloop := loop_threaded p hd fuel result h0 res h1 hrun
    cases hra : result.accept with
    | true =>
      have := hp s h result h0 hne hprun hra
      omega
    | false =>
      exfalso
      cases fuel with
      | zero =>
        simp only [OneOrMore.loop, hra, Bool.and_false, Bool.false_eq_true, if_false,
          Except.ok.injEq, Prod.mk.injEq] at hrun
        obtain ⟨rfl, _⟩ := hrun
        simp [hra] at hacc
      | succ n =>
        simp only [OneOrMore.loop, hra, Bool.and_false, Bool.false_eq_true, if_false,
          Except.ok.injEq, Prod.mk.injEq] at hrun
        obtain ⟨rfl, _⟩ := hrun
        simp [hra] at hacc

theorem plain_strictlyProgressing (q : IParser) (hq : StrictlyProgressing q) :
    StrictlyProgressing (Binding.plain.decorate (Parser.of q)).toIParser := by
  intro s h res h1 hne hrun hacc
  simp only [Binding.decorate, Parser.toIParser, Parser.call, Parser.of, skip,
    Action.invoke] at hrun
  split at hrun
  · simp at hrun
  · split at hrun
    · simp at hrun
    · rename_i result h2 hqrun
      split at hrun
      · simp only [Except.ok.injEq, Prod.mk.injEq] at hrun
        obtain ⟨rfl, _⟩ := hrun
        exact hq s h _ _ hne hqrun hacc
      · simp only [Except.ok.injEq, Prod.mk.injEq] at hrun
        obtain ⟨rfl, _⟩ := hrun
        exact hq s h _ _ hne hqrun hacc

/-- Every grammar with default callbacks makes strict progress when it accepts
away from `end`. -/
theorem build_strictlyProgressing (fuel : Nat) :
    ∀ g : Grammar, g.default_callbacks = true → StrictlyProgressing (g.build fuel)
  | .atom t, _ => Atom_strictlyProgressing t
  | .any, _ => Any_strictlyProgressing
  | .and l r, hg => by
    simp only [Grammar.default_callbacks, Bool.and_eq_true] at hg
    exact And_strictlyProgressing _ _ (build_strictlyProgressing fuel l hg.1)
      (build_disciplined fuel r)
  | .or l r, hg => by
    simp only [Grammar.default_callbacks, Bool.and_eq_true] at hg
    exact Or_strictlyProgressing _ _ (build_strictlyProgressing fuel l hg.1)
      (build_strictlyProgressing fuel r hg.2)
  | .one_or_more p, hg => by
    simp only [Grammar.default_callbacks] at hg
    exact OneOrMore_strictlyProgressing fuel _ (build_strictlyProgressing fuel p hg)
      (build_disciplined fuel p)
  | .decorated b p, hg => by
    simp only [Grammar.default_callbacks, Bool.and_eq_true, decide_eq_true_eq] at hg
    obtain ⟨rfl, hp⟩ := hg
    exact plain_strictlyProgressing _ (build_strictlyProgressing fuel p hp)

/-- Once `current` is past `end`, the loop of `OneOrMore(And(Any, Any))` uses
up every budget. -/
theorem loop_pairs_past_end :
    ∀ (fuel : Nat) (res : State) (h : Heap), res.accept = true → res.end_ < res.current →
      OneOrMore.loop (And Any Any) fuel res h = .error .fuel := by
  intro fuel
  induction fuel with
  | zero =>
    intro res h hacc hlt
    have ht : terminate res = false := by simp [terminate]; omega
    simp [OneOrMore.loop, ht, hacc]
  | succ n ih =>
    intro res h hacc hlt
    have ht : terminate res = false := by simp [terminate]; omega
    have hrun : (And Any Any).run res h =
        .ok ({ res with accept := true, current := res.current + 1 + 1 }, h) := by
      simp [And, Any, ht]
    rw [OneOrMore.loop]
    simp only [ht, hacc, hrun, Bool.not_false, Bool.and_self, if_true]
    simp only [beq_iff_eq, Bool.true_eq_false, if_false]
    exact ih _ h rfl (by simp only; omega)

/-- C26 (failing input): every grammar with default callbacks that
accepts from a state with `current != end` ends strictly further; still
`OneOrMore(And(Any, Any))`, started at position 0 of a one-token input, has no
result whatever the number of iterations allowed: its first evaluation ends at
position 2, past `end == 1`, and every further iteration accepts. -/
theorem C26_strict_progress_yet_no_termination :
    (∀ (g : Grammar) (fuel : Nat) (s : State) (h : Heap) (r : State) (h1 : Heap),
      g.default_callbacks = true → s.current ≠ s.end_ →
      (g.build fuel).run s h = .ok (r, h1) → r.accept = true → s.current < r.current) ∧
    pairs_of_any.default_callbacks = true ∧
    (Driver.start [tok 1] none).current ≠ (Driver.start [tok 1] none).end_ ∧
    (And Any Any).run (Driver.start [tok 1] none) Heap.empty =
      .ok ({ Driver.start [tok 1] none with accept := true, current := 2 }, Heap.empty) ∧
    ¬ ∃ (fuel : Nat) (r : State) (h1 : Heap),
      (pairs_of_any.build fuel).run (Driver.start [tok 1] none) Heap.empty = .ok (r, h1) := by
  refine ⟨?_, rfl, by decide, rfl, ?_⟩
  · intro g fuel s h r h1 hg hne hrun hacc
    exact build_strictlyProgressing fuel g hg s h r h1 hne hrun hacc
  · rintro ⟨fuel, r, h1, hrun⟩
    have h0 : (And Any Any).run (Driver.start [tok 1] none) Heap.empty =
        .ok ({ Driver.start [tok 1] none with accept := true, current := 2 }, Heap.empty) :=
      rfl
    have hl := loop_pairs_past_end fuel
      { Driver.start [tok 1] none with accept := true, current := 2 } Heap.empty rfl
      (by decide)
    simp only [pairs_of_any, Grammar.build, OneOrMore, h0] at hrun
    rw [hl] at hrun
    simp at hrun

end parselib
